import Mathlib

set_option maxRecDepth 100000

/-!
Verification of the lwm library: a static Merkle tree with single-leaf and
consecutive-range audit paths (mt.go), and a wildcard lookup layer built on
top of it (lwm.go).

Modelling conventions, shared by every definition below:
* a Go `[]byte` is a `List Nat` (`Bytes`); a Go `string` is likewise a
  `List Nat` of its bytes, so Go's byte-wise string comparison becomes
  `strLt` below;
* a Go `[][]byte` is a `List Bytes`; a nil slice is modelled by `[]`
  (the repository never builds a non-nil empty slice where nil-ness is
  tested);
* a Go `int` is `Int` where negative values are reachable (leaf indices in
  proofs, tree sizes handed to `MthFromRangeAp`) and `Nat` where they are
  not (list lengths);
* Go's integer division and remainder truncate toward zero, hence
  `Int.tdiv` / `Int.tmod`;
* the variadic hash `func(data ...[]byte) []byte` is `Hash`, a function on
  the list of its arguments;
* the lazily populated `hashCache` of mt.go is dropped: it only memoizes
  `mth` results, so the pure recursive definition is its observable
  behaviour.
-/

namespace Lwm

/-- Go `[]byte`. -/
abbrev Bytes := List Nat

/-- Go `func(data ...[]byte) []byte`. -/
abbrev Hash := List Bytes → Bytes

/-- The constant `hashLen = 32` of mt.go. -/
def hashLen : Nat := 32

/-- Go helper `last` of mt.go: the last entry of a sequence, nil (here `[]`)
when empty. -/
def last (data : List Bytes) : Bytes := data.getLastD []

/-- Go helper `next` of mt.go: the sequence without its last entry, nil when
one or no entries remain (Go's `data[:n-1]` for `n > 1`, nil otherwise,
which is exactly `List.dropLast`). -/
def next (data : List Bytes) : List Bytes := data.dropLast

/-- Fuel-driven core of `bitLen`; the fuel is an upper bound on the
argument, so the recursion on `m / 2` always fits. Structural recursion is
used so that the kernel can evaluate it. -/
def bitLenF : Nat → Nat → Nat
  | 0, _ => 0
  | f + 1, m => if m = 0 then 0 else bitLenF f (m / 2) + 1

/-- Number of binary digits of `m` (with `bitLen 0 = 0`): Go's
`big.Int.BitLen` on a non-negative value. -/
def bitLen (m : Nat) : Nat := bitLenF m m

/-- Go `lpow2s` of mt.go: `int(math.Pow(2, float64(BitLen(n-1)-1)))`.
`big.Int.BitLen` takes the absolute value, hence `natAbs`. For `n = 1` the
Go exponent is `-1` and `int(0.5) = 0`; for every other `n` the exponent
`e = BitLen(|n-1|)-1` is a natural number, `math.Pow(2, e)` is the exact
float `2^e` (powers of two up to `2^1023` are representable and `math.Pow`
is exact on them) and the conversion to `int` is exact for every call the
library makes, so the model returns `2^e`. -/
def lpow2s (n : Int) : Int :=
  if n = 1 then 0 else 2 ^ (bitLen (n - 1).natAbs - 1)

/-- The `MerkleTree` record of mt.go, without its cache (see the module
comment). -/
structure MerkleTree where
  twc : Bytes
  leafPrefix : Bytes
  interiorPrefix : Bytes
  hash : Hash
  data : List Bytes

/-- Go `NewMerkleTree` of mt.go. -/
def NewMerkleTree (twc leafPrefix interiorPrefix : Bytes) (hash : Hash)
    (data : List Bytes) : MerkleTree :=
  { twc := twc, leafPrefix := leafPrefix, interiorPrefix := interiorPrefix,
    hash := hash, data := data }

/-! Facts about `bitLen` and `lpow2s`, needed for the termination and the
shape of every recursive tree walk. -/

theorem bitLenF_fuel : ∀ f₁ f₂ m : Nat, m ≤ f₁ → m ≤ f₂ →
    bitLenF f₁ m = bitLenF f₂ m := by
  intro f₁
  induction f₁ using Nat.strong_induction_on with
  | _ f₁ ih =>
    intro f₂ m h₁ h₂
    match f₁, f₂ with
    | 0, 0 => rfl
    | 0, f₂ + 1 =>
      interval_cases m
      simp [bitLenF]
    | f₁ + 1, 0 =>
      interval_cases m
      simp [bitLenF]
    | f₁ + 1, f₂ + 1 =>
      by_cases hm : m = 0
      · simp [bitLenF, hm]
      · simp only [bitLenF, hm, if_false]
        rw [ih f₁ (by omega) f₂ (m / 2) (by omega) (by omega)]

theorem bitLen_zero : bitLen 0 = 0 := rfl

theorem bitLen_eq (m : Nat) (hm : 0 < m) : bitLen m = bitLen (m / 2) + 1 := by
  cases m with
  | zero => omega
  | succ k =>
    show bitLenF (k + 1) (k + 1) = _
    simp only [bitLenF, Nat.succ_ne_zero, if_false]
    have : bitLenF k ((k + 1) / 2) = bitLen ((k + 1) / 2) :=
      bitLenF_fuel k ((k + 1) / 2) ((k + 1) / 2) (by omega) (by omega)
    omega

theorem bitLen_pos (m : Nat) (hm : 0 < m) : 0 < bitLen m := by
  rw [bitLen_eq m hm]; omega

theorem lt_two_pow_bitLen (m : Nat) : m < 2 ^ bitLen m := by
  induction m using Nat.strong_induction_on with
  | _ m ih =>
    rcases Nat.eq_zero_or_pos m with h | h
    · subst h; simp [bitLen_zero]
    · rw [bitLen_eq m h, pow_succ]
      have := ih (m / 2) (by omega)
      omega

theorem two_pow_bitLen_pred_le (m : Nat) (hm : 0 < m) :
    2 ^ (bitLen m - 1) ≤ m := by
  induction m using Nat.strong_induction_on with
  | _ m ih =>
    rw [bitLen_eq m hm]
    rcases Nat.lt_or_ge m 2 with h2 | h2
    · interval_cases m
      simp [bitLen_zero]
    · have hpos : 0 < m / 2 := by omega
      have := ih (m / 2) (by omega) hpos
      have hb := bitLen_pos (m / 2) hpos
      have : 2 ^ (bitLen (m / 2) + 1 - 1) = 2 * 2 ^ (bitLen (m / 2) - 1) := by
        rw [Nat.add_sub_cancel]
        conv_lhs => rw [show bitLen (m / 2) = bitLen (m / 2) - 1 + 1 by omega]
        rw [pow_succ]
        ring
      omega

theorem bitLen_mono {a b : Nat} (h : a ≤ b) : bitLen a ≤ bitLen b := by
  by_contra hlt
  push_neg at hlt
  rcases Nat.eq_zero_or_pos a with ha | ha
  · rw [ha, bitLen_zero] at hlt; omega
  have h1 : 2 ^ (bitLen a - 1) ≤ a := two_pow_bitLen_pred_le a ha
  have h2 : b < 2 ^ bitLen b := lt_two_pow_bitLen b
  have h3 : 2 ^ bitLen b ≤ 2 ^ (bitLen a - 1) :=
    Nat.pow_le_pow_right (by omega) (by omega)
  omega

/-- For a natural tree size `n ≥ 2`, the Go helper returns the natural
number `2 ^ (bitLen (n-1) - 1)`. -/
theorem lpow2s_natCast (n : Nat) (hn : 2 ≤ n) :
    lpow2s n = ((2 ^ (bitLen (n - 1) - 1) : Nat) : Int) := by
  have : (n : Int) ≠ 1 := by omega
  rw [lpow2s, if_neg this]
  have : ((n : Int) - 1).natAbs = n - 1 := by omega
  rw [this]
  push_cast
  ring

theorem lpow2s_toNat (n : Nat) (hn : 2 ≤ n) :
    (lpow2s n).toNat = 2 ^ (bitLen (n - 1) - 1) := by
  rw [lpow2s_natCast n hn, Int.toNat_natCast]

theorem lpow2s_toNat_pos (n : Nat) (hn : 2 ≤ n) : 1 ≤ (lpow2s n).toNat := by
  rw [lpow2s_toNat n hn]
  exact Nat.one_le_two_pow

theorem lpow2s_toNat_lt (n : Nat) (hn : 2 ≤ n) : (lpow2s n).toNat ≤ n - 1 := by
  rw [lpow2s_toNat n hn]
  exact two_pow_bitLen_pred_le (n - 1) (by omega)

theorem bitLen_two_pow (e : Nat) : bitLen (2 ^ e) = e + 1 := by
  induction e with
  | zero => rfl
  | succ k ih =>
    rw [bitLen_eq (2 ^ (k + 1)) (Nat.pos_pow_of_pos _ (by omega))]
    have : 2 ^ (k + 1) / 2 = 2 ^ k := by
      rw [pow_succ]
      omega
    rw [this, ih]

/-- Largest power of two strictly below `n`: any `2 ^ e < n` is at most
`(lpow2s n).toNat`. -/
theorem lpow2s_greatest (n : Nat) (hn : 2 ≤ n) (e : Nat) (he : 2 ^ e < n) :
    2 ^ e ≤ (lpow2s n).toNat := by
  rw [lpow2s_toNat n hn]
  apply Nat.pow_le_pow_right (by omega)
  by_contra hlt
  push_neg at hlt
  have h1 : bitLen (2 ^ e) = e + 1 := bitLen_two_pow e
  have h2 : bitLen (2 ^ e) ≤ bitLen (n - 1) := bitLen_mono (by omega)
  omega

/-- The Go `mth` of mt.go (the cache argument dropped; see the module
comment). `data[0]` is `headD`. -/
def MerkleTree.mth (mt : MerkleTree) (data : List Bytes) : Bytes :=
  if data.length = 0 then mt.hash [mt.twc]
  else if data.length = 1 then mt.hash [mt.twc, mt.leafPrefix, data.headD []]
  else
    let k := (lpow2s data.length).toNat
    mt.hash [mt.interiorPrefix, mt.mth (data.take k), mt.mth (data.drop k)]
termination_by data.length
decreasing_by
  · have h1 := lpow2s_toNat_pos data.length (by omega)
    have h2 := lpow2s_toNat_lt data.length (by omega)
    simp only [List.length_take]
    omega
  · have h1 := lpow2s_toNat_pos data.length (by omega)
    simp only [List.length_drop]
    omega

/-- Go `Mth` of mt.go. -/
def MerkleTree.Mth (mt : MerkleTree) : Bytes := mt.mth mt.data

/-- The Go `ap` of mt.go (cache dropped): the audit path for the `m`-th
leaf, deepest sibling first. Go's `append(path, x)` is `path ++ [x]`. -/
def MerkleTree.ap (mt : MerkleTree) (m : Int) (data : List Bytes) :
    List Bytes :=
  if data.length ≤ 1 then []
  else
    let k := lpow2s data.length
    if m < k then
      mt.ap m (data.take k.toNat) ++ [mt.mth (data.drop k.toNat)]
    else
      mt.ap (m - k) (data.drop k.toNat) ++ [mt.mth (data.take k.toNat)]
termination_by data.length
decreasing_by
  · have h1 := lpow2s_toNat_pos data.length (by omega)
    have h2 := lpow2s_toNat_lt data.length (by omega)
    simp only [List.length_take]
    omega
  · have h1 := lpow2s_toNat_pos data.length (by omega)
    simp only [List.length_drop]
    omega

/-- Go `Ap` of mt.go. -/
def MerkleTree.Ap (mt : MerkleTree) (m : Int) : List Bytes := mt.ap m mt.data

/-- The loop body of Go `MthFromAp`: while `lastIndex > 0`, combine with the
next path element on the left when `index` is odd, on the right when `index`
is even and not the last node of its level, and skip otherwise; then halve
both. Go `head` yields `(path[0], path[1:])`, i.e. `headD []` and `tail`. -/
def MerkleTree.mthFromApLoop (mt : MerkleTree) (r : Bytes)
    (index lastIndex : Int) (path : List Bytes) : Bytes :=
  if lastIndex > 0 then
    if index.tmod 2 = 1 then
      mt.mthFromApLoop (mt.hash [mt.interiorPrefix, path.headD [], r])
        (index.tdiv 2) (lastIndex.tdiv 2) path.tail
    else if index < lastIndex then
      mt.mthFromApLoop (mt.hash [mt.interiorPrefix, r, path.headD []])
        (index.tdiv 2) (lastIndex.tdiv 2) path.tail
    else
      mt.mthFromApLoop r (index.tdiv 2) (lastIndex.tdiv 2) path
  else r
termination_by lastIndex.toNat
decreasing_by
  all_goals
    have : lastIndex.tdiv 2 = lastIndex / 2 := Int.tdiv_eq_ediv (by omega) (by omega)
    omega

/-- Go `MthFromAp` of mt.go. -/
def MerkleTree.MthFromAp (mt : MerkleTree) (l : Bytes) (index size : Int)
    (path : List Bytes) : Bytes :=
  mt.mthFromApLoop (mt.hash [mt.twc, mt.leafPrefix, l]) index (size - 1) path

/-- Go `split` of mt.go: how a consecutive range of `n` leaves starting at
subtree-relative index `i` splits at the power-of-two boundary `k`:
`(sindex, lindex, rindex)`. Go's `min` on ints is `min` on `Int`. -/
def split (k n i : Int) : Int × Int × Int :=
  let s := k - i
  if 0 < s then (min n s, i, 0) else (0, 0, -s)

theorem split_pos {k i : Int} (n : Int) (h : i < k) :
    split k n i = (min n (k - i), i, 0) := by
  simp [split, show (0:Int) < k - i by omega]

theorem split_nonpos {k i : Int} (n : Int) (h : k ≤ i) :
    split k n i = (0, 0, i - k) := by
  simp only [split, show ¬ (0:Int) < k - i by omega, if_false]
  ring_nf

/-- Positivity of `lpow2s` away from 1 (on every argument `dp`/`jp` can
reach): `2 ^ e ≥ 1`. -/
theorem lpow2s_pos (n : Int) (h : n ≠ 1) : 1 ≤ lpow2s n := by
  rw [lpow2s, if_neg h]
  have : (0:Int) < 2 ^ (bitLen (n - 1).natAbs - 1) := by positivity
  omega

theorem lpow2s_le_of_two_le (n : Int) (h : 2 ≤ n) : lpow2s n ≤ n - 1 := by
  have hn : n = ((n.toNat : Nat) : Int) := by omega
  rw [hn, lpow2s_natCast n.toNat (by omega)]
  have := lpow2s_toNat_lt n.toNat (by omega)
  have := lpow2s_toNat n.toNat (by omega)
  omega

theorem lpow2s_le_of_nonpos (n : Int) (h : n ≤ 0) : lpow2s n ≤ 1 - n := by
  have h1 : n ≠ 1 := by omega
  rw [lpow2s, if_neg h1]
  have habs : (n - 1).natAbs = (1 - n).toNat := by omega
  rw [habs]
  have hpos : 0 < (1 - n).toNat := by omega
  have := two_pow_bitLen_pred_le (1 - n).toNat hpos
  have hcast : ((2 : Int) ^ (bitLen (1 - n).toNat - 1)) =
      (((2 : Nat) ^ (bitLen (1 - n).toNat - 1) : Nat) : Int) := by push_cast; ring
  rw [hcast]
  omega

/-- Measure for `dp`'s second lexicographic component. -/
def nuDp (n : Int) : Nat := if 1 ≤ n then n.toNat else (2 - n).toNat

theorem nuDp_lpow2s_lt (n : Int) (h : n ≠ 1) : nuDp (lpow2s n) < nuDp n := by
  have hk1 := lpow2s_pos n h
  rcases le_or_lt 2 n with h2 | h2
  · have := lpow2s_le_of_two_le n h2
    simp only [nuDp, if_pos hk1, if_pos (by omega : (1:Int) ≤ n)]
    omega
  · have h0 : n ≤ 0 := by omega
    have := lpow2s_le_of_nonpos n h0
    simp only [nuDp, if_pos hk1, if_neg (by omega : ¬ (1:Int) ≤ n)]
    omega

/-- Go `dp` of mt.go: threads a single audit path down disjoint subtrees of
a range reconstruction. -/
def MerkleTree.dp (mt : MerkleTree) (data : List Bytes) (i n : Int)
    (ap : List Bytes) : Bytes :=
  if data.length = 0 then last ap
  else if n = 1 then mt.hash [mt.twc, mt.leafPrefix, last data]
  else
    let k := lpow2s n
    let sindex := (split k data.length i).1
    let lindex := (split k data.length i).2.1
    let rindex := (split k data.length i).2.2
    mt.hash [mt.interiorPrefix,
      mt.dp (data.take sindex.toNat) lindex k (next ap),
      mt.dp (data.drop sindex.toNat) rindex (n - k) (next ap)]
termination_by (data.length, 2 * i.toNat + nuDp n)
decreasing_by
  · -- left child
    have hk1 : 1 ≤ lpow2s n := lpow2s_pos n (by assumption)
    have hnu : nuDp (lpow2s n) < nuDp n := nuDp_lpow2s_lt n (by assumption)
    rcases lt_or_ge i (lpow2s n) with hik | hik
    · rw [split_pos data.length hik]
      simp only [List.length_take]
      rcases lt_or_ge ((min (data.length : Int) (lpow2s n - i)).toNat)
        data.length with hlt | hge
      · exact Prod.Lex.left _ _ (by omega)
      · have hmin : (min (data.length : Int) (lpow2s n - i)).toNat = data.length := by
          omega
        rw [hmin]
        have : min data.length data.length = data.length := by omega
        rw [this]
        exact Prod.Lex.right _ (by omega)
    · rw [split_nonpos data.length hik]
      simp only [Int.toNat_zero, List.take_zero, List.length_nil]
      exact Prod.Lex.left _ _ (by omega)
  · -- right child
    have hk1 : 1 ≤ lpow2s n := lpow2s_pos n (by assumption)
    have hnu : nuDp (lpow2s n) < nuDp n := nuDp_lpow2s_lt n (by assumption)
    rcases lt_or_ge i (lpow2s n) with hik | hik
    · rw [split_pos data.length hik]
      simp only [List.length_drop]
      have hs1 : 1 ≤ (min (data.length : Int) (lpow2s n - i)).toNat := by omega
      exact Prod.Lex.left _ _ (by omega)
    · rw [split_nonpos data.length hik]
      simp only [Int.toNat_zero, List.drop_zero]
      apply Prod.Lex.right
      have hcase : 2 ≤ n ∨ n ≤ 0 := by
        rcases lt_trichotomy n 1 with h | h | h
        · right; omega
        · exact absurd h (by assumption)
        · left; omega
      rcases hcase with h2 | h0
      · have hle := lpow2s_le_of_two_le n h2
        simp only [nuDp]
        rw [if_pos (by omega : (1:Int) ≤ n), if_pos (by omega : (1:Int) ≤ n - lpow2s n)]
        omega
      · have hle := lpow2s_le_of_nonpos n h0
        simp only [nuDp]
        rw [if_neg (by omega : ¬ (1:Int) ≤ n), if_neg (by omega : ¬ (1:Int) ≤ n - lpow2s n)]
        omega

/-- Go `jp` of mt.go: walks `{left,right}` audit paths while they share a
common top (joint paths), then hands over to `dp` (disjoint paths), aliasing
an absent path to the present one first. -/
def MerkleTree.jp (mt : MerkleTree) (data : List Bytes) (i n : Int)
    (lAp rAp : List Bytes) : Bytes :=
  let k := lpow2s n
  let sindex := (split k data.length i).1
  let lindex := (split k data.length i).2.1
  let rindex := (split k data.length i).2.2
  if lAp ≠ [] ∧ rAp ≠ [] ∧ last lAp = last rAp then
    if 0 < sindex then
      mt.hash [mt.interiorPrefix,
        mt.jp data lindex k (next lAp) (next rAp), last lAp]
    else
      mt.hash [mt.interiorPrefix, last rAp,
        mt.jp data rindex (n - k) (next lAp) (next rAp)]
  else
    let lAp2 := if lAp = [] then rAp else lAp
    let rAp2 := if lAp = [] then rAp else if rAp = [] then lAp else rAp
    mt.hash [mt.interiorPrefix,
      mt.dp (data.take sindex.toNat) lindex k lAp2,
      mt.dp (data.drop sindex.toNat) rindex (n - k) rAp2]
termination_by lAp.length + rAp.length
decreasing_by
  all_goals
    rename_i h
    obtain ⟨hl, hr, -⟩ := h
    have h1 : 0 < lAp.length := List.length_pos.mpr hl
    have h2 : 0 < rAp.length := List.length_pos.mpr hr
    simp only [next, List.length_dropLast]
    omega

/-- Go `MthFromRangeAp` of mt.go. The Go `([]byte, error)` return is an
`Except`: `.error` carries the Go error string. -/
def MerkleTree.MthFromRangeAp (mt : MerkleTree) (data : List Bytes)
    (i n : Int) (lAp rAp : List Bytes) : Except String Bytes :=
  if n = 0 then
    if data ≠ [] ∨ 0 ≤ i ∨ lAp ≠ [] ∨ rAp ≠ [] then
      .error "malformed proof: tree is empty"
    else .ok (mt.hash [mt.twc])
  else if n = 1 then
    if data.length ≠ 1 ∨ i ≠ 0 ∨ lAp ≠ [] ∨ rAp ≠ [] then
      .error "malformed proof: the root is a leaf"
    else .ok (mt.hash [mt.twc, mt.leafPrefix, data.headD []])
  else if n < i + data.length then
    .error "malformed proof: tree too small"
  else if data.length = 1 ∧ 0 < i ∧ i < n - 1 then
    .error "malformed proof: expected range but got exact"
  else
    .ok (mt.jp data i n lAp rAp)

/-! Unfolding lemmas for the recursive tree walks. -/

theorem mth_nil (mt : MerkleTree) : mt.mth [] = mt.hash [mt.twc] := by
  rw [MerkleTree.mth]
  simp

theorem mth_empty (mt : MerkleTree) (data : List Bytes)
    (h : data.length = 0) : mt.mth data = mt.hash [mt.twc] := by
  rw [MerkleTree.mth, if_pos h]

theorem mth_single (mt : MerkleTree) (x : Bytes) :
    mt.mth [x] = mt.hash [mt.twc, mt.leafPrefix, x] := by
  rw [MerkleTree.mth]
  simp

theorem mth_interior (mt : MerkleTree) (data : List Bytes)
    (h : 2 ≤ data.length) :
    mt.mth data = mt.hash [mt.interiorPrefix,
      mt.mth (data.take (lpow2s data.length).toNat),
      mt.mth (data.drop (lpow2s data.length).toNat)] := by
  rw [MerkleTree.mth, if_neg (by omega), if_neg (by omega)]

theorem ap_small (mt : MerkleTree) (m : Int) (data : List Bytes)
    (h : data.length ≤ 1) : mt.ap m data = [] := by
  rw [MerkleTree.ap, if_pos h]

theorem ap_left (mt : MerkleTree) (m : Int) (data : List Bytes)
    (h : 2 ≤ data.length) (hm : m < lpow2s data.length) :
    mt.ap m data = mt.ap m (data.take (lpow2s data.length).toNat) ++
      [mt.mth (data.drop (lpow2s data.length).toNat)] := by
  rw [MerkleTree.ap, if_neg (by omega)]
  simp only [if_pos hm]

theorem ap_right (mt : MerkleTree) (m : Int) (data : List Bytes)
    (h : 2 ≤ data.length) (hm : lpow2s data.length ≤ m) :
    mt.ap m data = mt.ap (m - lpow2s data.length)
      (data.drop (lpow2s data.length).toNat) ++
      [mt.mth (data.take (lpow2s data.length).toNat)] := by
  rw [MerkleTree.ap, if_neg (by omega)]
  simp only [if_neg (by omega : ¬ m < lpow2s data.length)]

/-- Whether the Go pair `([]byte, error)` carries an error. -/
def isErr : Except String Bytes → Bool
  | .error _ => true
  | .ok _ => false

/-- A concrete executable hash used to instantiate theorems: a
length-prefixed encoding of the argument list. It stands in for the
caller-supplied hash function. -/
def encHash : Hash := fun parts =>
  parts.length :: (parts.map (fun p => p.length :: p)).flatten

/-- A concrete Merkle tree over `encHash` with no leaves (range-proof
reconstruction never reads `data`, so this instantiates verifier-side
claims). -/
def mtEnc : MerkleTree := NewMerkleTree [255] [0] [1] encHash []

/-- The four malformed-proof conditions exactly as claim C6 words them
(spec wording, for comparison against the source's behaviour): tree-empty
shape violated, root-is-leaf shape violated, tree-too-small with `n > 1`,
single-middle-leaf with `n > 1`. -/
def specRangeApError (data : List Bytes) (i n : Int)
    (lAp rAp : List Bytes) : Prop :=
  (n = 0 ∧ ¬(data = [] ∧ lAp = [] ∧ rAp = [] ∧ i < 0)) ∨
  (n = 1 ∧ ¬(data.length = 1 ∧ i = 0 ∧ lAp = [] ∧ rAp = [])) ∨
  (1 < n ∧ n < i + data.length) ∨
  (1 < n ∧ data.length = 1 ∧ 0 < i ∧ i < n - 1)

/-- The amended malformed-proof conditions: as claim C6, but the last two
conditions apply whenever `n` is neither 0 nor 1 (the source applies them
to negative sizes too, not only to `n > 1`). -/
def specRangeApErrorAmended (data : List Bytes) (i n : Int)
    (lAp rAp : List Bytes) : Prop :=
  (n = 0 ∧ ¬(data = [] ∧ lAp = [] ∧ rAp = [] ∧ i < 0)) ∨
  (n = 1 ∧ ¬(data.length = 1 ∧ i = 0 ∧ lAp = [] ∧ rAp = [])) ∨
  (n ≠ 0 ∧ n ≠ 1 ∧ n < i + data.length) ∨
  (n ≠ 0 ∧ n ≠ 1 ∧ data.length = 1 ∧ 0 < i ∧ i < n - 1)

/-- Claim C6 (counterexample): at `data = [], i = 0, n = -1` none of the
four conditions enumerated by the claim holds (they require `n > 1`), yet
`MthFromRangeAp` returns the "tree too small" error, so the claimed
raises-iff equivalence is false at this input. -/
theorem C6_cex :
    isErr (mtEnc.MthFromRangeAp [] 0 (-1) [] []) = true ∧
    ¬ specRangeApError [] 0 (-1) [] [] := by
  constructor
  · rfl
  · rw [specRangeApError]
    push_neg
    norm_num

/-- Claim C6 (amended): `MthFromRangeAp` returns an error exactly when one
of the four enumerated malformed-proof conditions holds, with the third and
fourth condition read as applying to every size other than 0 and 1, and
returns a digest with no error in every other case. -/
theorem C6_raises_iff (mt : MerkleTree) (data : List Bytes) (i n : Int)
    (lAp rAp : List Bytes) :
    isErr (mt.MthFromRangeAp data i n lAp rAp) = true ↔
      specRangeApErrorAmended data i n lAp rAp := by
  rw [MerkleTree.MthFromRangeAp, specRangeApErrorAmended]
  split_ifs with h1 h2 h3 h4 h5 h6
  · simp only [isErr, true_iff]
    refine Or.inl ⟨h1, ?_⟩
    rintro ⟨hd, hl, hr, hi⟩
    rcases h2 with h | h | h | h
    · exact h hd
    · omega
    · exact h hl
    · exact h hr
  · simp only [isErr, Bool.false_eq_true, false_iff]
    push_neg at h2
    rintro (⟨-, hc⟩ | ⟨hn1, -⟩ | ⟨hn0, -⟩ | ⟨hn0, -, -⟩)
    · exact hc ⟨h2.1, h2.2.2.1, h2.2.2.2, by omega⟩
    · omega
    · exact hn0 h1
    · exact hn0 h1
  · simp only [isErr, true_iff]
    refine Or.inr (Or.inl ⟨h3, ?_⟩)
    rintro ⟨hd, hi, hl, hr⟩
    rcases h4 with h | h | h | h
    · exact h hd
    · exact h hi
    · exact h hl
    · exact h hr
  · simp only [isErr, Bool.false_eq_true, false_iff]
    push_neg at h4
    rintro (⟨hn0, -⟩ | ⟨-, hc⟩ | ⟨-, hn1, -⟩ | ⟨-, hn1, -⟩)
    · omega
    · exact hc ⟨h4.1, h4.2.1, h4.2.2.1, h4.2.2.2⟩
    · exact hn1 h3
    · exact hn1 h3
  · simp only [isErr, true_iff]
    exact Or.inr (Or.inr (Or.inl ⟨h1, h3, h5⟩))
  · simp only [isErr, true_iff]
    exact Or.inr (Or.inr (Or.inr ⟨h1, h3, h6.1, h6.2.1, h6.2.2⟩))
  · simp only [isErr, Bool.false_eq_true, false_iff]
    rintro (⟨hn0, -⟩ | ⟨hn1, -⟩ | ⟨-, -, hc⟩ | ⟨-, -, hl1, hi0, hin⟩)
    · exact h1 hn0
    · exact h3 hn1
    · exact h5 hc
    · exact h6 ⟨hl1, hi0, hin⟩

/-- Claim C10: for every tree size `2 ≤ n ≤ 2^53` (a range in which the
float distinctions of the Go source vanish, see `lpow2s`), `lpow2s n` is
the largest power of two strictly below `n`; in particular it lies between
1 and `n - 1`, so both recursion halves of `mth`, `ap`, `jp` and `dp` are
strictly smaller than their parent. -/
theorem C10_lpow2s_correct (n : Int) (h2 : 2 ≤ n) (h53 : n ≤ 2 ^ 53) :
    (∃ e : Nat, lpow2s n = 2 ^ e) ∧
    (∀ m : Int, (∃ e : Nat, m = 2 ^ e) → m < n → m ≤ lpow2s n) ∧
    1 ≤ lpow2s n ∧ lpow2s n ≤ n - 1 := by
  have hpos : (0:Int) ≤ n := by omega
  lift n to Nat using hpos with w
  have hw2 : 2 ≤ w := by exact_mod_cast h2
  refine ⟨⟨bitLen (w - 1) - 1, ?_⟩, ?_, lpow2s_pos w (by omega),
    lpow2s_le_of_two_le w h2⟩
  · rw [lpow2s_natCast w hw2]
    push_cast
    ring
  · rintro m ⟨e, rfl⟩ hlt
    have hcast : ((2 ^ e : Nat) : Int) = (2 : Int) ^ e := by push_cast; ring
    have hlt' : 2 ^ e < w := by omega
    have hle := lpow2s_greatest w hw2 e hlt'
    have htn := lpow2s_toNat w hw2
    rw [lpow2s_natCast w hw2]
    omega

/-- Witness for C10 at `n = 5`. -/
theorem C10_witness :
    ((2:Int) ≤ 5 ∧ (5:Int) ≤ 2 ^ 53) ∧
    ((∃ e : Nat, lpow2s 5 = 2 ^ e) ∧
      (∀ m : Int, (∃ e : Nat, m = 2 ^ e) → m < 5 → m ≤ lpow2s 5) ∧
      1 ≤ lpow2s 5 ∧ lpow2s 5 ≤ 5 - 1) :=
  ⟨⟨by norm_num, by norm_num⟩, C10_lpow2s_correct 5 (by norm_num) (by norm_num)⟩

/-- Claim C5: `Mth` computes the left-complete recursive root. The split
point of the interior case is characterized exactly as the claim does: the
largest power of two strictly below the leaf count. -/
theorem C5_mth_left_complete (mt : MerkleTree) :
    (mt.data = [] → mt.Mth = mt.hash [mt.twc]) ∧
    (∀ x, mt.data = [x] → mt.Mth = mt.hash [mt.twc, mt.leafPrefix, x]) ∧
    (∀ k : Nat, 2 ≤ mt.data.length →
      (∃ e : Nat, k = 2 ^ e) → k < mt.data.length →
      (∀ j : Nat, (∃ e : Nat, j = 2 ^ e) → j < mt.data.length → j ≤ k) →
      mt.Mth = mt.hash [mt.interiorPrefix,
        mt.mth (mt.data.take k), mt.mth (mt.data.drop k)]) := by
  refine ⟨?_, ?_, ?_⟩
  · intro h
    rw [MerkleTree.Mth, h, mth_nil]
  · intro x h
    rw [MerkleTree.Mth, h, mth_single]
  · rintro k hlen ⟨e, rfl⟩ hk hmax
    have h1 : 2 ^ e ≤ (lpow2s mt.data.length).toNat :=
      lpow2s_greatest mt.data.length hlen e hk
    have h2 : (lpow2s mt.data.length).toNat ≤ 2 ^ e := by
      apply hmax
      · rw [lpow2s_toNat mt.data.length hlen]
        exact ⟨_, rfl⟩
      · have := lpow2s_toNat_lt mt.data.length hlen
        omega
    have hkk : (lpow2s mt.data.length).toNat = 2 ^ e := by omega
    rw [MerkleTree.Mth, mth_interior mt mt.data hlen, hkk]

/-- A concrete two-leaf Merkle tree over `encHash` (leaves "1" and "2"),
used to instantiate theorems about producer-side trees. -/
def mtTwo : MerkleTree := NewMerkleTree [255] [0] [1] encHash [[49], [50]]

/-- Witness for C5 at a two-leaf tree and `k = 1`. -/
theorem C5_witness :
    (2 ≤ mtTwo.data.length ∧ (∃ e : Nat, 1 = 2 ^ e) ∧ 1 < mtTwo.data.length ∧
      (∀ j : Nat, (∃ e : Nat, j = 2 ^ e) → j < mtTwo.data.length → j ≤ 1)) ∧
    mtTwo.Mth = mtTwo.hash [mtTwo.interiorPrefix,
      mtTwo.mth (mtTwo.data.take 1), mtTwo.mth (mtTwo.data.drop 1)] := by
  have hlen : mtTwo.data.length = 2 := rfl
  have hj : ∀ j : Nat, (∃ e : Nat, j = 2 ^ e) → j < mtTwo.data.length → j ≤ 1 := by
    rintro j ⟨e, rfl⟩ hlt
    rw [hlen] at hlt
    have := Nat.one_le_two_pow (n := e)
    omega
  exact ⟨⟨by omega, ⟨0, rfl⟩, by omega, hj⟩,
    (C5_mth_left_complete mtTwo).2.2 1 (by omega) ⟨0, rfl⟩ (by omega) hj⟩

/-! Branch lemmas for the `MthFromAp` loop, with natural-number arguments
(the round-trip claims only reach non-negative indices). -/

theorem loop_le_zero (mt : MerkleTree) (r : Bytes) (i b : Int)
    (path : List Bytes) (hb : b ≤ 0) : mt.mthFromApLoop r i b path = r := by
  rw [MerkleTree.mthFromApLoop, if_neg (by omega)]

theorem loopN_odd (mt : MerkleTree) (r : Bytes) (a b : Nat)
    (path : List Bytes) (hb : 0 < b) (ha : a % 2 = 1) :
    mt.mthFromApLoop r (↑a) (↑b) path =
      mt.mthFromApLoop (mt.hash [mt.interiorPrefix, path.headD [], r])
        (↑(a / 2)) (↑(b / 2)) path.tail := by
  rw [MerkleTree.mthFromApLoop]
  have h0 : ((b : Int)) > 0 := by exact_mod_cast hb
  have h1 : ((a : Int)).tmod 2 = 1 := by
    rw [Int.tmod_eq_emod (by positivity) (by norm_num)]
    omega
  have h2 : ((a : Int)).tdiv 2 = ((a / 2 : Nat) : Int) := by
    rw [Int.tdiv_eq_ediv (by positivity) (by norm_num)]
    omega
  have h3 : ((b : Int)).tdiv 2 = ((b / 2 : Nat) : Int) := by
    rw [Int.tdiv_eq_ediv (by positivity) (by norm_num)]
    omega
  rw [if_pos h0, if_pos h1, h2, h3]

theorem loopN_even (mt : MerkleTree) (r : Bytes) (a b : Nat)
    (path : List Bytes) (hb : 0 < b) (ha : a % 2 = 0) (hab : a < b) :
    mt.mthFromApLoop r (↑a) (↑b) path =
      mt.mthFromApLoop (mt.hash [mt.interiorPrefix, r, path.headD []])
        (↑(a / 2)) (↑(b / 2)) path.tail := by
  rw [MerkleTree.mthFromApLoop]
  have h0 : ((b : Int)) > 0 := by exact_mod_cast hb
  have h1 : ¬ ((a : Int)).tmod 2 = 1 := by
    rw [Int.tmod_eq_emod (by positivity) (by norm_num)]
    omega
  have h2 : ((a : Int)).tdiv 2 = ((a / 2 : Nat) : Int) := by
    rw [Int.tdiv_eq_ediv (by positivity) (by norm_num)]
    omega
  have h3 : ((b : Int)).tdiv 2 = ((b / 2 : Nat) : Int) := by
    rw [Int.tdiv_eq_ediv (by positivity) (by norm_num)]
    omega
  rw [if_pos h0, if_neg h1, if_pos (by exact_mod_cast hab), h2, h3]

theorem loopN_skip (mt : MerkleTree) (r : Bytes) (a b : Nat)
    (path : List Bytes) (hb : 0 < b) (ha : a % 2 = 0) (hab : b ≤ a) :
    mt.mthFromApLoop r (↑a) (↑b) path =
      mt.mthFromApLoop r (↑(a / 2)) (↑(b / 2)) path := by
  rw [MerkleTree.mthFromApLoop]
  have h0 : ((b : Int)) > 0 := by exact_mod_cast hb
  have h1 : ¬ ((a : Int)).tmod 2 = 1 := by
    rw [Int.tmod_eq_emod (by positivity) (by norm_num)]
    omega
  have h2 : ((a : Int)).tdiv 2 = ((a / 2 : Nat) : Int) := by
    rw [Int.tdiv_eq_ediv (by positivity) (by norm_num)]
    omega
  have h3 : ((b : Int)).tdiv 2 = ((b / 2 : Nat) : Int) := by
    rw [Int.tdiv_eq_ediv (by positivity) (by norm_num)]
    omega
  rw [if_pos h0, if_neg h1, if_neg (by omega : ¬ ((a:Int)) < ((b:Int))), h2, h3]

theorem bitLen_le (m e : Nat) (h : m < 2 ^ e) : bitLen m ≤ e := by
  by_contra hlt
  push_neg at hlt
  rcases Nat.eq_zero_or_pos m with h0 | h0
  · rw [h0, bitLen_zero] at hlt; omega
  have h1 : 2 ^ (bitLen m - 1) ≤ m := two_pow_bitLen_pred_le m h0
  have h2 : 2 ^ e ≤ 2 ^ (bitLen m - 1) := Nat.pow_le_pow_right (by omega) (by omega)
  omega

theorem bitLen_two_pow_sub_one (q : Nat) (hq : 1 ≤ q) :
    bitLen (2 ^ q - 1) = q := by
  have hq2 : 2 ≤ 2 ^ q := by
    calc 2 = 2 ^ 1 := by norm_num
    _ ≤ 2 ^ q := Nat.pow_le_pow_right (by norm_num) hq
  have hpos : 0 < 2 ^ q - 1 := by omega
  have h1 : 2 ^ q - 1 < 2 ^ bitLen (2 ^ q - 1) := lt_two_pow_bitLen _
  have h2 : 2 ^ (bitLen (2 ^ q - 1) - 1) ≤ 2 ^ q - 1 :=
    two_pow_bitLen_pred_le _ hpos
  have hb := bitLen_pos _ hpos
  have h3 : bitLen (2 ^ q - 1) - 1 < q := by
    have := (Nat.pow_lt_pow_iff_right (by norm_num : 1 < 2)).mp
      (show 2 ^ (bitLen (2 ^ q - 1) - 1) < 2 ^ q by omega)
    exact this
  have h4 : q ≤ bitLen (2 ^ q - 1) := by
    have := (Nat.pow_le_pow_iff_right (by norm_num : 1 < 2)).mp
      (show 2 ^ q ≤ 2 ^ bitLen (2 ^ q - 1) by omega)
    exact this
  omega

/-- For a perfect subtree (`2 ^ q` leaves, `q ≥ 1`), the split point is
`2 ^ (q - 1)`. -/
theorem lpow2s_toNat_two_pow (q : Nat) (hq : 1 ≤ q) :
    (lpow2s ((2 ^ q : Nat))).toNat = 2 ^ (q - 1) := by
  rw [lpow2s_toNat _ (by
    calc 2 = 2 ^ 1 := by norm_num
    _ ≤ 2 ^ q := Nat.pow_le_pow_right (by norm_num) hq)]
  rw [bitLen_two_pow_sub_one q hq]

theorem lpow2s_int_two_pow (q : Nat) (hq : 1 ≤ q) :
    lpow2s ((2 ^ q : Nat)) = (((2 ^ (q - 1) : Nat)) : Int) := by
  have h2 : 2 ≤ 2 ^ q := by
    calc 2 = 2 ^ 1 := by norm_num
    _ ≤ 2 ^ q := Nat.pow_le_pow_right (by norm_num) hq
  rw [lpow2s_natCast _ h2, bitLen_two_pow_sub_one q hq]

theorem getD_take (l : List Bytes) (a b : Nat) (h : a < b) :
    (l.take b).getD a [] = l.getD a [] := by
  simp [List.getD_eq_getElem?_getD, List.getElem?_take, h]

theorem getD_drop (l : List Bytes) (a b : Nat) :
    (l.drop b).getD a [] = l.getD (b + a) [] := by
  simp [List.getD_eq_getElem?_getD, List.getElem?_drop]

/-- Reconstruction through a perfect subtree of `2 ^ p` leaves embedded in a
larger loop state: the audit path of leaf `i` is consumed in exactly `p`
iterations, no skip ever fires, and the loop continues on the remaining
state with the subtree root in hand. -/
theorem loop_perfect (mt : MerkleTree) : ∀ (p : Nat) (data : List Bytes)
    (i c L : Nat) (rest : List Bytes),
    data.length = 2 ^ p → i < 2 ^ p → (c + 1) * 2 ^ p - 1 ≤ L →
    mt.mthFromApLoop (mt.hash [mt.twc, mt.leafPrefix, data.getD i []])
      (↑(i + c * 2 ^ p)) (↑L) (mt.ap (↑i) data ++ rest) =
    mt.mthFromApLoop (mt.mth data) (↑c) (↑(L / 2 ^ p)) rest := by
  intro p
  induction p with
  | zero =>
    intro data i c L rest hd hi hL
    obtain ⟨x, rfl⟩ := List.length_eq_one.mp (by simpa using hd)
    interval_cases i
    rw [ap_small mt _ _ (by simp), mth_single]
    simp
  | succ p ih =>
    intro data i c L rest hd hi hL
    have hlen2 : 2 ≤ data.length := by
      rw [hd]
      calc 2 = 2 ^ 1 := by norm_num
      _ ≤ 2 ^ (p + 1) := Nat.pow_le_pow_right (by norm_num) (by omega)
    have hkN : (lpow2s data.length).toNat = 2 ^ p := by
      rw [hd, lpow2s_toNat_two_pow (p + 1) (by omega)]
      simp
    have hkI : lpow2s data.length = (((2 ^ p : Nat)) : Int) := by
      rw [hd, lpow2s_int_two_pow (p + 1) (by omega)]
      simp
    have hpow : 2 ^ (p + 1) = 2 ^ p + 2 ^ p := by
      rw [pow_succ]; ring
    have hppos : 0 < (2:Nat) ^ p := by positivity
    have htake : (data.take (2 ^ p)).length = 2 ^ p := by
      simp [hd]; omega
    have hdrop : (data.drop (2 ^ p)).length = 2 ^ p := by
      simp [hd]; omega
    have hmth : mt.mth data = mt.hash [mt.interiorPrefix,
        mt.mth (data.take (2 ^ p)), mt.mth (data.drop (2 ^ p))] := by
      rw [mth_interior mt data hlen2, hkN]
    rcases Nat.lt_or_ge i (2 ^ p) with hil | hir
    · -- leaf in the left (perfect) half
      rw [ap_left mt (↑i) data hlen2 (by rw [hkI]; exact_mod_cast hil), hkN]
      rw [List.append_assoc]
      rw [← getD_take data i (2 ^ p) hil]
      have hidx : i + c * 2 ^ (p + 1) = i + (2 * c) * 2 ^ p := by
        rw [pow_succ]; ring
      have hLb : (2 * c + 1) * 2 ^ p - 1 ≤ L := by
        have : (2 * c + 1) * 2 ^ p ≤ (c + 1) * 2 ^ (p + 1) := by
          rw [pow_succ]; nlinarith
        omega
      rw [hidx, ih (data.take (2 ^ p)) i (2 * c) L _ htake hil hLb]
      have hLd : 2 * c < L / 2 ^ p := by
        have e2 : (2 * c + 2) * 2 ^ p = (c + 1) * 2 ^ (p + 1) := by
          rw [pow_succ]; ring
        have e1 : (2 * c + 1) * 2 ^ p + 2 ^ p = (2 * c + 2) * 2 ^ p := by ring
        have h1 : (2 * c + 1) * 2 ^ p ≤ L := by omega
        have h2 := Nat.div_le_div_right (c := 2 ^ p) h1
        rw [Nat.mul_div_cancel _ hppos] at h2
        omega
      rw [loopN_even mt _ (2 * c) (L / 2 ^ p) _ (by omega) (by omega) hLd]
      simp only [List.singleton_append, List.headD_cons, List.tail_cons]
      rw [← hmth]
      have hc2 : 2 * c / 2 = c := by omega
      have hL2 : L / 2 ^ p / 2 = L / 2 ^ (p + 1) := by
        rw [Nat.div_div_eq_div_mul, ← pow_succ]
      rw [hc2, hL2]
    · -- leaf in the right (perfect) half
      have hi' : i - 2 ^ p < 2 ^ p := by omega
      rw [ap_right mt (↑i) data hlen2 (by rw [hkI]; exact_mod_cast hir), hkN]
      have hsub : (↑i - lpow2s data.length) = ((i - 2 ^ p : Nat) : Int) := by
        rw [hkI]; omega
      rw [hsub, List.append_assoc]
      have hgd : data.getD i [] = (data.drop (2 ^ p)).getD (i - 2 ^ p) [] := by
        rw [getD_drop]
        congr 1
        omega
      rw [hgd]
      have hidx : i + c * 2 ^ (p + 1) = (i - 2 ^ p) + (2 * c + 1) * 2 ^ p := by
        rw [pow_succ]; nlinarith [Nat.sub_add_cancel hir]
      have hLb : (2 * c + 1 + 1) * 2 ^ p - 1 ≤ L := by
        have : (2 * c + 1 + 1) * 2 ^ p = (c + 1) * 2 ^ (p + 1) := by
          rw [pow_succ]; ring
        omega
      rw [hidx, ih (data.drop (2 ^ p)) (i - 2 ^ p) (2 * c + 1) L _ hdrop hi' hLb]
      have hpos : 0 < L / 2 ^ p := by
        have e4 : (2 * c + 1 + 1) * 2 ^ p = 2 * c * 2 ^ p + 2 ^ p + 2 ^ p := by
          ring
        have h1 : 2 ^ p ≤ L := by omega
        have h2 := Nat.div_le_div_right (c := 2 ^ p) h1
        rw [Nat.div_self hppos] at h2
        omega
      rw [loopN_odd mt _ (2 * c + 1) (L / 2 ^ p) _ hpos (by omega)]
      simp only [List.singleton_append, List.headD_cons, List.tail_cons]
      rw [← hmth]
      have hc2 : (2 * c + 1) / 2 = c := by omega
      have hL2 : L / 2 ^ p / 2 = L / 2 ^ (p + 1) := by
        rw [Nat.div_div_eq_div_mul, ← pow_succ]
      rw [hc2, hL2]

/-- A right-edge chain: while index and last index coincide and are even,
the loop skips levels without consuming the path. -/
theorem loop_odd_tower (mt : MerkleTree) (r : Bytes) (j s : Nat)
    (hj : j % 2 = 1) (path : List Bytes) :
    mt.mthFromApLoop r (↑(j * 2 ^ s)) (↑(j * 2 ^ s)) path =
      mt.mthFromApLoop r (↑j) (↑j) path := by
  induction s with
  | zero => simp
  | succ t ih =>
    have hpos : 0 < j * 2 ^ (t + 1) := by
      have : 0 < j := by omega
      positivity
    have hrw : j * 2 ^ (t + 1) = (j * 2 ^ t) * 2 := by
      rw [pow_succ]; ring
    have heven : (j * 2 ^ (t + 1)) % 2 = 0 := by
      rw [hrw]; exact Nat.mul_mod_left _ 2
    rw [loopN_skip mt r _ _ path hpos heven le_rfl]
    have hdiv : j * 2 ^ (t + 1) / 2 = j * 2 ^ t := by
      rw [hrw, Nat.mul_div_cancel _ (by norm_num)]
    rw [hdiv]
    exact ih

/-- The audit-path round trip, generalized over the loop state surrounding
the subtree: reconstructing leaf `i` of `data` inside a loop whose index and
last index carry a common multiple of `2 ^ m` continues, after the path is
consumed, with the root of `data` and the multiplier shifted down by the
number of consumed levels. -/
theorem loop_ap_round (mt : MerkleTree) : ∀ (n' : Nat) (data : List Bytes)
    (i m a : Nat) (rest : List Bytes),
    data.length = n' → 1 ≤ n' → i < n' → n' ≤ 2 ^ m →
    mt.mthFromApLoop (mt.hash [mt.twc, mt.leafPrefix, data.getD i []])
      (↑(i + a * 2 ^ m)) (↑((n' - 1) + a * 2 ^ m)) (mt.ap (↑i) data ++ rest) =
    mt.mthFromApLoop (mt.mth data) (↑(a * 2 ^ (m - bitLen (n' - 1))))
      (↑(a * 2 ^ (m - bitLen (n' - 1)))) rest := by
  intro n'
  induction n' using Nat.strong_induction_on with
  | _ n' ihn =>
    intro data i m a rest hd hn hi hm
    rcases Nat.lt_or_ge n' 2 with hn1 | hn2
    · -- single leaf
      have : n' = 1 := by omega
      subst this
      obtain ⟨x, rfl⟩ := List.length_eq_one.mp hd
      interval_cases i
      rw [ap_small mt _ _ (by simp), mth_single]
      simp [bitLen_zero]
    · -- interior node
      set p' := bitLen (n' - 1) - 1 with hp'
      have hbpos : 0 < bitLen (n' - 1) := bitLen_pos _ (by omega)
      have hb : bitLen (n' - 1) = p' + 1 := by omega
      have h2p : 2 ^ p' ≤ n' - 1 := by
        have := two_pow_bitLen_pred_le (n' - 1) (by omega)
        rwa [← hp'] at this
      have hlt : n' - 1 < 2 ^ (p' + 1) := by
        have := lt_two_pow_bitLen (n' - 1)
        rwa [hb] at this
      have hmp : p' + 1 ≤ m := by
        have := bitLen_le (n' - 1) m (by omega)
        omega
      have hppos : 0 < (2:Nat) ^ p' := by positivity
      have hlen2 : 2 ≤ data.length := by omega
      have hkN : (lpow2s data.length).toNat = 2 ^ p' := by
        rw [hd, lpow2s_toNat n' hn2, ← hp']
      have hkI : lpow2s data.length = (((2 ^ p' : Nat)) : Int) := by
        rw [hd, lpow2s_natCast n' hn2, ← hp']
      have htake : (data.take (2 ^ p')).length = 2 ^ p' := by
        simp [hd]; omega
      have hdrop : (data.drop (2 ^ p')).length = n' - 2 ^ p' := by
        simp [hd]
      have hmth : mt.mth data = mt.hash [mt.interiorPrefix,
          mt.mth (data.take (2 ^ p')), mt.mth (data.drop (2 ^ p'))] := by
        rw [mth_interior mt data hlen2, hkN]
      have hpowm : 2 ^ (m - p') * 2 ^ p' = 2 ^ m := by
        rw [← pow_add]
        congr 1
        omega
      have hmul : (a * 2 ^ (m - p')) * 2 ^ p' = a * 2 ^ m := by
        rw [mul_assoc, hpowm]
      have heven : (a * 2 ^ (m - p')) % 2 = 0 := by
        have : a * 2 ^ (m - p') = (a * 2 ^ (m - p' - 1)) * 2 := by
          rw [mul_assoc, ← pow_succ]
          congr 2
          omega
        rw [this]
        exact Nat.mul_mod_left _ 2
      have hhalf : a * 2 ^ (m - p') / 2 = a * 2 ^ (m - (p' + 1)) := by
        have : a * 2 ^ (m - p') = (a * 2 ^ (m - (p' + 1))) * 2 := by
          rw [mul_assoc, ← pow_succ]
          congr 2
          omega
        rw [this, Nat.mul_div_cancel _ (by norm_num)]
      rcases Nat.lt_or_ge i (2 ^ p') with hil | hir
      · -- leaf in the (perfect) left half
        rw [ap_left mt (↑i) data hlen2 (by rw [hkI]; exact_mod_cast hil), hkN]
        rw [List.append_assoc]
        rw [← getD_take data i (2 ^ p') hil]
        have hidx : i + a * 2 ^ m = i + (a * 2 ^ (m - p')) * 2 ^ p' := by
          rw [hmul]
        have hLb : (a * 2 ^ (m - p') + 1) * 2 ^ p' - 1 ≤ (n' - 1) + a * 2 ^ m := by
          have : (a * 2 ^ (m - p') + 1) * 2 ^ p' =
              a * 2 ^ m + 2 ^ p' := by
            rw [add_mul, one_mul, hmul]
          omega
        rw [hidx, loop_perfect mt p' (data.take (2 ^ p')) i
          (a * 2 ^ (m - p')) _ _ htake hil hLb]
        have hdivL : ((n' - 1) + a * 2 ^ m) / 2 ^ p' = 1 + a * 2 ^ (m - p') := by
          rw [← hmul, Nat.add_mul_div_right _ _ hppos]
          congr 1
          apply Nat.div_eq_of_lt_le
          · omega
          · omega
        rw [hdivL]
        rw [loopN_even mt _ _ _ _ (by omega) heven (by omega)]
        simp only [List.singleton_append, List.headD_cons, List.tail_cons]
        rw [← hmth, hb]
        have hx2 : (1 + a * 2 ^ (m - p')) / 2 = a * 2 ^ (m - p') / 2 := by
          omega
        rw [hx2, hhalf]
      · -- leaf in the right half
        have hn'' : 1 ≤ n' - 2 ^ p' := by omega
        have hi' : i - 2 ^ p' < n' - 2 ^ p' := by omega
        have hsm : n' - 2 ^ p' ≤ 2 ^ p' := by
          have : 2 ^ (p' + 1) = 2 ^ p' + 2 ^ p' := by rw [pow_succ]; ring
          omega
        rw [ap_right mt (↑i) data hlen2 (by rw [hkI]; exact_mod_cast hir), hkN]
        have hsub : (↑i - lpow2s data.length) = ((i - 2 ^ p' : Nat) : Int) := by
          rw [hkI]; omega
        rw [hsub, List.append_assoc]
        have hgd : data.getD i [] = (data.drop (2 ^ p')).getD (i - 2 ^ p') [] := by
          rw [getD_drop]
          congr 1
          omega
        rw [hgd]
        have hidx : i + a * 2 ^ m =
            (i - 2 ^ p') + (1 + a * 2 ^ (m - p')) * 2 ^ p' := by
          have : (1 + a * 2 ^ (m - p')) * 2 ^ p' = 2 ^ p' + a * 2 ^ m := by
            rw [add_mul, one_mul, hmul]
          omega
        have hlast : (n' - 1) + a * 2 ^ m =
            ((n' - 2 ^ p') - 1) + (1 + a * 2 ^ (m - p')) * 2 ^ p' := by
          have : (1 + a * 2 ^ (m - p')) * 2 ^ p' = 2 ^ p' + a * 2 ^ m := by
            rw [add_mul, one_mul, hmul]
          omega
        rw [hidx, hlast, ihn (n' - 2 ^ p') (by omega) (data.drop (2 ^ p'))
          (i - 2 ^ p') p' (1 + a * 2 ^ (m - p')) _ hdrop hn'' hi' hsm]
        have hodd : (1 + a * 2 ^ (m - p')) % 2 = 1 := by omega
        have htow := loop_odd_tower mt (mt.mth (data.drop (2 ^ p')))
          (1 + a * 2 ^ (m - p')) (p' - bitLen (n' - 2 ^ p' - 1)) hodd
          ([mt.mth (data.take (2 ^ p'))] ++ rest)
        rw [htow]
        rw [loopN_odd mt _ _ _ _ (by omega) hodd]
        simp only [List.singleton_append, List.headD_cons, List.tail_cons]
        rw [← hmth, hb]
        have hx2 : (1 + a * 2 ^ (m - p')) / 2 = a * 2 ^ (m - p') / 2 := by
          omega
        rw [hx2, hhalf]

/-- Claim C3: for every leaf sequence of length `n ∈ [1, 256]` and every
`i ∈ [0, n)`, `MthFromAp(data[i], i, n, Ap(i))` equals `Mth()`. (The proof
does not need the upper bound; it is kept because the claim states it.) -/
theorem C3_audit_round_trip (mt : MerkleTree) (i : Nat)
    (h1 : 1 ≤ mt.data.length) (h256 : mt.data.length ≤ 256)
    (hi : i < mt.data.length) :
    mt.MthFromAp (mt.data.getD i []) (↑i) (↑mt.data.length) (mt.Ap (↑i)) =
      mt.Mth := by
  rw [MerkleTree.MthFromAp, MerkleTree.Ap, MerkleTree.Mth]
  have hcast : ((mt.data.length : Int)) - 1 = ((mt.data.length - 1 : Nat) : Int) := by
    omega
  rw [hcast, ← List.append_nil (mt.ap (↑i) mt.data)]
  have hz : (0 : Nat) = 0 * 2 ^ (bitLen (mt.data.length - 1)) := by ring
  have hidx : (i : Int) = ((i + 0 * 2 ^ (bitLen (mt.data.length - 1)) : Nat) : Int) := by
    push_cast; ring
  have hlast : ((mt.data.length - 1 : Nat) : Int) =
      (((mt.data.length - 1) + 0 * 2 ^ (bitLen (mt.data.length - 1)) : Nat) : Int) := by
    push_cast; ring
  nth_rewrite 1 [hidx]
  rw [hlast, loop_ap_round mt mt.data.length mt.data i
    (bitLen (mt.data.length - 1)) 0 [] rfl h1 hi
    (by have := lt_two_pow_bitLen (mt.data.length - 1); omega)]
  rw [loop_le_zero]
  simp

/-- Witness for C3 on the two-leaf tree at `i = 0`. -/
theorem C3_witness :
    (1 ≤ mtTwo.data.length ∧ mtTwo.data.length ≤ 256 ∧ 0 < mtTwo.data.length) ∧
    mtTwo.MthFromAp (mtTwo.data.getD 0 []) 0 (↑mtTwo.data.length)
      (mtTwo.Ap 0) = mtTwo.Mth := by
  have hlen : mtTwo.data.length = 2 := rfl
  exact ⟨⟨by omega, by omega, by omega⟩,
    C3_audit_round_trip mtTwo 0 (by omega) (by omega) (by omega)⟩

/-! Unfolding lemmas for `dp` and `jp`, and small facts about `last`,
`next` and `ap`. -/

theorem last_concat (xs : List Bytes) (x : Bytes) : last (xs ++ [x]) = x := by
  simp [last]

theorem next_concat (xs : List Bytes) (x : Bytes) : next (xs ++ [x]) = xs := by
  simp [next]

theorem ap_ne_nil (mt : MerkleTree) (m : Int) (ls : List Bytes)
    (h : 2 ≤ ls.length) : mt.ap m ls ≠ [] := by
  rcases lt_or_ge m (lpow2s ls.length) with hm | hm
  · rw [ap_left mt m ls h hm]
    simp
  · rw [ap_right mt m ls h hm]
    simp

theorem dp_nil (mt : MerkleTree) (i n : Int) (ap : List Bytes) :
    mt.dp [] i n ap = last ap := by
  rw [MerkleTree.dp]
  norm_num

theorem dp_leaf (mt : MerkleTree) (data : List Bytes) (i : Int)
    (ap : List Bytes) (hne : data.length ≠ 0) :
    mt.dp data i 1 ap = mt.hash [mt.twc, mt.leafPrefix, last data] := by
  rw [MerkleTree.dp, if_neg hne, if_pos rfl]

theorem dp_interior (mt : MerkleTree) (data : List Bytes) (i n : Int)
    (ap : List Bytes) (hne : data.length ≠ 0) (hn : n ≠ 1) :
    mt.dp data i n ap = mt.hash [mt.interiorPrefix,
      mt.dp (data.take ((split (lpow2s n) data.length i).1).toNat)
        ((split (lpow2s n) data.length i).2.1) (lpow2s n) (next ap),
      mt.dp (data.drop ((split (lpow2s n) data.length i).1).toNat)
        ((split (lpow2s n) data.length i).2.2) (n - lpow2s n) (next ap)] := by
  rw [MerkleTree.dp, if_neg hne, if_neg hn]

theorem jp_joint_left (mt : MerkleTree) (data : List Bytes) (i n : Int)
    (lAp rAp : List Bytes)
    (hc : lAp ≠ [] ∧ rAp ≠ [] ∧ last lAp = last rAp)
    (hs : 0 < (split (lpow2s n) data.length i).1) :
    mt.jp data i n lAp rAp = mt.hash [mt.interiorPrefix,
      mt.jp data ((split (lpow2s n) data.length i).2.1) (lpow2s n)
        (next lAp) (next rAp), last lAp] := by
  rw [MerkleTree.jp]
  simp only [if_pos hc, if_pos hs]

theorem jp_joint_right (mt : MerkleTree) (data : List Bytes) (i n : Int)
    (lAp rAp : List Bytes)
    (hc : lAp ≠ [] ∧ rAp ≠ [] ∧ last lAp = last rAp)
    (hs : ¬ 0 < (split (lpow2s n) data.length i).1) :
    mt.jp data i n lAp rAp = mt.hash [mt.interiorPrefix, last rAp,
      mt.jp data ((split (lpow2s n) data.length i).2.2) (n - lpow2s n)
        (next lAp) (next rAp)] := by
  rw [MerkleTree.jp]
  simp only [if_pos hc, if_neg hs]

theorem jp_disjoint (mt : MerkleTree) (data : List Bytes) (i n : Int)
    (lAp rAp : List Bytes)
    (hc : ¬ (lAp ≠ [] ∧ rAp ≠ [] ∧ last lAp = last rAp)) :
    mt.jp data i n lAp rAp = mt.hash [mt.interiorPrefix,
      mt.dp (data.take ((split (lpow2s n) data.length i).1).toNat)
        ((split (lpow2s n) data.length i).2.1) (lpow2s n)
        (if lAp = [] then rAp else lAp),
      mt.dp (data.drop ((split (lpow2s n) data.length i).1).toNat)
        ((split (lpow2s n) data.length i).2.2) (n - lpow2s n)
        (if lAp = [] then rAp else if rAp = [] then lAp else rAp)] := by
  rw [MerkleTree.jp]
  simp only [if_neg hc]

/-! The disjoint-path reconstruction lemmas: a subtree fully covered by
range data, a subtree whose range runs from position `i` to its right edge
(threaded with the audit path of leaf `i`), and a subtree whose range runs
from its left edge to position `q` (threaded with the audit path of leaf
`q`). In the latter two the path carries exactly one sibling of an
ancestor beyond the subtree, which `dp` strips before descending. -/

theorem dp_full_aux (mt : MerkleTree) : ∀ N : Nat, ∀ ls : List Bytes,
    ls.length ≤ N → 1 ≤ ls.length →
    ∀ ap : List Bytes, mt.dp ls 0 (↑ls.length) ap = mt.mth ls := by
  intro N
  induction N with
  | zero => intro ls hN hlen; exact absurd hlen (by omega)
  | succ N ih =>
    intro ls hN hlen ap
    rcases Nat.lt_or_ge ls.length 2 with hlen1 | hlen2
    · obtain ⟨x, rfl⟩ := List.length_eq_one.mp (show ls.length = 1 by omega)
      simp only [List.length_singleton, Nat.cast_one]
      rw [dp_leaf mt [x] 0 ap (by simp), mth_single]
      rfl
    · have hk1 := lpow2s_toNat_pos ls.length hlen2
      have hk2 := lpow2s_toNat_lt ls.length hlen2
      have hkc : ((lpow2s (ls.length : Int)).toNat : Int) = lpow2s ls.length :=
        Int.toNat_of_nonneg
          (by have := lpow2s_pos (ls.length : Int) (by omega); omega)
      rw [dp_interior mt ls 0 (↑ls.length) ap (by omega) (by omega),
        split_pos (ls.length : Int) (by omega)]
      dsimp only
      have hmin : (min ((ls.length : Int)) (lpow2s ls.length - 0)).toNat =
          (lpow2s (ls.length : Int)).toNat := by omega
      rw [hmin]
      have htl : (ls.take (lpow2s (ls.length : Int)).toNat).length =
          (lpow2s (ls.length : Int)).toNat := by simp; omega
      have hdl : (ls.drop (lpow2s (ls.length : Int)).toNat).length =
          ls.length - (lpow2s (ls.length : Int)).toNat := by simp
      have hL := ih (ls.take (lpow2s (ls.length : Int)).toNat)
        (by omega) (by omega) (next ap)
      rw [htl, hkc] at hL
      have hR := ih (ls.drop (lpow2s (ls.length : Int)).toNat)
        (by omega) (by omega) (next ap)
      rw [hdl, show ((ls.length - (lpow2s (ls.length : Int)).toNat : Nat) : Int) =
        (ls.length : Int) - lpow2s (ls.length : Int) by omega] at hR
      rw [hL, hR, ← mth_interior mt ls hlen2]

theorem dp_full (mt : MerkleTree) (ls : List Bytes) (hlen : 1 ≤ ls.length)
    (ap : List Bytes) : mt.dp ls 0 (↑ls.length) ap = mt.mth ls :=
  dp_full_aux mt ls.length ls le_rfl hlen ap

theorem dp_left_aux (mt : MerkleTree) : ∀ N : Nat, ∀ ls : List Bytes,
    ls.length ≤ N → ∀ i : Nat, i < ls.length → ∀ X : Bytes,
    mt.dp (ls.drop i) (↑i) (↑ls.length) (mt.ap (↑i) ls ++ [X]) = mt.mth ls := by
  intro N
  induction N with
  | zero => intro ls hN i hi; exact absurd hi (by omega)
  | succ N ih =>
    intro ls hN i hi X
    rcases Nat.lt_or_ge ls.length 2 with hlen1 | hlen2
    · obtain ⟨x, rfl⟩ := List.length_eq_one.mp (show ls.length = 1 by omega)
      have hi0 : i = 0 := by simp at hi; omega
      subst hi0
      simp only [List.drop_zero, List.length_singleton, Nat.cast_one,
        Nat.cast_zero]
      rw [dp_leaf mt [x] 0 _ (by simp), mth_single]
      rfl
    · have hk1 := lpow2s_toNat_pos ls.length hlen2
      have hk2 := lpow2s_toNat_lt ls.length hlen2
      have hkc : ((lpow2s (ls.length : Int)).toNat : Int) = lpow2s ls.length :=
        Int.toNat_of_nonneg
          (by have := lpow2s_pos (ls.length : Int) (by omega); omega)
      have hdlen : (ls.drop i).length = ls.length - i := by simp
      have htl : (ls.take (lpow2s (ls.length : Int)).toNat).length =
          (lpow2s (ls.length : Int)).toNat := by simp; omega
      have hdl : (ls.drop (lpow2s (ls.length : Int)).toNat).length =
          ls.length - (lpow2s (ls.length : Int)).toNat := by simp
      rw [dp_interior mt (ls.drop i) (↑i) (↑ls.length) _
        (by rw [hdlen]; omega) (by omega), next_concat, hdlen]
      rcases Nat.lt_or_ge i (lpow2s (ls.length : Int)).toNat with hil | hir
      · -- index in the left half
        rw [split_pos ((ls.length - i : Nat) : Int)
          (show (↑i) < lpow2s ((ls.length : Int)) by omega)]
        dsimp only
        have hmin : (min (((ls.length - i : Nat)) : Int)
            (lpow2s ((ls.length : Int)) - (↑i))).toNat =
            (lpow2s (ls.length : Int)).toNat - i := by omega
        rw [hmin]
        rw [ap_left mt (↑i) ls hlen2 (by omega)]
        have hdata : (ls.drop i).take ((lpow2s (ls.length : Int)).toNat - i) =
            (ls.take (lpow2s (ls.length : Int)).toNat).drop i := by
          rw [List.drop_take]
        have hdata2 : (ls.drop i).drop ((lpow2s (ls.length : Int)).toNat - i) =
            ls.drop (lpow2s (ls.length : Int)).toNat := by
          rw [List.drop_drop]
          congr 1
          omega
        have hL := ih (ls.take (lpow2s (ls.length : Int)).toNat) (by omega) i
          (by omega) (mt.mth (ls.drop (lpow2s (ls.length : Int)).toNat))
        rw [htl, hkc] at hL
        have hR := dp_full mt (ls.drop (lpow2s (ls.length : Int)).toNat)
          (by omega)
          (mt.ap (↑i) (ls.take (lpow2s (ls.length : Int)).toNat) ++
            [mt.mth (ls.drop (lpow2s (ls.length : Int)).toNat)])
        rw [hdl, show ((ls.length - (lpow2s (ls.length : Int)).toNat : Nat) : Int) =
          ((ls.length : Int)) - lpow2s ((ls.length : Int)) by omega] at hR
        rw [hdata, hdata2, hL, hR, ← mth_interior mt ls hlen2]
      · -- index in the right half
        rw [split_nonpos ((ls.length - i : Nat) : Int)
          (show lpow2s ((ls.length : Int)) ≤ (↑i) by omega)]
        dsimp only
        rw [show ((0 : Int)).toNat = 0 from rfl, List.take_zero, List.drop_zero]
        rw [ap_right mt (↑i) ls hlen2 (by omega)]
        rw [show (↑i) - lpow2s ((ls.length : Int)) =
          ((i - (lpow2s (ls.length : Int)).toNat : Nat) : Int) by omega]
        rw [dp_nil, last_concat]
        have hdata2 : ls.drop i =
            (ls.drop (lpow2s (ls.length : Int)).toNat).drop
              (i - (lpow2s (ls.length : Int)).toNat) := by
          rw [List.drop_drop]
          congr 1
          omega
        have hR := ih (ls.drop (lpow2s (ls.length : Int)).toNat) (by omega)
          (i - (lpow2s (ls.length : Int)).toNat) (by omega)
          (mt.mth (ls.take (lpow2s (ls.length : Int)).toNat))
        rw [hdl, show ((ls.length - (lpow2s (ls.length : Int)).toNat : Nat) : Int) =
          ((ls.length : Int)) - lpow2s ((ls.length : Int)) by omega] at hR
        rw [hdata2, hR, ← mth_interior mt ls hlen2]

theorem dp_left (mt : MerkleTree) (ls : List Bytes) (i : Nat)
    (hi : i < ls.length) (X : Bytes) :
    mt.dp (ls.drop i) (↑i) (↑ls.length) (mt.ap (↑i) ls ++ [X]) = mt.mth ls :=
  dp_left_aux mt ls.length ls le_rfl i hi X

theorem dp_right_aux (mt : MerkleTree) : ∀ N : Nat, ∀ ls : List Bytes,
    ls.length ≤ N → ∀ q : Nat, q < ls.length → ∀ X : Bytes,
    mt.dp (ls.take (q + 1)) 0 (↑ls.length) (mt.ap (↑q) ls ++ [X]) =
      mt.mth ls := by
  intro N
  induction N with
  | zero => intro ls hN q hq; exact absurd hq (by omega)
  | succ N ih =>
    intro ls hN q hq X
    rcases Nat.lt_or_ge ls.length 2 with hlen1 | hlen2
    · obtain ⟨x, rfl⟩ := List.length_eq_one.mp (show ls.length = 1 by omega)
      have hq0 : q = 0 := by simp at hq; omega
      subst hq0
      simp only [List.length_singleton, Nat.cast_one]
      rw [show [x].take (0 + 1) = [x] from rfl,
        dp_leaf mt [x] 0 _ (by simp), mth_single]
      rfl
    · have hk1 := lpow2s_toNat_pos ls.length hlen2
      have hk2 := lpow2s_toNat_lt ls.length hlen2
      have hkc : ((lpow2s (ls.length : Int)).toNat : Int) = lpow2s ls.length :=
        Int.toNat_of_nonneg
          (by have := lpow2s_pos (ls.length : Int) (by omega); omega)
      have htql : (ls.take (q + 1)).length = q + 1 := by simp; omega
      have htl : (ls.take (lpow2s (ls.length : Int)).toNat).length =
          (lpow2s (ls.length : Int)).toNat := by simp; omega
      have hdl : (ls.drop (lpow2s (ls.length : Int)).toNat).length =
          ls.length - (lpow2s (ls.length : Int)).toNat := by simp
      rw [dp_interior mt (ls.take (q + 1)) 0 (↑ls.length) _
        (by rw [htql]; omega) (by omega), next_concat, htql]
      rw [split_pos (((q + 1 : Nat)) : Int)
        (show (0 : Int) < lpow2s ((ls.length : Int)) by omega)]
      dsimp only
      rcases Nat.lt_or_ge q (lpow2s (ls.length : Int)).toNat with hql | hqr
      · -- range ends inside the left half
        have hmin : (min (((q + 1 : Nat)) : Int)
            (lpow2s ((ls.length : Int)) - 0)).toNat = q + 1 := by omega
        rw [hmin]
        rw [ap_left mt (↑q) ls hlen2 (by omega)]
        have hdata : (ls.take (q + 1)).take (q + 1) =
            (ls.take (lpow2s (ls.length : Int)).toNat).take (q + 1) := by
          rw [List.take_take, List.take_take]
          congr 1
          omega
        have hdataR : (ls.take (q + 1)).drop (q + 1) = ([] : List Bytes) := by
          rw [List.drop_take]
          simp
        have hL := ih (ls.take (lpow2s (ls.length : Int)).toNat) (by omega) q
          (by omega) (mt.mth (ls.drop (lpow2s (ls.length : Int)).toNat))
        rw [htl, hkc] at hL
        rw [hdata, hdataR, hL, dp_nil, last_concat, ← mth_interior mt ls hlen2]
      · -- range crosses into the right half
        have hmin : (min (((q + 1 : Nat)) : Int)
            (lpow2s ((ls.length : Int)) - 0)).toNat =
            (lpow2s (ls.length : Int)).toNat := by omega
        rw [hmin]
        rw [ap_right mt (↑q) ls hlen2 (by omega)]
        rw [show (↑q) - lpow2s ((ls.length : Int)) =
          ((q - (lpow2s (ls.length : Int)).toNat : Nat) : Int) by omega]
        have hdata : (ls.take (q + 1)).take (lpow2s (ls.length : Int)).toNat =
            ls.take (lpow2s (ls.length : Int)).toNat := by
          rw [List.take_take]
          congr 1
          omega
        have hdataR : (ls.take (q + 1)).drop (lpow2s (ls.length : Int)).toNat =
            (ls.drop (lpow2s (ls.length : Int)).toNat).take
              ((q - (lpow2s (ls.length : Int)).toNat) + 1) := by
          rw [List.drop_take]
          congr 1
          omega
        have hL := dp_full mt (ls.take (lpow2s (ls.length : Int)).toNat)
          (by omega)
          (mt.ap ((q - (lpow2s (ls.length : Int)).toNat : Nat))
            (ls.drop (lpow2s (ls.length : Int)).toNat) ++
            [mt.mth (ls.take (lpow2s (ls.length : Int)).toNat)])
        rw [htl, hkc] at hL
        have hR := ih (ls.drop (lpow2s (ls.length : Int)).toNat) (by omega)
          (q - (lpow2s (ls.length : Int)).toNat) (by omega)
          (mt.mth (ls.take (lpow2s (ls.length : Int)).toNat))
        rw [hdl, show ((ls.length - (lpow2s (ls.length : Int)).toNat : Nat) : Int) =
          ((ls.length : Int)) - lpow2s ((ls.length : Int)) by omega] at hR
        rw [hdata, hdataR, hL, hR, ← mth_interior mt ls hlen2]

theorem dp_right (mt : MerkleTree) (ls : List Bytes) (q : Nat)
    (hq : q < ls.length) (X : Bytes) :
    mt.dp (ls.take (q + 1)) 0 (↑ls.length) (mt.ap (↑q) ls ++ [X]) =
      mt.mth ls :=
  dp_right_aux mt ls.length ls le_rfl q hq X

/-- No two sibling subtrees of the tree over `ls` hash to the same digest.
The joint-path walk of `jp` compares digests to detect where the two audit
paths converge; this predicate is what makes that comparison faithful, and
it is the hypothesis under which the range round-trip holds (a tree with
`data = [a,b,a,b]` violates it and breaks the round trip; see the
counterexamples below). -/
def MerkleTree.sibOk (mt : MerkleTree) (ls : List Bytes) : Bool :=
  if ls.length ≤ 1 then true
  else
    decide (mt.mth (ls.take (lpow2s ls.length).toNat) ≠
        mt.mth (ls.drop (lpow2s ls.length).toNat)) &&
      mt.sibOk (ls.take (lpow2s ls.length).toNat) &&
      mt.sibOk (ls.drop (lpow2s ls.length).toNat)
termination_by ls.length
decreasing_by
  · have h1 := lpow2s_toNat_pos ls.length (by omega)
    have h2 := lpow2s_toNat_lt ls.length (by omega)
    simp only [List.length_take]
    omega
  · have h1 := lpow2s_toNat_pos ls.length (by omega)
    simp only [List.length_drop]
    omega

theorem sibOk_spec (mt : MerkleTree) (ls : List Bytes) (h : 2 ≤ ls.length)
    (hs : mt.sibOk ls = true) :
    mt.mth (ls.take (lpow2s ls.length).toNat) ≠
      mt.mth (ls.drop (lpow2s ls.length).toNat) ∧
    mt.sibOk (ls.take (lpow2s ls.length).toNat) = true ∧
    mt.sibOk (ls.drop (lpow2s ls.length).toNat) = true := by
  rw [MerkleTree.sibOk, if_neg (by omega)] at hs
  simp only [Bool.and_eq_true, decide_eq_true_eq] at hs
  tauto

theorem jp_joint_left2 (mt : MerkleTree) (data : List Bytes) (i n : Int)
    (lAp rAp : List Bytes) (s l r : Int)
    (hsplit : split (lpow2s n) data.length i = (s, l, r))
    (hc : lAp ≠ [] ∧ rAp ≠ [] ∧ last lAp = last rAp) (hs : 0 < s) :
    mt.jp data i n lAp rAp = mt.hash [mt.interiorPrefix,
      mt.jp data l (lpow2s n) (next lAp) (next rAp), last lAp] := by
  rw [jp_joint_left mt data i n lAp rAp hc (by rw [hsplit]; exact hs), hsplit]

theorem jp_joint_right2 (mt : MerkleTree) (data : List Bytes) (i n : Int)
    (lAp rAp : List Bytes) (s l r : Int)
    (hsplit : split (lpow2s n) data.length i = (s, l, r))
    (hc : lAp ≠ [] ∧ rAp ≠ [] ∧ last lAp = last rAp) (hs : ¬ 0 < s) :
    mt.jp data i n lAp rAp = mt.hash [mt.interiorPrefix, last rAp,
      mt.jp data r (n - lpow2s n) (next lAp) (next rAp)] := by
  rw [jp_joint_right mt data i n lAp rAp hc (by rw [hsplit]; exact hs), hsplit]

theorem jp_disjoint2 (mt : MerkleTree) (data : List Bytes) (i n : Int)
    (lAp rAp : List Bytes) (s l r : Int)
    (hsplit : split (lpow2s n) data.length i = (s, l, r))
    (hc : ¬ (lAp ≠ [] ∧ rAp ≠ [] ∧ last lAp = last rAp)) :
    mt.jp data i n lAp rAp = mt.hash [mt.interiorPrefix,
      mt.dp (data.take s.toNat) l (lpow2s n)
        (if lAp = [] then rAp else lAp),
      mt.dp (data.drop s.toNat) r (n - lpow2s n)
        (if lAp = [] then rAp else if rAp = [] then lAp else rAp)] := by
  rw [jp_disjoint mt data i n lAp rAp hc, hsplit]

/-- The range round-trip at the `jp` level: over a subtree `ls` without
sibling collisions, reconstructing the range `[i, j)` from the genuine
audit paths of its first and last leaves (each path absent exactly when
allowed) yields the subtree root. The path hypotheses also admit a present
path at a touched edge, which happens during joint descent. -/
theorem jp_round_aux (mt : MerkleTree) : ∀ N : Nat, ∀ ls : List Bytes,
    ls.length ≤ N → 2 ≤ ls.length → mt.sibOk ls = true →
    ∀ i j : Nat, i < j → j ≤ ls.length →
    ∀ lA rA : List Bytes,
    (lA = mt.ap (↑i) ls ∨ (lA = [] ∧ i = 0)) →
    (rA = mt.ap (↑(j - 1)) ls ∨ (rA = [] ∧ j = ls.length)) →
    (2 ≤ j - i ∨ lA = [] ∨ rA = []) →
    mt.jp ((ls.drop i).take (j - i)) (↑i) (↑ls.length) lA rA = mt.mth ls := by
  intro N
  induction N with
  | zero => intro ls hN hlen2; exact absurd hlen2 (by omega)
  | succ N ih =>
    intro ls hN hlen2 hsib i j hij hjn lA rA hlA hrA hcond
    have hk1 := lpow2s_toNat_pos ls.length hlen2
    have hk2 := lpow2s_toNat_lt ls.length hlen2
    have hkc : ((lpow2s (ls.length : Int)).toNat : Int) = lpow2s ls.length :=
      Int.toNat_of_nonneg
        (by have := lpow2s_pos (ls.length : Int) (by omega); omega)
    have htl : (ls.take (lpow2s (ls.length : Int)).toNat).length =
        (lpow2s (ls.length : Int)).toNat := by simp; omega
    have hdl : (ls.drop (lpow2s (ls.length : Int)).toNat).length =
        ls.length - (lpow2s (ls.length : Int)).toNat := by simp
    obtain ⟨hneq, hsibT, hsibD⟩ := sibOk_spec mt ls hlen2 hsib
    have hcsub : ((ls.length : Int)) - lpow2s ((ls.length : Int)) =
        ((ls.length - (lpow2s (ls.length : Int)).toNat : Nat) : Int) := by omega
    rcases hlA with rfl | ⟨rfl, rfl⟩
    · -- left path present (the genuine audit path of leaf i)
      have hlne := ap_ne_nil mt (↑i) ls hlen2
      rcases hrA with rfl | ⟨rfl, rfl⟩
      · -- both paths present
        have hrne := ap_ne_nil mt (↑(j - 1)) ls hlen2
        have hji2 : 2 ≤ j - i := by
          rcases hcond with h | h | h
          · exact h
          · exact absurd h hlne
          · exact absurd h hrne
        have hdata_len : ((ls.drop i).take (j - i)).length = j - i := by
          simp; omega
        rcases Nat.lt_or_ge i ((lpow2s (ls.length : Int)).toNat) with hil | hir
        · rcases Nat.lt_or_ge (j - 1) ((lpow2s (ls.length : Int)).toNat)
            with hjl | hjr
          · -- both leaves in the left half: joint descent left
            have hll : last (mt.ap (↑i) ls) =
                mt.mth (ls.drop (lpow2s (ls.length : Int)).toNat) := by
              rw [ap_left mt (↑i) ls hlen2 (by omega), last_concat]
            have hlr : last (mt.ap (↑(j - 1)) ls) =
                mt.mth (ls.drop (lpow2s (ls.length : Int)).toNat) := by
              rw [ap_left mt (↑(j - 1)) ls hlen2 (by omega), last_concat]
            have hnl : next (mt.ap (↑i) ls) =
                mt.ap (↑i) (ls.take (lpow2s (ls.length : Int)).toNat) := by
              rw [ap_left mt (↑i) ls hlen2 (by omega), next_concat]
            have hnr : next (mt.ap (↑(j - 1)) ls) =
                mt.ap (↑(j - 1)) (ls.take (lpow2s (ls.length : Int)).toNat) := by
              rw [ap_left mt (↑(j - 1)) ls hlen2 (by omega), next_concat]
            have hsplit : split (lpow2s ((ls.length : Int)))
                ((((ls.drop i).take (j - i)).length : Nat) : Int) (↑i) =
                (((j - i : Nat) : Int), (↑i), 0) := by
              rw [hdata_len, split_pos ((j - i : Nat) : Int)
                (show ((i : Nat) : Int) < lpow2s ((ls.length : Int)) by omega)]
              rw [show min ((j - i : Nat) : Int)
                (lpow2s ((ls.length : Int)) - ((i : Nat) : Int)) =
                ((j - i : Nat) : Int) by omega]
            rw [jp_joint_left2 mt ((ls.drop i).take (j - i)) (↑i)
              ((ls.length : Int)) (mt.ap (↑i) ls) (mt.ap (↑(j - 1)) ls)
              _ _ _ hsplit ⟨hlne, hrne, by rw [hll, hlr]⟩
              (by exact_mod_cast Nat.pos_of_ne_zero (by omega))]
            rw [hnl, hnr, hll]
            have hdataL : (ls.drop i).take (j - i) =
                ((ls.take (lpow2s (ls.length : Int)).toNat).drop i).take
                  (j - i) := by
              rw [List.drop_take, List.take_take,
                show min (j - i) ((lpow2s (ls.length : Int)).toNat - i) =
                  j - i by omega]
            rw [hdataL]
            have hIH := ih (ls.take (lpow2s (ls.length : Int)).toNat)
              (by omega) (by omega) hsibT i j hij (by omega)
              (mt.ap (↑i) (ls.take (lpow2s (ls.length : Int)).toNat))
              (mt.ap (↑(j - 1)) (ls.take (lpow2s (ls.length : Int)).toNat))
              (Or.inl rfl) (Or.inl rfl) (Or.inl hji2)
            rw [htl, hkc] at hIH
            rw [hIH, ← mth_interior mt ls hlen2]
          · -- the range straddles the split: disjoint descent
            have hll : last (mt.ap (↑i) ls) =
                mt.mth (ls.drop (lpow2s (ls.length : Int)).toNat) := by
              rw [ap_left mt (↑i) ls hlen2 (by omega), last_concat]
            have hlr : last (mt.ap (↑(j - 1)) ls) =
                mt.mth (ls.take (lpow2s (ls.length : Int)).toNat) := by
              rw [ap_right mt (↑(j - 1)) ls hlen2 (by omega), last_concat]
            have hc : ¬ (mt.ap (↑i) ls ≠ [] ∧ mt.ap (↑(j - 1)) ls ≠ [] ∧
                last (mt.ap (↑i) ls) = last (mt.ap (↑(j - 1)) ls)) := by
              rintro ⟨-, -, h⟩
              rw [hll, hlr] at h
              exact hneq h.symm
            have hsplit : split (lpow2s ((ls.length : Int)))
                ((((ls.drop i).take (j - i)).length : Nat) : Int) (↑i) =
                ((((lpow2s (ls.length : Int)).toNat - i : Nat) : Int),
                  (↑i), 0) := by
              rw [hdata_len, split_pos ((j - i : Nat) : Int)
                (show ((i : Nat) : Int) < lpow2s ((ls.length : Int)) by omega)]
              rw [show min ((j - i : Nat) : Int)
                (lpow2s ((ls.length : Int)) - ((i : Nat) : Int)) =
                (((lpow2s (ls.length : Int)).toNat - i : Nat) : Int) by omega]
            rw [jp_disjoint2 mt ((ls.drop i).take (j - i)) (↑i)
              ((ls.length : Int)) (mt.ap (↑i) ls) (mt.ap (↑(j - 1)) ls)
              _ _ _ hsplit hc]
            rw [if_neg hlne, if_neg hrne, if_neg hlne, Int.toNat_natCast]
            have hdataL : ((ls.drop i).take (j - i)).take
                ((lpow2s (ls.length : Int)).toNat - i) =
                (ls.take (lpow2s (ls.length : Int)).toNat).drop i := by
              rw [List.take_take,
                show min ((lpow2s (ls.length : Int)).toNat - i) (j - i) =
                  (lpow2s (ls.length : Int)).toNat - i by omega,
                List.drop_take]
            have hapl : mt.ap (↑i) ls =
                mt.ap (↑i) (ls.take (lpow2s (ls.length : Int)).toNat) ++
                  [mt.mth (ls.drop (lpow2s (ls.length : Int)).toNat)] :=
              ap_left mt (↑i) ls hlen2 (by omega)
            have hL := dp_left mt (ls.take (lpow2s (ls.length : Int)).toNat)
              i (by omega) (mt.mth (ls.drop (lpow2s (ls.length : Int)).toNat))
            rw [htl, hkc] at hL
            have hdataR : ((ls.drop i).take (j - i)).drop
                ((lpow2s (ls.length : Int)).toNat - i) =
                (ls.drop (lpow2s (ls.length : Int)).toNat).take
                  ((j - 1 - (lpow2s (ls.length : Int)).toNat) + 1) := by
              rw [List.drop_take, List.drop_drop,
                show i + ((lpow2s (ls.length : Int)).toNat - i) =
                  (lpow2s (ls.length : Int)).toNat by omega,
                show (j - i) - ((lpow2s (ls.length : Int)).toNat - i) =
                  (j - 1 - (lpow2s (ls.length : Int)).toNat) + 1 by omega]
            have hapr : mt.ap (↑(j - 1)) ls =
                mt.ap (↑(j - 1 - (lpow2s (ls.length : Int)).toNat))
                  (ls.drop (lpow2s (ls.length : Int)).toNat) ++
                  [mt.mth (ls.take (lpow2s (ls.length : Int)).toNat)] := by
              rw [ap_right mt (↑(j - 1)) ls hlen2 (by omega),
                show ((j - 1 : Nat) : Int) - lpow2s ((ls.length : Int)) =
                  ((j - 1 - (lpow2s (ls.length : Int)).toNat : Nat) : Int)
                  by omega]
            have hR := dp_right mt (ls.drop (lpow2s (ls.length : Int)).toNat)
              (j - 1 - (lpow2s (ls.length : Int)).toNat) (by omega)
              (mt.mth (ls.take (lpow2s (ls.length : Int)).toNat))
            rw [hdl, show ((ls.length - (lpow2s (ls.length : Int)).toNat :
              Nat) : Int) = ((ls.length : Int)) - lpow2s ((ls.length : Int))
              by omega] at hR
            rw [hdataL, hapl, hdataR, hapr, hL, hR, ← mth_interior mt ls hlen2]
        · -- both leaves in the right half: joint descent right
          have hll : last (mt.ap (↑i) ls) =
              mt.mth (ls.take (lpow2s (ls.length : Int)).toNat) := by
            rw [ap_right mt (↑i) ls hlen2 (by omega), last_concat]
          have hlr : last (mt.ap (↑(j - 1)) ls) =
              mt.mth (ls.take (lpow2s (ls.length : Int)).toNat) := by
            rw [ap_right mt (↑(j - 1)) ls hlen2 (by omega), last_concat]
          have hnl : next (mt.ap (↑i) ls) =
              mt.ap (↑(i - (lpow2s (ls.length : Int)).toNat))
                (ls.drop (lpow2s (ls.length : Int)).toNat) := by
            rw [ap_right mt (↑i) ls hlen2 (by omega), next_concat,
              show ((i : Nat) : Int) - lpow2s ((ls.length : Int)) =
                ((i - (lpow2s (ls.length : Int)).toNat : Nat) : Int) by omega]
          have hnr : next (mt.ap (↑(j - 1)) ls) =
              mt.ap (↑(j - (lpow2s (ls.length : Int)).toNat - 1))
                (ls.drop (lpow2s (ls.length : Int)).toNat) := by
            rw [ap_right mt (↑(j - 1)) ls hlen2 (by omega), next_concat,
              show ((j - 1 : Nat) : Int) - lpow2s ((ls.length : Int)) =
                ((j - (lpow2s (ls.length : Int)).toNat - 1 : Nat) : Int)
                by omega]
          have hsplit : split (lpow2s ((ls.length : Int)))
              ((((ls.drop i).take (j - i)).length : Nat) : Int) (↑i) =
              (0, 0, ((i - (lpow2s (ls.length : Int)).toNat : Nat) : Int)) := by
            rw [hdata_len, split_nonpos ((j - i : Nat) : Int)
              (show lpow2s ((ls.length : Int)) ≤ ((i : Nat) : Int) by omega)]
            rw [show ((i : Nat) : Int) - lpow2s ((ls.length : Int)) =
              ((i - (lpow2s (ls.length : Int)).toNat : Nat) : Int) by omega]
          rw [jp_joint_right2 mt ((ls.drop i).take (j - i)) (↑i)
            ((ls.length : Int)) (mt.ap (↑i) ls) (mt.ap (↑(j - 1)) ls)
            _ _ _ hsplit ⟨hlne, hrne, by rw [hll, hlr]⟩ (by norm_num)]
          rw [hnl, hnr, hlr, hcsub]
          have hdataR : (ls.drop i).take (j - i) =
              ((ls.drop (lpow2s (ls.length : Int)).toNat).drop
                (i - (lpow2s (ls.length : Int)).toNat)).take
                ((j - (lpow2s (ls.length : Int)).toNat) -
                  (i - (lpow2s (ls.length : Int)).toNat)) := by
            rw [List.drop_drop,
              show (lpow2s (ls.length : Int)).toNat +
                (i - (lpow2s (ls.length : Int)).toNat) = i by omega,
              show (j - (lpow2s (ls.length : Int)).toNat) -
                (i - (lpow2s (ls.length : Int)).toNat) = j - i by omega]
          rw [hdataR]
          have hIH := ih (ls.drop (lpow2s (ls.length : Int)).toNat)
            (by omega) (by omega) hsibD
            (i - (lpow2s (ls.length : Int)).toNat)
            (j - (lpow2s (ls.length : Int)).toNat) (by omega) (by omega)
            (mt.ap (↑(i - (lpow2s (ls.length : Int)).toNat))
              (ls.drop (lpow2s (ls.length : Int)).toNat))
            (mt.ap (↑(j - (lpow2s (ls.length : Int)).toNat - 1))
              (ls.drop (lpow2s (ls.length : Int)).toNat))
            (Or.inl rfl) (Or.inl rfl) (Or.inl (by omega))
          rw [hdl, show ((ls.length - (lpow2s (ls.length : Int)).toNat :
            Nat) : Int) = ((ls.length : Int)) - lpow2s ((ls.length : Int))
            by omega] at hIH
          rw [hcsub] at hIH
          rw [hIH, ← mth_interior mt ls hlen2]
      · -- right path absent: the range reaches the right edge (j = length)
        have hc : ¬ (mt.ap (↑i) ls ≠ [] ∧ ([] : List Bytes) ≠ [] ∧
            last (mt.ap (↑i) ls) = last ([] : List Bytes)) := by
          rintro ⟨-, h, -⟩
          exact h rfl
        have hdata : (ls.drop i).take (ls.length - i) = ls.drop i := by
          rw [show ls.length - i = (ls.drop i).length by simp,
            List.take_length]
        rw [hdata]
        rcases Nat.lt_or_ge i ((lpow2s (ls.length : Int)).toNat) with hil | hir
        · -- range starts in the left half
          have hsplit : split (lpow2s ((ls.length : Int)))
              (((ls.drop i).length : Nat) : Int) (↑i) =
              ((((lpow2s (ls.length : Int)).toNat - i : Nat) : Int),
                (↑i), 0) := by
            rw [show (ls.drop i).length = ls.length - i by simp,
              split_pos ((ls.length - i : Nat) : Int)
              (show ((i : Nat) : Int) < lpow2s ((ls.length : Int)) by omega)]
            rw [show min ((ls.length - i : Nat) : Int)
              (lpow2s ((ls.length : Int)) - ((i : Nat) : Int)) =
              (((lpow2s (ls.length : Int)).toNat - i : Nat) : Int) by omega]
          rw [jp_disjoint2 mt (ls.drop i) (↑i) ((ls.length : Int))
            (mt.ap (↑i) ls) [] _ _ _ hsplit hc]
          rw [if_neg hlne, if_neg hlne, if_pos rfl, Int.toNat_natCast]
          have hdataL : (ls.drop i).take
              ((lpow2s (ls.length : Int)).toNat - i) =
              (ls.take (lpow2s (ls.length : Int)).toNat).drop i := by
            rw [List.drop_take]
          have hapl : mt.ap (↑i) ls =
              mt.ap (↑i) (ls.take (lpow2s (ls.length : Int)).toNat) ++
                [mt.mth (ls.drop (lpow2s (ls.length : Int)).toNat)] :=
            ap_left mt (↑i) ls hlen2 (by omega)
          have hL := dp_left mt (ls.take (lpow2s (ls.length : Int)).toNat)
            i (by omega) (mt.mth (ls.drop (lpow2s (ls.length : Int)).toNat))
          rw [htl, hkc] at hL
          have hdataR : (ls.drop i).drop
              ((lpow2s (ls.length : Int)).toNat - i) =
              ls.drop (lpow2s (ls.length : Int)).toNat := by
            rw [List.drop_drop,
              show i + ((lpow2s (ls.length : Int)).toNat - i) =
                (lpow2s (ls.length : Int)).toNat by omega]
          have hR := dp_full mt (ls.drop (lpow2s (ls.length : Int)).toNat)
            (by omega)
            (mt.ap (↑i) (ls.take (lpow2s (ls.length : Int)).toNat) ++
              [mt.mth (ls.drop (lpow2s (ls.length : Int)).toNat)])
          rw [hdl, show ((ls.length - (lpow2s (ls.length : Int)).toNat :
            Nat) : Int) = ((ls.length : Int)) - lpow2s ((ls.length : Int))
            by omega] at hR
          rw [hdataL, hapl, hdataR, hL, hR, ← mth_interior mt ls hlen2]
        · -- range starts in the right half
          have hsplit : split (lpow2s ((ls.length : Int)))
              (((ls.drop i).length : Nat) : Int) (↑i) =
              (0, 0, ((i - (lpow2s (ls.length : Int)).toNat : Nat) : Int)) := by
            rw [show (ls.drop i).length = ls.length - i by simp,
              split_nonpos ((ls.length - i : Nat) : Int)
              (show lpow2s ((ls.length : Int)) ≤ ((i : Nat) : Int) by omega)]
            rw [show ((i : Nat) : Int) - lpow2s ((ls.length : Int)) =
              ((i - (lpow2s (ls.length : Int)).toNat : Nat) : Int) by omega]
          rw [jp_disjoint2 mt (ls.drop i) (↑i) ((ls.length : Int))
            (mt.ap (↑i) ls) [] _ _ _ hsplit hc]
          rw [if_neg hlne, if_neg hlne, if_pos rfl]
          rw [show ((0 : Int)).toNat = 0 from rfl, List.take_zero,
            List.drop_zero]
          have hll : last (mt.ap (↑i) ls) =
              mt.mth (ls.take (lpow2s (ls.length : Int)).toNat) := by
            rw [ap_right mt (↑i) ls hlen2 (by omega), last_concat]
          rw [dp_nil, hll]
          have hdataR : ls.drop i =
              (ls.drop (lpow2s (ls.length : Int)).toNat).drop
                (i - (lpow2s (ls.length : Int)).toNat) := by
            rw [List.drop_drop,
              show (lpow2s (ls.length : Int)).toNat +
                (i - (lpow2s (ls.length : Int)).toNat) = i by omega]
          have hapl : mt.ap (↑i) ls =
              mt.ap (↑(i - (lpow2s (ls.length : Int)).toNat))
                (ls.drop (lpow2s (ls.length : Int)).toNat) ++
                [mt.mth (ls.take (lpow2s (ls.length : Int)).toNat)] := by
            rw [ap_right mt (↑i) ls hlen2 (by omega),
              show ((i : Nat) : Int) - lpow2s ((ls.length : Int)) =
                ((i - (lpow2s (ls.length : Int)).toNat : Nat) : Int) by omega]
          have hR := dp_left mt (ls.drop (lpow2s (ls.length : Int)).toNat)
            (i - (lpow2s (ls.length : Int)).toNat) (by omega)
            (mt.mth (ls.take (lpow2s (ls.length : Int)).toNat))
          rw [hdl, show ((ls.length - (lpow2s (ls.length : Int)).toNat :
            Nat) : Int) = ((ls.length : Int)) - lpow2s ((ls.length : Int))
            by omega] at hR
          rw [hdataR, hapl, hR, ← mth_interior mt ls hlen2]
    · -- left path absent: the range starts at leaf 0
      have hc : ∀ rA' : List Bytes, ¬ (([] : List Bytes) ≠ [] ∧ rA' ≠ [] ∧
          last ([] : List Bytes) = last rA') := by
        rintro rA' ⟨h, -, -⟩
        exact h rfl
      simp only [List.drop_zero, Nat.sub_zero, Nat.cast_zero]
      rcases hrA with rfl | ⟨rfl, rfl⟩
      · -- right path present
        have htakej : (ls.take j).length = j := by simp; omega
        rcases Nat.lt_or_ge (j - 1) ((lpow2s (ls.length : Int)).toNat)
          with hjl | hjr
        · -- range ends inside the left half
          have hsplit : split (lpow2s ((ls.length : Int)))
              (((ls.take j).length : Nat) : Int) 0 =
              (((j : Nat) : Int), 0, 0) := by
            rw [htakej, split_pos ((j : Nat) : Int)
              (show (0 : Int) < lpow2s ((ls.length : Int)) by omega)]
            rw [show min ((j : Nat) : Int)
              (lpow2s ((ls.length : Int)) - 0) = ((j : Nat) : Int) by omega]
          rw [jp_disjoint2 mt (ls.take j) 0 ((ls.length : Int)) []
            (mt.ap (↑(j - 1)) ls) _ _ _ hsplit (hc _)]
          rw [if_pos rfl, if_pos rfl, Int.toNat_natCast]
          have hdataL : (ls.take j).take j =
              (ls.take (lpow2s (ls.length : Int)).toNat).take ((j - 1) + 1) := by
            rw [List.take_take, List.take_take]
            congr 1
            omega
          have hapr : mt.ap (↑(j - 1)) ls =
              mt.ap (↑(j - 1)) (ls.take (lpow2s (ls.length : Int)).toNat) ++
                [mt.mth (ls.drop (lpow2s (ls.length : Int)).toNat)] :=
            ap_left mt (↑(j - 1)) ls hlen2 (by omega)
          have hL := dp_right mt (ls.take (lpow2s (ls.length : Int)).toNat)
            (j - 1) (by omega)
            (mt.mth (ls.drop (lpow2s (ls.length : Int)).toNat))
          rw [htl, hkc] at hL
          have hdataR : (ls.take j).drop j = ([] : List Bytes) := by
            rw [List.drop_take]
            simp
          rw [hdataL, hapr, hdataR, hL, dp_nil, last_concat,
            ← mth_interior mt ls hlen2]
        · -- range crosses into the right half
          have hsplit : split (lpow2s ((ls.length : Int)))
              (((ls.take j).length : Nat) : Int) 0 =
              ((((lpow2s (ls.length : Int)).toNat : Nat) : Int), 0, 0) := by
            rw [htakej, split_pos ((j : Nat) : Int)
              (show (0 : Int) < lpow2s ((ls.length : Int)) by omega)]
            rw [show min ((j : Nat) : Int)
              (lpow2s ((ls.length : Int)) - 0) =
              (((lpow2s (ls.length : Int)).toNat : Nat) : Int) by omega]
          rw [jp_disjoint2 mt (ls.take j) 0 ((ls.length : Int)) []
            (mt.ap (↑(j - 1)) ls) _ _ _ hsplit (hc _)]
          rw [if_pos rfl, if_pos rfl, Int.toNat_natCast]
          have hapr : mt.ap (↑(j - 1)) ls =
              mt.ap (↑(j - 1 - (lpow2s (ls.length : Int)).toNat))
                (ls.drop (lpow2s (ls.length : Int)).toNat) ++
                [mt.mth (ls.take (lpow2s (ls.length : Int)).toNat)] := by
            rw [ap_right mt (↑(j - 1)) ls hlen2 (by omega),
              show ((j - 1 : Nat) : Int) - lpow2s ((ls.length : Int)) =
                ((j - 1 - (lpow2s (ls.length : Int)).toNat : Nat) : Int)
                by omega]
          have hdataL : (ls.take j).take (lpow2s (ls.length : Int)).toNat =
              ls.take (lpow2s (ls.length : Int)).toNat := by
            rw [List.take_take]
            congr 1
            omega
          have hL := dp_full mt (ls.take (lpow2s (ls.length : Int)).toNat)
            (by omega)
            (mt.ap (↑(j - 1 - (lpow2s (ls.length : Int)).toNat))
              (ls.drop (lpow2s (ls.length : Int)).toNat) ++
              [mt.mth (ls.take (lpow2s (ls.length : Int)).toNat)])
          rw [htl, hkc] at hL
          have hdataR : (ls.take j).drop (lpow2s (ls.length : Int)).toNat =
              (ls.drop (lpow2s (ls.length : Int)).toNat).take
                ((j - 1 - (lpow2s (ls.length : Int)).toNat) + 1) := by
            rw [List.drop_take]
            congr 1
            omega
          have hR := dp_right mt (ls.drop (lpow2s (ls.length : Int)).toNat)
            (j - 1 - (lpow2s (ls.length : Int)).toNat) (by omega)
            (mt.mth (ls.take (lpow2s (ls.length : Int)).toNat))
          rw [hdl, show ((ls.length - (lpow2s (ls.length : Int)).toNat :
            Nat) : Int) = ((ls.length : Int)) - lpow2s ((ls.length : Int))
            by omega] at hR
          rw [hapr, hdataL, hdataR, hL, hR, ← mth_interior mt ls hlen2]
      · -- both paths absent: the full range
        have hdata : ls.take ls.length = ls := List.take_length ls
        rw [hdata]
        have hsplit : split (lpow2s ((ls.length : Int)))
            ((ls.length : Nat) : Int) 0 =
            ((((lpow2s (ls.length : Int)).toNat : Nat) : Int), 0, 0) := by
          rw [split_pos ((ls.length : Nat) : Int)
            (show (0 : Int) < lpow2s ((ls.length : Int)) by omega)]
          rw [show min ((ls.length : Nat) : Int)
            (lpow2s ((ls.length : Int)) - 0) =
            (((lpow2s (ls.length : Int)).toNat : Nat) : Int) by omega]
        rw [jp_disjoint2 mt ls 0 ((ls.length : Int)) [] [] _ _ _ hsplit (hc _)]
        rw [if_pos rfl, if_pos rfl, Int.toNat_natCast]
        have hL := dp_full mt (ls.take (lpow2s (ls.length : Int)).toNat)
          (by omega) ([] : List Bytes)
        rw [htl, hkc] at hL
        have hR := dp_full mt (ls.drop (lpow2s (ls.length : Int)).toNat)
          (by omega) ([] : List Bytes)
        rw [hdl, show ((ls.length - (lpow2s (ls.length : Int)).toNat :
          Nat) : Int) = ((ls.length : Int)) - lpow2s ((ls.length : Int))
          by omega] at hR
        rw [hL, hR, ← mth_interior mt ls hlen2]

theorem jp_round (mt : MerkleTree) (ls : List Bytes) (hlen2 : 2 ≤ ls.length)
    (hsib : mt.sibOk ls = true) (i j : Nat) (hij : i < j) (hjn : j ≤ ls.length)
    (lA rA : List Bytes)
    (hlA : lA = mt.ap (↑i) ls ∨ (lA = [] ∧ i = 0))
    (hrA : rA = mt.ap (↑(j - 1)) ls ∨ (rA = [] ∧ j = ls.length))
    (hcond : 2 ≤ j - i ∨ lA = [] ∨ rA = []) :
    mt.jp ((ls.drop i).take (j - i)) (↑i) (↑ls.length) lA rA = mt.mth ls :=
  jp_round_aux mt ls.length ls le_rfl hlen2 hsib i j hij hjn lA rA hlA hrA hcond

/-- The range round-trip through `MthFromRangeAp`, in the convention the
implementation uses (and its own test exercises): the left path is the
audit path of the range's first leaf `i` when `i > 0`, the right path the
audit path of its last leaf `j - 1` when `j < n`. -/
theorem rangeAp_round (mt : MerkleTree) (i j : Nat)
    (h2 : 2 ≤ mt.data.length) (hsib : mt.sibOk mt.data = true)
    (hij : i < j) (hjn : j ≤ mt.data.length)
    (hcond : 2 ≤ j - i ∨ i = 0 ∨ j = mt.data.length) :
    mt.MthFromRangeAp ((mt.data.drop i).take (j - i)) (↑i)
      (↑mt.data.length)
      (if 0 < i then mt.Ap (↑i) else [])
      (if j < mt.data.length then mt.Ap (↑(j - 1)) else []) =
      Except.ok mt.Mth := by
  have hlen : ((mt.data.drop i).take (j - i)).length = j - i := by
    simp; omega
  rw [MerkleTree.MthFromRangeAp,
    if_neg (show ¬ ((mt.data.length : Int)) = 0 by omega),
    if_neg (show ¬ ((mt.data.length : Int)) = 1 by omega),
    if_neg (show ¬ ((mt.data.length : Int)) <
      (↑i) + (((mt.data.drop i).take (j - i)).length : Int) by
        rw [hlen]; omega),
    if_neg ?h4]
  case h4 =>
    rintro ⟨ha, hb, hc⟩
    rw [hlen] at ha
    rcases hcond with h | h | h
    · omega
    · omega
    · omega
  refine congrArg Except.ok ?_
  rw [MerkleTree.Mth]
  apply jp_round mt mt.data h2 hsib i j hij hjn
  · by_cases h0 : 0 < i
    · rw [if_pos h0]
      left
      rw [MerkleTree.Ap]
    · rw [if_neg h0]
      right
      exact ⟨rfl, by omega⟩
  · by_cases hj : j < mt.data.length
    · rw [if_pos hj]
      left
      rw [MerkleTree.Ap]
    · rw [if_neg hj]
      right
      exact ⟨rfl, by omega⟩
  · rcases hcond with h | h | h
    · exact Or.inl h
    · refine Or.inr (Or.inl ?_)
      rw [if_neg (by omega)]
    · refine Or.inr (Or.inr ?_)
      rw [if_neg (by omega : ¬ j < mt.data.length)]

/-- A four-leaf tree over `encHash` with repeated leaves ("1","2","1","2"):
its two three-level siblings hash identically, so `sibOk` fails and the
joint-path comparison of `jp` misfires. -/
def mtFour : MerkleTree :=
  NewMerkleTree [255] [0] [1] encHash [[49], [50], [49], [50]]

/-- Claim C9 (counterexample): on the four-leaf tree with leaves
"1","2","1","2", the range `[1, 3)` with the implementation's own path
convention (`lAp = Ap(1)`, `rAp = Ap(2)`) does not reconstruct the root:
the tops of the two audit paths collide (the left and right half of the
tree carry the same leaves), `jp` wrongly treats the paths as joint, and
the reconstructed digest differs from `Mth()`. -/
theorem C9_cex :
    mtFour.MthFromRangeAp ((mtFour.data.drop 1).take 2) 1
      (↑mtFour.data.length) (mtFour.Ap 1) (mtFour.Ap 2) ≠
      Except.ok mtFour.Mth := by
  simp only [mtFour, NewMerkleTree]
  simp [MerkleTree.MthFromRangeAp, MerkleTree.jp, MerkleTree.dp,
    MerkleTree.Mth, MerkleTree.mth, MerkleTree.Ap, MerkleTree.ap,
    NewMerkleTree, split, lpow2s, bitLen, bitLenF, last, next, encHash]

/-- Claim C9 (amended): the round trip holds as claimed for every tree
whose sibling digests do not collide (`sibOk`). -/
theorem C9_range_round_trip (mt : MerkleTree) (i j : Nat)
    (h2 : 2 ≤ mt.data.length) (hsib : mt.sibOk mt.data = true)
    (hij : i < j) (hjn : j ≤ mt.data.length)
    (hcond : 2 ≤ j - i ∨ i = 0 ∨ j = mt.data.length) :
    mt.MthFromRangeAp ((mt.data.drop i).take (j - i)) (↑i)
      (↑mt.data.length)
      (if 0 < i then mt.Ap (↑i) else [])
      (if j < mt.data.length then mt.Ap (↑(j - 1)) else []) =
      Except.ok mt.Mth :=
  rangeAp_round mt i j h2 hsib hij hjn hcond

/-- Witness for C9 on the two-leaf tree, full range `[0, 2)`. -/
theorem C9_witness :
    (2 ≤ mtTwo.data.length ∧ mtTwo.sibOk mtTwo.data = true ∧
      (0 : Nat) < 2 ∧ 2 ≤ mtTwo.data.length ∧
      (2 ≤ 2 - 0 ∨ (0 : Nat) = 0 ∨ 2 = mtTwo.data.length)) ∧
    mtTwo.MthFromRangeAp ((mtTwo.data.drop 0).take (2 - 0)) ((0 : Nat))
      (↑mtTwo.data.length)
      (if 0 < (0 : Nat) then mtTwo.Ap ((0 : Nat)) else [])
      (if 2 < mtTwo.data.length then mtTwo.Ap ((2 - 1 : Nat)) else []) =
      Except.ok mtTwo.Mth := by
  have hlen : mtTwo.data.length = 2 := rfl
  have hsib : mtTwo.sibOk mtTwo.data = true := by
    simp [MerkleTree.sibOk, MerkleTree.mth, mtTwo, NewMerkleTree, lpow2s,
      bitLen, bitLenF, encHash]
  exact ⟨⟨by omega, hsib, by omega, by omega, by omega⟩,
    C9_range_round_trip mtTwo 0 2 (by omega) hsib (by omega) (by omega)
      (by omega)⟩

/-- Claim C2 (counterexample): the spec's stated path convention
(`lAp = Ap(i-1)`, the audit path of the leaf left of the range) does not
hold of the code. On the two-leaf tree with leaves "1","2", the range
`[1, 2)` with `lAp = Ap(0)` reconstructs `H(ip, leaf2, leaf2)` instead of
the root `H(ip, leaf1, leaf2)`. -/
theorem C2_cex :
    mtTwo.MthFromRangeAp ((mtTwo.data.drop 1).take 1) 1
      (↑mtTwo.data.length) (mtTwo.Ap 0) [] ≠ Except.ok mtTwo.Mth := by
  simp only [mtTwo, NewMerkleTree]
  simp [MerkleTree.MthFromRangeAp, MerkleTree.jp, MerkleTree.dp,
    MerkleTree.Mth, MerkleTree.mth, MerkleTree.Ap, MerkleTree.ap,
    NewMerkleTree, split, lpow2s, bitLen, bitLenF, last, next, encHash]

/-- Claim C2 (amended): the range round-trip for `n ∈ [1, 32]` holds with
the audit paths the implementation actually uses — `lAp = Ap(i)` (the
range's first leaf) when `i > 0` and `rAp = Ap(j-1)` (its last leaf) when
`j < n` — for every tree without sibling-digest collisions. -/
theorem C2_range_round_trip (mt : MerkleTree) (i j : Nat)
    (h1 : 1 ≤ mt.data.length) (h32 : mt.data.length ≤ 32)
    (hsib : mt.sibOk mt.data = true)
    (hij : i < j) (hjn : j ≤ mt.data.length)
    (hcond : 2 ≤ j - i ∨ i = 0 ∨ j = mt.data.length) :
    mt.MthFromRangeAp ((mt.data.drop i).take (j - i)) (↑i)
      (↑mt.data.length)
      (if 0 < i then mt.Ap (↑i) else [])
      (if j < mt.data.length then mt.Ap (↑(j - 1)) else []) =
      Except.ok mt.Mth := by
  rcases Nat.lt_or_ge mt.data.length 2 with hlen1 | hlen2
  · -- a single-leaf tree: the root-is-leaf branch
    have hl1 : mt.data.length = 1 := by omega
    have hi0 : i = 0 := by omega
    have hj1 : j = 1 := by omega
    subst hi0
    subst hj1
    obtain ⟨x, hx⟩ := List.length_eq_one.mp hl1
    rw [if_neg (by omega), if_neg (by omega), hl1, hx]
    rw [MerkleTree.MthFromRangeAp]
    norm_num
    rw [MerkleTree.Mth, hx, mth_single]
  · exact rangeAp_round mt i j hlen2 hsib hij hjn hcond

/-! ### SHA-256

The repository's `hash` helper feeds every argument to a fresh
`sha256.New()` and returns the digest of the concatenation.  We embed
SHA-256 (FIPS 180-4) over byte lists with purely structural recursion so
the kernel can evaluate concrete digests. -/

def w32 (x : Nat) : Nat := x % 4294967296

def rotr32 (n x : Nat) : Nat := w32 ((x >>> n) ||| (x <<< (32 - n)))

def smallSigma0 (x : Nat) : Nat := (rotr32 7 x) ^^^ (rotr32 18 x) ^^^ (x >>> 3)

def smallSigma1 (x : Nat) : Nat := (rotr32 17 x) ^^^ (rotr32 19 x) ^^^ (x >>> 10)

def bigSigma0 (x : Nat) : Nat := (rotr32 2 x) ^^^ (rotr32 13 x) ^^^ (rotr32 22 x)

def bigSigma1 (x : Nat) : Nat := (rotr32 6 x) ^^^ (rotr32 11 x) ^^^ (rotr32 25 x)

def sha256K : List Nat := [1116352408, 1899447441, 3049323471, 3921009573, 961987163, 1508970993, 2453635748, 2870763221, 3624381080, 310598401, 607225278, 1426881987, 1925078388, 2162078206, 2614888103, 3248222580, 3835390401, 4022224774, 264347078, 604807628, 770255983, 1249150122, 1555081692, 1996064986, 2554220882, 2821834349, 2952996808, 3210313671, 3336571891, 3584528711, 113926993, 338241895, 666307205, 773529912, 1294757372, 1396182291, 1695183700, 1986661051, 2177026350, 2456956037, 2730485921, 2820302411, 3259730800, 3345764771, 3516065817, 3600352804, 4094571909, 275423344, 430227734, 506948616, 659060556, 883997877, 958139571, 1322822218, 1537002063, 1747873779, 1955562222, 2024104815, 2227730452, 2361852424, 2428436474, 2756734187, 3204031479, 3329325298]

def sha256H0 : List Nat := [1779033703, 3144134277, 1013904242, 2773480762, 1359893119, 2600822924, 528734635, 1541459225]

def beBytes : Nat → Nat → List Nat
  | 0, _ => []
  | k + 1, v => beBytes k (v / 256) ++ [v % 256]

def sha256Pad (msg : List Nat) : List Nat :=
  msg ++ [128] ++ List.replicate ((119 - msg.length % 64) % 64) 0 ++
    beBytes 8 (8 * msg.length)

def bytesToWords : List Nat → List Nat
  | a :: b :: c :: d :: rest =>
    (((a * 256 + b) * 256 + c) * 256 + d) :: bytesToWords rest
  | _ => []

def extendW : Nat → List Nat → List Nat
  | 0, ws => ws
  | n + 1, ws =>
    let t := ws.length
    extendW n (ws ++ [w32 (smallSigma1 (ws.getD (t - 2) 0) +
      ws.getD (t - 7) 0 + smallSigma0 (ws.getD (t - 15) 0) +
      ws.getD (t - 16) 0)])

def compressStep (kw : Nat × Nat) (st : List Nat) : List Nat :=
  let a := st.getD 0 0
  let b := st.getD 1 0
  let c := st.getD 2 0
  let d := st.getD 3 0
  let e := st.getD 4 0
  let f := st.getD 5 0
  let g := st.getD 6 0
  let h := st.getD 7 0
  let t1 := w32 (h + bigSigma1 e + ((e &&& f) ^^^ ((e ^^^ 4294967295) &&& g)) +
    kw.1 + kw.2)
  let t2 := w32 (bigSigma0 a + ((a &&& b) ^^^ (a &&& c) ^^^ (b &&& c)))
  [w32 (t1 + t2), a, b, c, w32 (d + t1), e, f, g]

def compressList : List (Nat × Nat) → List Nat → List Nat
  | [], st => st
  | kw :: rest, st => compressList rest (compressStep kw st)

def sha256Block (hs block : List Nat) : List Nat :=
  let st := compressList (sha256K.zip (extendW 48 (bytesToWords block))) hs
  (hs.zip st).map (fun p => w32 (p.1 + p.2))

def sha256Blocks : List (List Nat) → List Nat → List Nat
  | [], hs => hs
  | b :: rest, hs => sha256Blocks rest (sha256Block hs b)

def toBlocksF : Nat → List Nat → List (List Nat)
  | 0, _ => []
  | f + 1, l => if l.isEmpty then [] else l.take 64 :: toBlocksF f (l.drop 64)

def sha256 (msg : List Nat) : List Nat :=
  let padded := sha256Pad msg
  ((sha256Blocks (toBlocksF padded.length padded) sha256H0).map
    (beBytes 4)).flatten

/-- `hash(data ...[]byte)` from mt.go: SHA-256 of the concatenation of the
variadic arguments. -/
def hash : Hash := fun parts => sha256 parts.flatten

/-- The digest the spec names for the empty tree:
e3b0c44298fc1c149afbf4c8996fb92427ae41e4649b934ca495991b7852b855,
which is SHA-256 of the empty string. -/
def e3b0Digest : Bytes := [227, 176, 196, 66, 152, 252, 28, 20, 154, 251, 244, 200, 153, 111, 185, 36, 39, 174, 65, 228, 100, 155, 147, 76, 164, 149, 153, 27, 120, 82, 184, 85]

/-- Claim C8 (counterexample): with H = SHA-256 and twc = 0xff as the
claim says, the empty tree's root is SHA-256(0xff) =
a8100ae6aa1940d0b663bb31cd466142ebbdbd5187131b92d93818987832eb89, not the
claimed digest e3b0c442... (which is SHA-256 of the empty string, the
value the repository's test obtains with its twc = nil). -/
theorem C8_cex :
    (NewMerkleTree [255] [0] [1] hash []).Mth ≠ e3b0Digest := by
  have h : (NewMerkleTree [255] [0] [1] hash []).Mth = hash [[255]] := by
    rw [MerkleTree.Mth,
      show (NewMerkleTree [255] [0] [1] hash []).data = ([] : List Bytes)
        from rfl,
      mth_nil]
    rfl
  rw [h]
  decide

/-- Claim C8 (amended): with H = SHA-256 and twc = the empty byte string
(as the repository's own test configures it), Mth of the empty leaf
sequence equals H(twc) = SHA-256 of the empty string, which is the 32-byte
digest e3b0c44298fc1c149afbf4c8996fb92427ae41e4649b934ca495991b7852b855. -/
theorem C8_empty_tree_digest :
    (NewMerkleTree [] [0] [1] hash []).Mth = hash [[]] ∧
    hash [[]] = e3b0Digest := by
  constructor
  · rw [MerkleTree.Mth,
      show (NewMerkleTree [] [0] [1] hash []).data = ([] : List Bytes)
        from rfl,
      mth_nil]
    rfl
  · decide

/-! ### The wildcard layer (lwm.go)

Go strings are byte lists, compared with the lexicographic `strLt`.  The
`go-radix` tree is an external dependency whose contract (spec section
4.B) is in-order traversal of the stored key-value pairs; it is modelled
as an association list in radix (lexicographically ascending) order, the
ascending order appearing as a hypothesis where a theorem needs it.
`sort.Search` from the Go standard library is embedded as the exact
binary-search loop it documents. -/

/-- Go `<` on `string`: lexicographic byte comparison. -/
def strLt : Bytes → Bytes → Bool
  | [], [] => false
  | [], _ :: _ => true
  | _ :: _, [] => false
  | a :: xs, b :: ys =>
    if a < b then true else if b < a then false else strLt xs ys

/-- The `leafPrefix` package variable of lwm.go. -/
def leafPrefix : Bytes := [0]

/-- The `interiorPrefix` package variable of lwm.go. -/
def interiorPrefix : Bytes := [1]

/-- The `Answer` record of lwm.go. -/
structure Answer where
  subject : List Bytes
  payload : List (List Bytes)

/-- The `Proof` record of lwm.go.  `ll`/`rl` are nilable leaves (`none` is
Go `nil`); for `lap`/`rap` the empty list is Go `nil`, which is how the
Merkle-tree layer reads them. -/
structure Proof where
  hash : Hash
  twc : Bytes
  index : Int
  ll : Option Bytes
  rl : Option Bytes
  lap : List Bytes
  rap : List Bytes

/-- The `radixValue` record of lwm.go. -/
structure radixValue where
  payload : List Bytes
  index : Nat

/-- The `WildcardTree` record of lwm.go; the radix tree is an association
list in radix order. -/
structure WildcardTree where
  r : List (Bytes × radixValue)
  mt : MerkleTree

/-- Go `NewWildcardTree` of lwm.go: walk the key-value pairs in radix
order, record each key's Merkle-tree index, and build the leaf
`key ++ h(payload...)` for each pair. -/
def NewWildcardTree (twc : Bytes) (h : Hash)
    (m : List (Bytes × List Bytes)) : WildcardTree :=
  { r := m.enum.map (fun e => (e.2.1, radixValue.mk e.2.2 e.1)),
    mt := NewMerkleTree twc leafPrefix interiorPrefix h
      (m.map (fun e => e.1 ++ h e.2)) }

/-- Go `Snapshot` of lwm.go. -/
def WildcardTree.Snapshot (wt : WildcardTree) : Bytes := wt.mt.Mth

/-- The loop of Go's `sort.Search` (standard library): binary search on
`[i, j)` for the boundary of `f`. -/
def searchLoop : Nat → Nat → Nat → (Nat → Bool) → Nat
  | 0, i, _, _ => i
  | fuel + 1, i, j, f =>
    if i < j then
      if f ((i + j) / 2) then searchLoop fuel i ((i + j) / 2) f
      else searchLoop fuel (((i + j) / 2) + 1) j f
    else i

/-- Go `sort.Search(n, f)`. -/
def goSearch (n : Nat) (f : Nat → Bool) : Nat := searchLoop n 0 n f

/-- Go `mkKey` of lwm.go: the leaf's bytes with the trailing digest
stripped, or the empty string for leaf data shorter than a digest. -/
def mkKey (data : Bytes) : Bytes :=
  if hashLen ≤ data.length then data.take (data.length - hashLen) else []

/-- Go `Get` of lwm.go.  The radix walk with the query as prefix becomes a
filter of the association list; the first visited match carries the range's
first Merkle-tree index. -/
def WildcardTree.Get (wt : WildcardTree) (key : Bytes) : Answer × Proof :=
  let p0 : Proof :=
    { hash := wt.mt.hash, twc := wt.mt.twc, index := -1, ll := none,
      rl := none, lap := [], rap := [] }
  if wt.mt.data.length = 0 then (⟨[], []⟩, p0)
  else
    let matchL := wt.r.filter (fun e => key.isPrefixOf e.1)
    let answer : Answer :=
      ⟨matchL.map (fun e => e.1), matchL.map (fun e => e.2.payload)⟩
    match matchL with
    | [] =>
      let s := goSearch wt.mt.data.length
        (fun i => !(strLt (mkKey (wt.mt.data.getD i [])) key))
      if s = wt.mt.data.length then
        (answer, { p0 with
                   index := ((s : Int) - 1),
                   lap := wt.mt.Ap ((s : Int) - 1),
                   ll := some (wt.mt.data.getD (s - 1) []) })
      else if s = 0 then
        (answer, { p0 with
                   index := 0,
                   rap := wt.mt.Ap 0,
                   rl := some (wt.mt.data.getD 0 []) })
      else
        (answer, { p0 with
                   index := ((s : Int) - 1),
                   lap := wt.mt.Ap ((s : Int) - 1),
                   rap := wt.mt.Ap (s : Int),
                   ll := some (wt.mt.data.getD (s - 1) []),
                   rl := some (wt.mt.data.getD s []) })
    | e0 :: _ =>
      let i0 : Nat := e0.2.index
      let rindex : Nat := i0 + answer.subject.length
      let withR : Proof :=
        if rindex < wt.mt.data.length then
          { p0 with
            index := (i0 : Int),
            rap := wt.mt.Ap (rindex : Int),
            rl := some (wt.mt.data.getD rindex []) }
        else { p0 with index := (i0 : Int) }
      if 0 < i0 then
        (answer, { withR with
                   index := ((i0 : Int) - 1),
                   lap := wt.mt.Ap ((i0 : Int) - 1),
                   ll := some (wt.mt.data.getD (i0 - 1) []) })
      else (answer, withR)

/-- Go `indices` of lwm.go: the inclusive index range covered by proof and
answer. -/
def indices (p : Proof) (a : Answer) : Int × Int :=
  if 0 ≤ p.index then
    (p.index, p.index + a.subject.length - 1 +
      (if p.ll.isSome then 1 else 0) + (if p.rl.isSome then 1 else 0))
  else (p.index, 0)

/-- The strict-ascent loop check inside Go `mkLeafData`: every adjacent
subject pair must satisfy `subject[i-1] < subject[i]`. -/
def ascending : List Bytes → Bool
  | x :: y :: rest => strLt x y && ascending (y :: rest)
  | _ => true

/-- Go `mkLeafData` of lwm.go: the bracketed consecutive leaf range, or
`none` (Go `false`) when payload and subject counts differ or the keys are
out of order relative to the brackets. -/
def mkLeafData (p : Proof) (a : Answer) : Option (List Bytes) :=
  if a.subject.length = a.payload.length then
    if (match p.ll with
        | some ll => decide (0 < a.subject.length) &&
            strLt (a.subject.headD []) (mkKey ll)
        | none => false) then none
    else if !(ascending a.subject) then none
    else if (match p.rl with
        | some rl => decide (0 < a.subject.length) &&
            strLt (mkKey rl) (a.subject.getLastD [])
        | none => false) then none
    else some ((match p.ll with | some ll => [ll] | none => []) ++
      (a.subject.zip a.payload).map (fun e => e.1 ++ p.hash e.2) ++
      (match p.rl with | some rl => [rl] | none => []))
  else none

/-- Go `Verify` of lwm.go. -/
def Proof.Verify (p : Proof) (key : Bytes) (a : Answer) (size : Int)
    (snapshot : Bytes) : Bool :=
  let li := (indices p a).1
  let ri := (indices p a).2
  if (p.ll.isNone && decide (0 < li)) ||
      (p.rl.isNone && decide (ri + 1 < size)) then false
  else if (match p.ll with
      | some ll => strLt key (mkKey ll)
      | none => false) ||
    (match p.rl with
      | some rl => strLt (mkKey rl) key
      | none => false) then false
  else
    match mkLeafData p a with
    | none => false
    | some d =>
      match (NewMerkleTree p.twc leafPrefix interiorPrefix p.hash
          []).MthFromRangeAp d li size p.lap p.rap with
      | Except.error _ => false
      | Except.ok sp => decide (snapshot = sp)

theorem mkKey_short (b : Bytes) (h : b.length < hashLen) : mkKey b = [] := by
  rw [mkKey, if_neg (by omega)]

theorem strLt_nil_of_ne (key : Bytes) (h : key ≠ []) :
    strLt [] key = true := by
  cases key with
  | nil => exact absurd rfl h
  | cons a xs => rfl

/-- A proof with a malformed (shorter than a digest) left bracket leaf that
`Verify` nevertheless accepts: leaf data `[120]`, extracted key empty. -/
def c7proof : Proof :=
  { hash := encHash, twc := [255], index := 0, ll := some [120],
    rl := none, lap := [], rap := [] }

def c7answer : Answer := ⟨[[97]], [[[99]]]⟩

def c7data : List Bytes := [[120], [97] ++ encHash [[99]]]

def c7snapshot : Bytes := (NewMerkleTree [255] [0] [1] encHash c7data).Mth

/-- Claim C7 (counterexample): a malformed bracket leaf does not always
make `Verify` fail.  A short left bracket leaf extracts to the empty key,
and the left checks `key < ""` and `"" > subject[0]` are then never true,
so `Verify` accepts this proof even though its `ll` has fewer than 32
bytes and the query key is non-empty. -/
theorem C7_cex :
    c7proof.ll = some [120] ∧ ([120] : Bytes).length < hashLen ∧
    ([97] : Bytes) ≠ [] ∧
    c7proof.Verify [97] c7answer 2 c7snapshot = true := by
  refine ⟨rfl, by decide, by decide, ?_⟩
  simp [Proof.Verify, indices, c7proof, c7answer, c7snapshot, c7data,
    mkLeafData, ascending, mkKey, strLt, hashLen,
    MerkleTree.MthFromRangeAp, MerkleTree.jp, MerkleTree.dp,
    MerkleTree.Mth, MerkleTree.mth, MerkleTree.ap, NewMerkleTree, split,
    lpow2s, bitLen, bitLenF, last, next, encHash, leafPrefix,
    interiorPrefix]

/-- Claim C7 (amended): a bracket leaf shorter than the digest width
extracts to the empty key, and a short right bracket leaf forces `Verify`
to return false for every non-empty query key; the symmetric statement
for the left bracket leaf is not true (see the counterexample). -/
theorem C7_short_leaf (b : Bytes) (p : Proof) (key : Bytes) (a : Answer)
    (size : Int) (snapshot : Bytes) (rl : Bytes)
    (hb : b.length < hashLen) (hrl : p.rl = some rl)
    (hrlLen : rl.length < hashLen) (hkey : key ≠ []) :
    mkKey b = [] ∧ p.Verify key a size snapshot = false := by
  refine ⟨mkKey_short b hb, ?_⟩
  have hc : strLt (mkKey rl) key = true := by
    rw [mkKey_short rl hrlLen]
    exact strLt_nil_of_ne key hkey
  rw [Proof.Verify]
  simp [hrl, hc]

def c7wproof : Proof :=
  { hash := encHash, twc := [], index := 0, ll := none, rl := some [7],
    lap := [], rap := [] }

/-- Witness for C7 at a concrete short right bracket leaf. -/
theorem C7_witness :
    (([5] : Bytes).length < hashLen ∧ c7wproof.rl = some [7] ∧
      ([7] : Bytes).length < hashLen ∧ ([97] : Bytes) ≠ []) ∧
    (mkKey [5] = [] ∧
      c7wproof.Verify [97] ⟨[], []⟩ 0 [] = false) :=
  ⟨⟨by decide, rfl, by decide, by decide⟩,
    C7_short_leaf [5] c7wproof [97] ⟨[], []⟩ 0 [] [7] (by decide) rfl
      (by decide) (by decide)⟩

/-- On a non-empty tree, `Get` answers with the filtered radix entries,
whatever proof branch it takes. -/
theorem Get_fst (wt : WildcardTree) (key : Bytes)
    (hne : wt.mt.data.length ≠ 0) :
    (wt.Get key).1 =
      ⟨(wt.r.filter (fun e => key.isPrefixOf e.1)).map (fun e => e.1),
       (wt.r.filter (fun e => key.isPrefixOf e.1)).map
         (fun e => e.2.payload)⟩ := by
  rw [WildcardTree.Get, if_neg hne]
  cases hm : wt.r.filter (fun e => key.isPrefixOf e.1) with
  | nil =>
    simp only [hm]
    split
    · rfl
    · split
      · rfl
      · rfl
  | cons e0 rest =>
    simp only [hm]
    split
    · rfl
    · split
      · rfl
      · rfl

/-- The keys of the filtered, index-decorated radix entries are the keys of
the filtered input pairs. -/
theorem filter_enum_fst (K : Bytes) :
    ∀ (m : List (Bytes × List Bytes)) (i0 : Nat),
    (((m.enumFrom i0).map
        (fun e => (e.2.1, radixValue.mk e.2.2 e.1))).filter
      (fun e => K.isPrefixOf e.1)).map (fun e => e.1) =
    (m.filter (fun e => K.isPrefixOf e.1)).map Prod.fst := by
  intro m
  induction m with
  | nil => intro i0; rfl
  | cons hd tl ih =>
    intro i0
    by_cases hp : K.isPrefixOf hd.1 = true
    · simp [List.enumFrom, List.filter, hp, ih (i0 + 1)]
    · simp only [Bool.not_eq_true] at hp
      simp [List.enumFrom, List.filter, hp, ih (i0 + 1)]

/-- Likewise for the payloads. -/
theorem filter_enum_snd (K : Bytes) :
    ∀ (m : List (Bytes × List Bytes)) (i0 : Nat),
    (((m.enumFrom i0).map
        (fun e => (e.2.1, radixValue.mk e.2.2 e.1))).filter
      (fun e => K.isPrefixOf e.1)).map (fun e => e.2.payload) =
    (m.filter (fun e => K.isPrefixOf e.1)).map Prod.snd := by
  intro m
  induction m with
  | nil => intro i0; rfl
  | cons hd tl ih =>
    intro i0
    by_cases hp : K.isPrefixOf hd.1 = true
    · simp [List.enumFrom, List.filter, hp, ih (i0 + 1)]
    · simp only [Bool.not_eq_true] at hp
      simp [List.enumFrom, List.filter, hp, ih (i0 + 1)]

/-- Claim C4 (wildcard completeness): with the key-value pairs listed in
radix (strictly ascending) order as go-radix hands them over, the answer's
subjects are exactly the stored keys having the query as a byte-wise
prefix, in strictly ascending order, and the payloads align with the
subjects. -/
theorem C4_wildcard_completeness (twc : Bytes) (h : Hash)
    (m : List (Bytes × List Bytes)) (K : Bytes)
    (hsorted : m.Pairwise (fun x y => strLt x.1 y.1 = true)) :
    ((NewWildcardTree twc h m).Get K).1.subject =
      (m.filter (fun e => K.isPrefixOf e.1)).map Prod.fst ∧
    ((NewWildcardTree twc h m).Get K).1.subject.Pairwise
      (fun x y => strLt x y = true) ∧
    ((NewWildcardTree twc h m).Get K).1.payload =
      (m.filter (fun e => K.isPrefixOf e.1)).map Prod.snd := by
  have hsubj : ((NewWildcardTree twc h m).Get K).1.subject =
      (m.filter (fun e => K.isPrefixOf e.1)).map Prod.fst := by
    cases m with
    | nil => rfl
    | cons hd tl =>
      have hne : (NewWildcardTree twc h (hd :: tl)).mt.data.length ≠ 0 := by
        simp [NewWildcardTree, NewMerkleTree]
      rw [Get_fst _ _ hne]
      exact filter_enum_fst K (hd :: tl) 0
  refine ⟨hsubj, ?_, ?_⟩
  · rw [hsubj, List.pairwise_map]
    exact (hsorted.filter _)
  · cases m with
    | nil => rfl
    | cons hd tl =>
      have hne : (NewWildcardTree twc h (hd :: tl)).mt.data.length ≠ 0 := by
        simp [NewWildcardTree, NewMerkleTree]
      rw [Get_fst _ _ hne]
      exact filter_enum_snd K (hd :: tl) 0

/-- Witness for C4 on a two-key store queried with the shared prefix. -/
theorem C4_witness :
    ([([97], [[1]]), ([97, 98], [[2]])] :
        List (Bytes × List Bytes)).Pairwise
      (fun x y => strLt x.1 y.1 = true) ∧
    (((NewWildcardTree [255] encHash
          [([97], [[1]]), ([97, 98], [[2]])]).Get [97]).1.subject =
      (([([97], [[1]]), ([97, 98], [[2]])] :
          List (Bytes × List Bytes)).filter
        (fun e => ([97] : Bytes).isPrefixOf e.1)).map Prod.fst ∧
    ((NewWildcardTree [255] encHash
          [([97], [[1]]), ([97, 98], [[2]])]).Get [97]).1.subject.Pairwise
      (fun x y => strLt x y = true) ∧
    ((NewWildcardTree [255] encHash
          [([97], [[1]]), ([97, 98], [[2]])]).Get [97]).1.payload =
      (([([97], [[1]]), ([97, 98], [[2]])] :
          List (Bytes × List Bytes)).filter
        (fun e => ([97] : Bytes).isPrefixOf e.1)).map Prod.snd) :=
  ⟨by decide,
    C4_wildcard_completeness [255] encHash
      [([97], [[1]]), ([97, 98], [[2]])] [97] (by decide)⟩

/-! Order facts about `strLt` and `List.isPrefixOf`, used to discharge the
bracket checks of `Verify`. -/

theorem strLt_asymm : ∀ (x y : Bytes), strLt x y = true →
    strLt y x = false := by
  intro x
  induction x with
  | nil =>
    intro y hy
    cases y with
    | nil => simp [strLt] at hy
    | cons b ys => simp [strLt]
  | cons a xs ih =>
    intro y hy
    cases y with
    | nil => simp [strLt] at hy
    | cons b ys =>
      simp only [strLt] at hy ⊢
      by_cases hab : a < b
      · rw [if_neg (by omega), if_pos hab]
      · by_cases hba : b < a
        · rw [if_neg hab, if_pos hba] at hy
          exact absurd hy (by simp)
        · rw [if_neg hab, if_neg hba] at hy
          rw [if_neg hba, if_neg hab]
          exact ih ys hy

theorem strLt_trans : ∀ (x y z : Bytes), strLt x y = true →
    strLt y z = true → strLt x z = true := by
  intro x
  induction x with
  | nil =>
    intro y z hxy hyz
    cases y with
    | nil => simp [strLt] at hxy
    | cons c ys =>
      cases z with
      | nil => simp [strLt] at hyz
      | cons d zs => simp [strLt]
  | cons a xs ih =>
    intro y z hxy hyz
    cases y with
    | nil => simp [strLt] at hxy
    | cons b ys =>
      cases z with
      | nil => simp [strLt] at hyz
      | cons c zs =>
        simp only [strLt] at hxy hyz ⊢
        by_cases hab : a < b
        · by_cases hbc : b < c
          · rw [if_pos (by omega)]
          · by_cases hcb : c < b
            · rw [if_neg hbc, if_pos hcb] at hyz
              exact absurd hyz (by simp)
            · rw [if_pos (by omega)]
        · by_cases hba : b < a
          · rw [if_neg hab, if_pos hba] at hxy
            exact absurd hxy (by simp)
          · rw [if_neg hab, if_neg hba] at hxy
            by_cases hbc : b < c
            · rw [if_pos (by omega)]
            · by_cases hcb : c < b
              · rw [if_neg hbc, if_pos hcb] at hyz
                exact absurd hyz (by simp)
              · rw [if_neg hbc, if_neg hcb] at hyz
                rw [if_neg (by omega : ¬ a < c),
                  if_neg (by omega : ¬ c < a)]
                exact ih ys zs hxy hyz

/-- A string is never lexicographically below its own prefix. -/
theorem isPrefixOf_not_strLt : ∀ (K x : Bytes), K.isPrefixOf x = true →
    strLt x K = false := by
  intro K
  induction K with
  | nil =>
    intro x h
    cases x with
    | nil => rfl
    | cons b xs => rfl
  | cons a Ks ih =>
    intro x h
    cases x with
    | nil => simp [List.isPrefixOf] at h
    | cons b xs =>
      simp only [List.isPrefixOf, Bool.and_eq_true, beq_iff_eq] at h
      obtain ⟨hab, hpre⟩ := h
      subst hab
      simp only [strLt]
      rw [if_neg (by omega), if_neg (by omega)]
      exact ih xs hpre

/-- Anything lexicographically between a prefix extension of `K` and `K`
itself also has `K` as a prefix. -/
theorem isPrefixOf_interval : ∀ (K x z : Bytes), K.isPrefixOf z = true →
    strLt x z = true → strLt x K = false → K.isPrefixOf x = true := by
  intro K
  induction K with
  | nil =>
    intro x z _ _ _
    cases x with
    | nil => rfl
    | cons d xs => rfl
  | cons a Ks ih =>
    intro x z hpz hxz hxK
    cases z with
    | nil => simp [List.isPrefixOf] at hpz
    | cons c zs =>
      simp only [List.isPrefixOf, Bool.and_eq_true, beq_iff_eq] at hpz
      obtain ⟨hac, hKz⟩ := hpz
      subst hac
      cases x with
      | nil => simp [strLt] at hxK
      | cons d xs =>
        simp only [strLt] at hxz hxK
        by_cases hda : d < a
        · rw [if_pos hda] at hxK
          exact absurd hxK (by simp)
        · by_cases had : a < d
          · rw [if_neg (by omega), if_pos had] at hxz
            exact absurd hxz (by simp)
          · rw [if_neg hda, if_neg had] at hxK
            rw [if_neg (by omega), if_neg (by omega)] at hxz
            simp only [List.isPrefixOf, Bool.and_eq_true, beq_iff_eq]
            exact ⟨by omega, ih xs zs hKz hxz hxK⟩

/-- Pairwise-ascending lists pass the adjacency loop check of
`mkLeafData`. -/
theorem ascending_of_pairwise : ∀ (l : List Bytes),
    l.Pairwise (fun x y => strLt x y = true) → ascending l = true := by
  intro l
  induction l with
  | nil => intro h; rfl
  | cons x tl ih =>
    intro h
    cases tl with
    | nil => rfl
    | cons y rest =>
      obtain ⟨hx, htl⟩ := List.pairwise_cons.mp h
      simp only [ascending, Bool.and_eq_true]
      exact ⟨hx y (by simp), ih htl⟩

/-- `mkKey` recovers the key of a well-formed leaf. -/
theorem mkKey_leaf (k dg : Bytes) (hh : dg.length = hashLen) :
    mkKey (k ++ dg) = k := by
  rw [mkKey, if_pos (by simp [hh])]
  rw [show (k ++ dg).length - hashLen = k.length by simp [hh]]
  exact List.take_left k dg

/-- The contract of Go's `sort.Search` loop, with no assumption on `f`:
at the returned boundary `r`, `f (r-1)` is false when `r` exceeds the
lower end and `f r` is true when `r` is below the upper end. -/
theorem searchLoop_spec (f : Nat → Bool) :
    ∀ (fuel i j : Nat), i ≤ j → j - i ≤ fuel →
      i ≤ searchLoop fuel i j f ∧ searchLoop fuel i j f ≤ j ∧
      (i < searchLoop fuel i j f →
        f (searchLoop fuel i j f - 1) = false) ∧
      (searchLoop fuel i j f < j → f (searchLoop fuel i j f) = true) := by
  intro fuel
  induction fuel with
  | zero =>
    intro i j hij hf
    have hieq : i = j := by omega
    subst hieq
    simp only [searchLoop]
    exact ⟨le_rfl, le_rfl, fun h => absurd h (by omega),
      fun h => absurd h (by omega)⟩
  | succ fuel ih =>
    intro i j hij hf
    simp only [searchLoop]
    by_cases hij2 : i < j
    · rw [if_pos hij2]
      have hmid1 : i ≤ (i + j) / 2 := by omega
      have hmid2 : (i + j) / 2 < j := by omega
      by_cases hfh : f ((i + j) / 2) = true
      · rw [if_pos hfh]
        obtain ⟨h1, h2, h3, h4⟩ := ih i ((i + j) / 2) (by omega) (by omega)
        refine ⟨h1, by omega, h3, ?_⟩
        intro hlt
        rcases Nat.lt_or_ge (searchLoop fuel i ((i + j) / 2) f)
            ((i + j) / 2) with hc | hc
        · exact h4 hc
        · rw [show searchLoop fuel i ((i + j) / 2) f = (i + j) / 2 by omega]
          exact hfh
      · rw [if_neg hfh]
        obtain ⟨h1, h2, h3, h4⟩ := ih ((i + j) / 2 + 1) j (by omega)
          (by omega)
        refine ⟨by omega, h2, ?_, h4⟩
        intro hlt
        rcases Nat.lt_or_ge ((i + j) / 2 + 1)
            (searchLoop fuel ((i + j) / 2 + 1) j f) with hc | hc
        · exact h3 hc
        · rw [show searchLoop fuel ((i + j) / 2 + 1) j f = (i + j) / 2 + 1
            by omega]
          simpa using hfh
    · rw [if_neg hij2]
      exact ⟨le_rfl, by omega, fun h => absurd h (by omega),
        fun h => absurd h hij2⟩

/-- `goSearch` inherits the boundary contract. -/
theorem goSearch_spec (n : Nat) (f : Nat → Bool) :
    goSearch n f ≤ n ∧
    (0 < goSearch n f → f (goSearch n f - 1) = false) ∧
    (goSearch n f < n → f (goSearch n f) = true) := by
  obtain ⟨h1, h2, h3, h4⟩ := searchLoop_spec f n 0 n (by omega) (by omega)
  exact ⟨h2, h3, h4⟩

/-- Dropping the left part and taking the middle of a three-way
concatenation. -/
theorem slice_of_append (P d S : List Bytes) :
    ((P ++ d ++ S).drop P.length).take d.length = d := by
  rw [List.append_assoc, List.drop_left, List.take_left]

/-- A filter by an "interval" predicate on a sorted list keeps a
contiguous block. -/
theorem filter_infix_of_interval {α : Type} (p : α → Bool)
    (lt : α → α → Prop)
    (hint : ∀ x y z, lt x y → lt y z → p x = true → p z = true →
      p y = true) :
    ∀ (l : List α), l.Pairwise lt →
    ∃ A C, l = A ++ l.filter p ++ C ∧ (∀ x ∈ A, p x = false) ∧
      (∀ x ∈ C, p x = false) := by
  intro l
  induction l with
  | nil => exact fun _ => ⟨[], [], rfl, by simp, by simp⟩
  | cons a l' ih =>
    intro hp
    obtain ⟨ha, hp'⟩ := List.pairwise_cons.mp hp
    obtain ⟨A, C, hdec, hA, hC⟩ := ih hp'
    by_cases hpa : p a = true
    · have hf : (a :: l').filter p = a :: l'.filter p :=
        List.filter_cons_of_pos hpa
      cases hfl : l'.filter p with
      | nil =>
        refine ⟨[], l', ?_, by simp, ?_⟩
        · rw [hf, hfl]
          rfl
        · intro x hx
          have := List.filter_eq_nil_iff.mp hfl x hx
          simpa using this
      | cons b B =>
        have hpb : p b = true := by
          have hbmem : b ∈ l'.filter p := by
            rw [hfl]
            exact List.mem_cons_self b B
          exact (List.mem_filter.mp hbmem).2
        have hA_nil : A = [] := by
          by_contra hAne
          obtain ⟨x, hxA⟩ := List.exists_mem_of_ne_nil A hAne
          have hxb : lt x b := by
            have hp2 := hp'
            rw [hdec, List.append_assoc] at hp2
            obtain ⟨-, -, hcross⟩ := List.pairwise_append.mp hp2
            apply hcross x hxA
            rw [hfl]
            exact List.mem_append_left _ (List.mem_cons_self b B)
          have hax : lt a x := by
            apply ha
            rw [hdec]
            exact List.mem_append_left _ (List.mem_append_left _ hxA)
          have hpx := hint a x b hax hxb hpa hpb
          rw [hA x hxA] at hpx
          exact absurd hpx (by simp)
        refine ⟨[], C, ?_, by simp, hC⟩
        rw [hf]
        subst hA_nil
        simp only [List.nil_append] at hdec
        simp only [List.nil_append, List.cons_append]
        rw [← hdec]
    · have hpa' : p a = false := by
        simpa using hpa
      have hf : (a :: l').filter p = l'.filter p :=
        List.filter_cons_of_neg (by simp [hpa'])
      refine ⟨a :: A, C, ?_, ?_, hC⟩
      · rw [hf]
        simp only [List.cons_append]
        rw [← hdec]
      · intro x hx
        rcases List.mem_cons.mp hx with hxa | hxA
        · rw [hxa]
          exact hpa'
        · exact hA x hxA

/-! None of the digest walks reads the `data` field of the record; they
only use the four configuration fields.  `Verify` rebuilds a tree with nil
data from the proof's hash and constant, so these lemmas carry digests
computed on the original tree over to the verification tree. -/

theorem mth_data_congr (tw lp ip : Bytes) (h : Hash) (d1 d2 : List Bytes) :
    ∀ (N : Nat) (ls : List Bytes), ls.length ≤ N →
    (MerkleTree.mk tw lp ip h d1).mth ls =
      (MerkleTree.mk tw lp ip h d2).mth ls := by
  intro N
  induction N with
  | zero =>
    intro ls hl
    have h0 : ls.length = 0 := by omega
    rw [mth_empty _ _ h0, mth_empty _ _ h0]
  | succ n ih =>
    intro ls hl
    rcases Nat.lt_or_ge ls.length 2 with h2 | h2
    · rcases Nat.lt_or_ge ls.length 1 with h1 | h1
      · have h0 : ls.length = 0 := by omega
        rw [mth_empty _ _ h0, mth_empty _ _ h0]
      · have h1' : ls.length = 1 := by omega
        obtain ⟨x, hx⟩ := List.length_eq_one.mp h1'
        subst hx
        rw [mth_single, mth_single]
    · rw [mth_interior _ _ h2, mth_interior _ _ h2]
      have hk1 := lpow2s_toNat_pos ls.length h2
      have hk2 := lpow2s_toNat_lt ls.length h2
      have hT := ih (ls.take (lpow2s ls.length).toNat)
        (by simp only [List.length_take]; omega)
      have hD := ih (ls.drop (lpow2s ls.length).toNat)
        (by simp only [List.length_drop]; omega)
      rw [hT, hD]

theorem ap_data_congr (tw lp ip : Bytes) (h : Hash) (d1 d2 : List Bytes) :
    ∀ (N : Nat) (ls : List Bytes), ls.length ≤ N → ∀ (m : Int),
    (MerkleTree.mk tw lp ip h d1).ap m ls =
      (MerkleTree.mk tw lp ip h d2).ap m ls := by
  intro N
  induction N with
  | zero =>
    intro ls hl m
    rw [ap_small _ _ _ (by omega), ap_small _ _ _ (by omega)]
  | succ n ih =>
    intro ls hl m
    rcases Nat.lt_or_ge ls.length 2 with h2 | h2
    · rw [ap_small _ _ _ (by omega), ap_small _ _ _ (by omega)]
    · have hk1 := lpow2s_toNat_pos ls.length h2
      have hk2 := lpow2s_toNat_lt ls.length h2
      rcases lt_or_ge m (lpow2s ls.length) with hm | hm
      · rw [ap_left _ _ _ h2 hm, ap_left _ _ _ h2 hm]
        rw [ih (ls.take (lpow2s ls.length).toNat)
          (by simp only [List.length_take]; omega) m]
        rw [mth_data_congr tw lp ip h d1 d2 ls.length
          (ls.drop (lpow2s ls.length).toNat)
          (by simp only [List.length_drop]; omega)]
      · rw [ap_right _ _ _ h2 hm, ap_right _ _ _ h2 hm]
        rw [ih (ls.drop (lpow2s ls.length).toNat)
          (by simp only [List.length_drop]; omega)]
        rw [mth_data_congr tw lp ip h d1 d2 ls.length
          (ls.take (lpow2s ls.length).toNat)
          (by simp only [List.length_take]; omega)]

theorem sibOk_data_congr (tw lp ip : Bytes) (h : Hash)
    (d1 d2 : List Bytes) :
    ∀ (N : Nat) (ls : List Bytes), ls.length ≤ N →
    (MerkleTree.mk tw lp ip h d1).sibOk ls =
      (MerkleTree.mk tw lp ip h d2).sibOk ls := by
  intro N
  induction N with
  | zero =>
    intro ls hl
    conv_lhs => rw [MerkleTree.sibOk]
    conv_rhs => rw [MerkleTree.sibOk]
    rw [if_pos (by omega), if_pos (by omega)]
  | succ n ih =>
    intro ls hl
    rcases Nat.lt_or_ge ls.length 2 with h2 | h2
    · conv_lhs => rw [MerkleTree.sibOk]
      conv_rhs => rw [MerkleTree.sibOk]
      rw [if_pos (by omega), if_pos (by omega)]
    · have hk1 := lpow2s_toNat_pos ls.length h2
      have hk2 := lpow2s_toNat_lt ls.length h2
      conv_lhs => rw [MerkleTree.sibOk]
      conv_rhs => rw [MerkleTree.sibOk]
      rw [if_neg (by omega), if_neg (by omega)]
      rw [mth_data_congr tw lp ip h d1 d2 ls.length
        (ls.take (lpow2s ls.length).toNat)
        (by simp only [List.length_take]; omega)]
      rw [mth_data_congr tw lp ip h d1 d2 ls.length
        (ls.drop (lpow2s ls.length).toNat)
        (by simp only [List.length_drop]; omega)]
      rw [ih (ls.take (lpow2s ls.length).toNat)
        (by simp only [List.length_take]; omega)]
      rw [ih (ls.drop (lpow2s ls.length).toNat)
        (by simp only [List.length_drop]; omega)]

/-- The range round-trip through `MthFromRangeAp` in the general form the
wildcard layer needs: each audit path is either the genuine one for the
range's edge leaf or absent with the range touching that edge. -/
theorem rangeApGen (mt : MerkleTree) (ls : List Bytes) (i j : Nat)
    (h2 : 2 ≤ ls.length) (hsib : mt.sibOk ls = true)
    (hij : i < j) (hjn : j ≤ ls.length)
    (lA rA : List Bytes)
    (hlA : lA = mt.ap (↑i) ls ∨ (lA = [] ∧ i = 0))
    (hrA : rA = mt.ap (↑(j - 1)) ls ∨ (rA = [] ∧ j = ls.length))
    (hcond : 2 ≤ j - i ∨ lA = [] ∨ rA = []) :
    mt.MthFromRangeAp ((ls.drop i).take (j - i)) (↑i) (↑ls.length) lA rA =
      Except.ok (mt.mth ls) := by
  have hlen : ((ls.drop i).take (j - i)).length = j - i := by
    simp
    omega
  rw [MerkleTree.MthFromRangeAp,
    if_neg (show ¬ ((ls.length : Int)) = 0 by omega),
    if_neg (show ¬ ((ls.length : Int)) = 1 by omega),
    if_neg (show ¬ ((ls.length : Int)) <
      (↑i) + (((ls.drop i).take (j - i)).length : Int) by
        rw [hlen]; omega),
    if_neg ?hgen4]
  case hgen4 =>
    rintro ⟨ha, hb, hc⟩
    rw [hlen] at ha
    rcases hcond with h | h | h
    · omega
    · rcases hlA with hl | ⟨-, hi0⟩
      · rw [h] at hl
        exact ap_ne_nil mt (↑i) ls h2 hl.symm
      · omega
    · rcases hrA with hr | ⟨-, hj0⟩
      · rw [h] at hr
        exact ap_ne_nil mt (↑(j - 1)) ls h2 hr.symm
      · omega
  exact congrArg Except.ok
    (jp_round mt ls h2 hsib i j hij hjn lA rA hlA hrA hcond)

/-! Facts about the enumerated radix entries of a `WildcardTree`. -/

theorem mem_enumFrom_snd {α : Type} :
    ∀ (l : List α) (i0 : Nat) (x : Nat × α),
    x ∈ l.enumFrom i0 → x.2 ∈ l := by
  intro l
  induction l with
  | nil =>
    intro i0 x hx
    simp [List.enumFrom] at hx
  | cons hd tl ih =>
    intro i0 x hx
    simp only [List.enumFrom] at hx
    rcases List.mem_cons.mp hx with h | h
    · rw [h]
      exact List.mem_cons_self hd tl
    · exact List.mem_cons_of_mem _ (ih (i0 + 1) x h)

theorem r_pairwise (m : List (Bytes × List Bytes))
    (hs : m.Pairwise (fun x y => strLt x.1 y.1 = true)) :
    ∀ (i0 : Nat),
    ((m.enumFrom i0).map
        (fun e => (e.2.1, radixValue.mk e.2.2 e.1))).Pairwise
      (fun x y => strLt x.1 y.1 = true) := by
  induction m with
  | nil =>
    intro i0
    simp [List.enumFrom]
  | cons hd tl ih =>
    intro i0
    obtain ⟨hhd, htl⟩ := List.pairwise_cons.mp hs
    simp only [List.enumFrom, List.map_cons]
    refine List.pairwise_cons.mpr ⟨?_, ih htl (i0 + 1)⟩
    intro y hy
    obtain ⟨x, hxmem, hxy⟩ := List.mem_map.mp hy
    rw [← hxy]
    exact hhd x.2 (mem_enumFrom_snd tl (i0 + 1) x hxmem)

theorem r_map_leaf (H : Hash) :
    ∀ (m : List (Bytes × List Bytes)) (i0 : Nat),
    (((m.enumFrom i0).map
        (fun e => (e.2.1, radixValue.mk e.2.2 e.1))).map
      (fun e => e.1 ++ H e.2.payload)) =
    m.map (fun e => e.1 ++ H e.2) := by
  intro m
  induction m with
  | nil => intro i0; rfl
  | cons hd tl ih =>
    intro i0
    simp only [List.enumFrom, List.map_cons]
    rw [ih (i0 + 1)]

theorem r_getD_index :
    ∀ (m : List (Bytes × List Bytes)) (i0 t : Nat), t < m.length →
    (((m.enumFrom i0).map
        (fun e => (e.2.1, radixValue.mk e.2.2 e.1))).getD t
      ([], radixValue.mk [] 0)).2.index = i0 + t := by
  intro m
  induction m with
  | nil =>
    intro i0 t ht
    simp at ht
  | cons hd tl ih =>
    intro i0 t ht
    cases t with
    | zero => rfl
    | succ t' =>
      simp only [List.enumFrom, List.map_cons, List.getD_cons_succ]
      rw [ih (i0 + 1) t' (by simp at ht; omega)]
      omega

theorem getD_append_cons {α : Type} :
    ∀ (A : List α) (e : α) (X : List α) (d : α),
    (A ++ e :: X).getD A.length d = e := by
  intro A
  induction A with
  | nil => intro e X d; rfl
  | cons a A' ih =>
    intro e X d
    simp only [List.cons_append, List.length_cons, List.getD_cons_succ]
    exact ih e X d

theorem map_getLastD {α β : Type} (f : α → β) :
    ∀ (l : List α) (d : α),
    (l.map f).getLastD (f d) = f (l.getLastD d) := by
  intro l
  induction l with
  | nil => intro d; rfl
  | cons hd tl ih =>
    intro d
    simp only [List.map_cons, List.getLastD_cons]
    exact ih hd

theorem pairwise_three {α : Type} {R : α → α → Prop} {A B C : List α}
    (h : (A ++ B ++ C).Pairwise R) :
    (∀ x ∈ A, ∀ y ∈ B, R x y) ∧ (∀ x ∈ A, ∀ y ∈ C, R x y) ∧
    (∀ x ∈ B, ∀ y ∈ C, R x y) ∧ B.Pairwise R := by
  rw [List.append_assoc] at h
  obtain ⟨hA, hBC, hcross⟩ := List.pairwise_append.mp h
  obtain ⟨hB, hC, hcross2⟩ := List.pairwise_append.mp hBC
  exact ⟨fun x hx y hy => hcross x hx y (List.mem_append_left _ hy),
    fun x hx y hy => hcross x hx y (List.mem_append_right _ hy),
    hcross2, hB⟩

/-- `Verify` accepts every honestly bracketed range proof over a tree of
at least two leaves: the leaf data is the range `ls[li..j)`, each audit
path is genuine or absent at its edge, and the bracket keys pass the
ordering checks. -/
theorem Verify_ok (vtwc : Bytes) (H : Hash) (ls : List Bytes) (K : Bytes)
    (p : Proof) (a : Answer) (li j : Nat)
    (h2 : 2 ≤ ls.length)
    (hsib : (NewMerkleTree vtwc leafPrefix interiorPrefix H []).sibOk ls =
      true)
    (hhash : p.hash = H) (htwc : p.twc = vtwc)
    (hidx : p.index = (li : Int))
    (hlij : li < j) (hjN : j ≤ ls.length)
    (hmk : mkLeafData p a = some ((ls.drop li).take (j - li)))
    (hlln : p.ll = none → li = 0)
    (hrln : p.rl = none → j = ls.length)
    (hcnt : a.subject.length + (if p.ll.isSome then 1 else 0) +
      (if p.rl.isSome then 1 else 0) = j - li)
    (hlap : p.lap =
        (NewMerkleTree vtwc leafPrefix interiorPrefix H []).ap (↑li) ls ∨
      (p.lap = [] ∧ li = 0))
    (hrap : p.rap =
        (NewMerkleTree vtwc leafPrefix interiorPrefix H []).ap
          (↑(j - 1)) ls ∨
      (p.rap = [] ∧ j = ls.length))
    (hcond : 2 ≤ j - li ∨ p.lap = [] ∨ p.rap = [])
    (hc2l : ∀ llv, p.ll = some llv → strLt K (mkKey llv) = false)
    (hc2r : ∀ rlv, p.rl = some rlv → strLt (mkKey rlv) K = false) :
    p.Verify K a (↑ls.length)
      ((NewMerkleTree vtwc leafPrefix interiorPrefix H []).mth ls) =
      true := by
  have hge : (0 : Int) ≤ p.index := by
    rw [hidx]
    exact Int.natCast_nonneg li
  have hfst : (indices p a).1 = (li : Int) := by
    simp only [indices]
    rw [if_pos hge]
    exact hidx
  have hsnd : (indices p a).2 = (j : Int) - 1 := by
    simp only [indices]
    rw [if_pos hge]
    show p.index + ↑a.subject.length - 1 + _ + _ = _
    rw [hidx]
    rcases hpll2 : p.ll with _ | llv <;> rcases hprl2 : p.rl with _ | rlv <;>
      simp [hpll2, hprl2] at hcnt ⊢ <;>
      omega
  simp only [Proof.Verify]
  rw [hfst, hsnd]
  split
  · rename_i h
    exfalso
    rw [Bool.or_eq_true, Bool.and_eq_true, Bool.and_eq_true] at h
    rcases h with ⟨hn, hd⟩ | ⟨hn, hd⟩
    · have hle := hlln (Option.isNone_iff_eq_none.mp hn)
      rw [decide_eq_true_eq] at hd
      omega
    · have hj := hrln (Option.isNone_iff_eq_none.mp hn)
      rw [decide_eq_true_eq] at hd
      omega
  · split
    · rename_i h
      exfalso
      rw [Bool.or_eq_true] at h
      rcases h with h | h
      · rcases hpll : p.ll with _ | llv
        · rw [hpll] at h
          simp at h
        · rw [hpll] at h
          simp only [] at h
          rw [hc2l llv hpll] at h
          exact absurd h (by simp)
      · rcases hprl : p.rl with _ | rlv
        · rw [hprl] at h
          simp at h
        · rw [hprl] at h
          simp only [] at h
          rw [hc2r rlv hprl] at h
          exact absurd h (by simp)
    · split
      · rename_i heq
        rw [hmk] at heq
        exact absurd heq (by simp)
      · rename_i d heq
        rw [hmk] at heq
        have hd := Option.some.inj heq
        subst hd
        rw [hhash, htwc]
        rw [rangeApGen (NewMerkleTree vtwc leafPrefix interiorPrefix H [])
          ls li j h2 hsib hlij hjN p.lap p.rap hlap hrap hcond]
        exact decide_eq_true rfl

/-- `Verify` accepts the honest proof on a single-leaf tree. -/
theorem Verify_ok_one (vtwc : Bytes) (H : Hash) (ls : List Bytes)
    (K : Bytes) (p : Proof) (a : Answer)
    (hN1 : ls.length = 1)
    (hhash : p.hash = H) (htwc : p.twc = vtwc)
    (hidx : p.index = 0)
    (hmk : mkLeafData p a = some ls)
    (hcnt : a.subject.length + (if p.ll.isSome then 1 else 0) +
      (if p.rl.isSome then 1 else 0) = 1)
    (hlap : p.lap = []) (hrap : p.rap = [])
    (hc2l : ∀ llv, p.ll = some llv → strLt K (mkKey llv) = false)
    (hc2r : ∀ rlv, p.rl = some rlv → strLt (mkKey rlv) K = false) :
    p.Verify K a (↑ls.length)
      ((NewMerkleTree vtwc leafPrefix interiorPrefix H []).mth ls) =
      true := by
  obtain ⟨x, hx⟩ := List.length_eq_one.mp hN1
  subst hx
  have hge : (0 : Int) ≤ p.index := by
    rw [hidx]
  have hfst : (indices p a).1 = (0 : Int) := by
    simp only [indices]
    rw [if_pos hge]
    exact hidx
  have hsnd : (indices p a).2 = (0 : Int) := by
    simp only [indices]
    rw [if_pos hge]
    show p.index + ↑a.subject.length - 1 + _ + _ = _
    rw [hidx]
    rcases hpll2 : p.ll with _ | llv <;> rcases hprl2 : p.rl with _ | rlv <;>
      simp [hpll2, hprl2] at hcnt ⊢ <;>
      first
      | omega
      | simp_all
  simp only [Proof.Verify]
  rw [hfst, hsnd]
  split
  · rename_i h
    exfalso
    rw [Bool.or_eq_true, Bool.and_eq_true, Bool.and_eq_true] at h
    rcases h with ⟨hn, hd⟩ | ⟨hn, hd⟩
    · rw [decide_eq_true_eq] at hd
      omega
    · rw [decide_eq_true_eq] at hd
      simp at hd
  · split
    · rename_i h
      exfalso
      rw [Bool.or_eq_true] at h
      rcases h with h | h
      · rcases hpll : p.ll with _ | llv
        · rw [hpll] at h
          simp at h
        · rw [hpll] at h
          simp only [] at h
          rw [hc2l llv hpll] at h
          exact absurd h (by simp)
      · rcases hprl : p.rl with _ | rlv
        · rw [hprl] at h
          simp at h
        · rw [hprl] at h
          simp only [] at h
          rw [hc2r rlv hprl] at h
          exact absurd h (by simp)
    · split
      · rename_i heq
        rw [hmk] at heq
        exact absurd heq (by simp)
      · rename_i d heq
        rw [hmk] at heq
        have hd := Option.some.inj heq
        subst hd
        rw [hhash, htwc, hlap, hrap]
        rw [MerkleTree.MthFromRangeAp, if_neg (by norm_num),
          if_pos (by norm_num), if_neg (by norm_num)]
        rw [mth_single]
        exact decide_eq_true rfl

/-! Shared facts for the soundness proof. -/

theorem wt_data_getD (H : Hash) (m : List (Bytes × List Bytes)) (t : Nat)
    (ht : t < m.length) :
    (m.map (fun e => e.1 ++ H e.2)).getD t [] =
      (m.getD t ([], [])).1 ++ H ((m.getD t ([], [])).2) := by
  rw [List.getD_eq_getElem _ _ (by simpa using ht),
    List.getD_eq_getElem _ _ ht, List.getElem_map]

theorem wt_mkKey (H : Hash) (hH : ∀ parts, (H parts).length = hashLen)
    (m : List (Bytes × List Bytes)) (t : Nat) (ht : t < m.length) :
    mkKey ((m.map (fun e => e.1 ++ H e.2)).getD t []) =
      (m.getD t ([], [])).1 := by
  rw [wt_data_getD H m t ht]
  exact mkKey_leaf _ _ (hH _)

theorem keys_sorted (m : List (Bytes × List Bytes))
    (hsorted : m.Pairwise (fun x y => strLt x.1 y.1 = true))
    (t u : Nat) (htu : t < u) (hu : u < m.length) :
    strLt (m.getD t ([], [])).1 (m.getD u ([], [])).1 = true := by
  rw [List.getD_eq_getElem _ _ (by omega), List.getD_eq_getElem _ _ hu]
  rw [List.pairwise_iff_getElem] at hsorted
  exact hsorted t u (by omega) hu htu

theorem wt_Ap_transfer (twc : Bytes) (H : Hash)
    (m : List (Bytes × List Bytes)) (x : Int) :
    (NewWildcardTree twc H m).mt.Ap x =
      (NewMerkleTree twc leafPrefix interiorPrefix H []).ap x
        (m.map (fun e => e.1 ++ H e.2)) := by
  have h := ap_data_congr twc leafPrefix interiorPrefix H
    (m.map (fun e => e.1 ++ H e.2)) []
    (m.map (fun e => e.1 ++ H e.2)).length
    (m.map (fun e => e.1 ++ H e.2)) le_rfl x
  exact h

theorem wt_snapshot_transfer (twc : Bytes) (H : Hash)
    (m : List (Bytes × List Bytes)) :
    (NewWildcardTree twc H m).Snapshot =
      (NewMerkleTree twc leafPrefix interiorPrefix H []).mth
        (m.map (fun e => e.1 ++ H e.2)) := by
  have h := mth_data_congr twc leafPrefix interiorPrefix H
    (m.map (fun e => e.1 ++ H e.2)) []
    (m.map (fun e => e.1 ++ H e.2)).length
    (m.map (fun e => e.1 ++ H e.2)) le_rfl
  exact h

theorem wt_sib_transfer (twc : Bytes) (H : Hash)
    (m : List (Bytes × List Bytes))
    (hsib : (NewWildcardTree twc H m).mt.sibOk
      (NewWildcardTree twc H m).mt.data = true) :
    (NewMerkleTree twc leafPrefix interiorPrefix H []).sibOk
      (m.map (fun e => e.1 ++ H e.2)) = true := by
  have h := sibOk_data_congr twc leafPrefix interiorPrefix H
    (m.map (fun e => e.1 ++ H e.2)) []
    (m.map (fun e => e.1 ++ H e.2)).length
    (m.map (fun e => e.1 ++ H e.2)) le_rfl
  exact Eq.trans (Eq.symm h) hsib

theorem list_take_one {α : Type} (l : List α) (d : α) (h : l ≠ []) :
    l.take 1 = [l.getD 0 d] := by
  cases l with
  | nil => exact absurd rfl h
  | cons a t => rfl

theorem drop_last_eq (l : List Bytes) (h : 0 < l.length) :
    l.drop (l.length - 1) = [l.getD (l.length - 1) []] := by
  rw [List.drop_eq_getElem_cons (by omega)]
  rw [show l.length - 1 + 1 = l.length by omega, List.drop_length]
  rw [List.getD_eq_getElem _ _ (by omega)]

theorem drop_two (l : List Bytes) (s : Nat) (h1 : 0 < s)
    (h2 : s < l.length) :
    (l.drop (s - 1)).take 2 = [l.getD (s - 1) [], l.getD s []] := by
  rw [List.drop_eq_getElem_cons (show s - 1 < l.length by omega)]
  rw [show s - 1 + 1 = s by omega]
  rw [List.drop_eq_getElem_cons h2]
  rw [List.getD_eq_getElem _ _ (by omega), List.getD_eq_getElem _ _ h2]
  rfl

theorem C1_empty_case (twc : Bytes) (H : Hash) (K : Bytes) :
    ((NewWildcardTree twc H []).Get K).2.Verify K
      ((NewWildcardTree twc H []).Get K).1 ((0 : Nat) : Int)
      ((NewWildcardTree twc H []).Snapshot) = true := by
  have hsnap : (NewWildcardTree twc H []).Snapshot = H [twc] := by
    rw [wt_snapshot_transfer]
    exact mth_nil _
  rw [hsnap]
  simp [WildcardTree.Get, Proof.Verify, indices, mkLeafData,
    MerkleTree.MthFromRangeAp, NewWildcardTree, NewMerkleTree, ascending]

theorem slice_last (l : List Bytes) (h : 0 < l.length) :
    (l.drop (l.length - 1)).take (l.length - (l.length - 1)) =
      [l.getD (l.length - 1) []] := by
  rw [show l.length - (l.length - 1) = 1 by omega, drop_last_eq l h]
  rfl

theorem bnot_eq_false {b : Bool} (h : (!b) = false) : b = true := by
  cases b
  · simp at h
  · rfl

theorem bnot_eq_true {b : Bool} (h : (!b) = true) : b = false := by
  cases b
  · rfl
  · simp at h

theorem C1_nomatch_case (twc : Bytes) (H : Hash)
    (m : List (Bytes × List Bytes)) (K : Bytes)
    (hsorted : m.Pairwise (fun x y => strLt x.1 y.1 = true))
    (hH : ∀ parts, (H parts).length = hashLen)
    (hsib : (NewWildcardTree twc H m).mt.sibOk
      (NewWildcardTree twc H m).mt.data = true)
    (hm : m ≠ [])
    (hmatch : (NewWildcardTree twc H m).r.filter
      (fun e => K.isPrefixOf e.1) = []) :
    ((NewWildcardTree twc H m).Get K).2.Verify K
      ((NewWildcardTree twc H m).Get K).1 ((m.length : Nat) : Int)
      ((NewWildcardTree twc H m).Snapshot) = true := by
  have hmlen : 0 < m.length := List.length_pos.mpr hm
  have hDlen : (m.map (fun e => e.1 ++ H e.2)).length = m.length := by
    simp
  have hsib' := wt_sib_transfer twc H m hsib
  rw [wt_snapshot_transfer twc H m]
  simp only [WildcardTree.Get]
  split
  · rename_i h
    rw [show (NewWildcardTree twc H m).mt.data =
      m.map (fun e => e.1 ++ H e.2) from rfl] at h
    omega
  · split
    · -- no-match arm
      rw [hmatch]
      simp only [List.map_nil]
      rw [show (NewWildcardTree twc H m).mt.data =
        m.map (fun e => e.1 ++ H e.2) from rfl]
      rw [show ((m.length : Nat) : Int) =
        (((m.map (fun e => e.1 ++ H e.2)).length : Nat) : Int) by simp]
      obtain ⟨hsle, hslo, hshi⟩ :=
        goSearch_spec ((m.map (fun e => e.1 ++ H e.2)).length)
          (fun i =>
            !(strLt (mkKey ((m.map (fun e => e.1 ++ H e.2)).getD i [])) K))
      generalize hgen :
        goSearch ((m.map (fun e => e.1 ++ H e.2)).length)
          (fun i =>
            !(strLt (mkKey ((m.map (fun e => e.1 ++ H e.2)).getD i [])) K))
          = sv at hsle hslo hshi ⊢
      split
      · rename_i hsN
        rcases Nat.lt_or_ge m.length 2 with hN1 | hN2
        · have hD1 : (List.map (fun e => e.1 ++ H e.2) m).length = 1 := by
            omega
          refine Verify_ok_one twc H (List.map (fun e => e.1 ++ H e.2) m)
            K _ _ hD1 ?_ ?_ ?_ ?_ ?_ ?_ ?_ ?_ ?_
          · rfl
          · rfl
          · show (↑sv - 1 : Int) = 0
            omega
          · show mkLeafData _ _ = _
            rw [show sv - 1 = 0 by omega]
            have hDeq : (List.map (fun e => e.1 ++ H e.2) m) =
                [(List.map (fun e => e.1 ++ H e.2) m).getD 0 []] := by
              obtain ⟨x, hx⟩ := List.length_eq_one.mp hD1
              rw [hx]
              rfl
            conv_rhs => rw [hDeq]
            rfl
          · simp
          · show (NewWildcardTree twc H m).mt.Ap (↑sv - 1) = []
            rw [wt_Ap_transfer twc H m]
            exact ap_small _ _ _ (by omega)
          · rfl
          · intro llv hv
            have h2 := Option.some.inj hv
            subst h2
            have hf := hslo (by omega)
            rw [wt_mkKey H hH m (sv - 1) (by omega)] at hf ⊢
            exact strLt_asymm _ _ (bnot_eq_false hf)
          · intro rlv hv
            simp at hv
        · refine Verify_ok twc H (List.map (fun e => e.1 ++ H e.2) m) K
            _ _ ((List.map (fun e => e.1 ++ H e.2) m).length - 1)
            (List.map (fun e => e.1 ++ H e.2) m).length
            (by omega) hsib' ?_ ?_ ?_ (by omega) le_rfl ?_ ?_ ?_ ?_ ?_
            ?_ ?_ ?_ ?_
          · rfl
          · rfl
          · show (↑sv - 1 : Int) =
              ↑((List.map (fun e => e.1 ++ H e.2) m).length - 1)
            omega
          · show mkLeafData _ _ = _
            rw [slice_last _ (by omega)]
            rw [show (List.map (fun e => e.1 ++ H e.2) m).length - 1 =
              sv - 1 by omega]
            rfl
          · intro h
            simp at h
          · intro h
            rfl
          · simp
            omega
          · left
            show (NewWildcardTree twc H m).mt.Ap (↑sv - 1) = _
            rw [show (↑sv - 1 : Int) =
              (((List.map (fun e => e.1 ++ H e.2) m).length - 1 : Nat) :
                Int) by omega]
            exact wt_Ap_transfer twc H m _
          · right
            exact ⟨rfl, rfl⟩
          · right
            right
            rfl
          · intro llv hv
            have h2 := Option.some.inj hv
            subst h2
            have hf := hslo (by omega)
            rw [wt_mkKey H hH m (sv - 1) (by omega)] at hf ⊢
            exact strLt_asymm _ _ (bnot_eq_false hf)
          · intro rlv hv
            simp at hv
      · rename_i hsnN
        split
        · rename_i hs0
          have hsvN : sv < (List.map (fun e => e.1 ++ H e.2) m).length :=
            by omega
          have hffirst0 := hshi hsvN
          rw [hs0] at hffirst0
          have hffirst := bnot_eq_true hffirst0
          rcases Nat.lt_or_ge m.length 2 with hN1 | hN2
          · have hD1 : (List.map (fun e => e.1 ++ H e.2) m).length = 1 := by
              omega
            refine Verify_ok_one twc H (List.map (fun e => e.1 ++ H e.2) m)
              K _ _ hD1 ?_ ?_ ?_ ?_ ?_ ?_ ?_ ?_ ?_
            · rfl
            · rfl
            · rfl
            · show mkLeafData _ _ = _
              have hDeq : (List.map (fun e => e.1 ++ H e.2) m) =
                  [(List.map (fun e => e.1 ++ H e.2) m).getD 0 []] := by
                obtain ⟨x, hx⟩ := List.length_eq_one.mp hD1
                rw [hx]
                rfl
              conv_rhs => rw [hDeq]
              rfl
            · simp
            · rfl
            · show (NewWildcardTree twc H m).mt.Ap 0 = []
              rw [wt_Ap_transfer twc H m]
              exact ap_small _ _ _ (by omega)
            · intro llv hv
              simp at hv
            · intro rlv hv
              have h2 := Option.some.inj hv
              subst h2
              exact hffirst
          · refine Verify_ok twc H (List.map (fun e => e.1 ++ H e.2) m) K
              _ _ 0 1 (by omega) hsib' ?_ ?_ ?_ (by omega) (by omega)
              ?_ ?_ ?_ ?_ ?_ ?_ ?_ ?_ ?_
            · rfl
            · rfl
            · show (0 : Int) = ((0 : Nat) : Int)
              norm_num
            · show mkLeafData _ _ = _
              rw [List.drop_zero,
                list_take_one (List.map (fun e => e.1 ++ H e.2) m) []
                  (by
                    intro hh
                    rw [hh] at hDlen
                    simp at hDlen
                    omega)]
              rfl
            · intro h
              rfl
            · intro h
              simp at h
            · simp
            · right
              exact ⟨rfl, rfl⟩
            · left
              show (NewWildcardTree twc H m).mt.Ap 0 = _
              rw [wt_Ap_transfer twc H m 0]
              norm_num
            · right
              left
              rfl
            · intro llv hv
              simp at hv
            · intro rlv hv
              have h2 := Option.some.inj hv
              subst h2
              exact hffirst
        · rename_i hsn0
          have hsv1 : 0 < sv := by omega
          have hsvN : sv < (List.map (fun e => e.1 ++ H e.2) m).length :=
            by omega
          have hflast := bnot_eq_false (hslo hsv1)
          have hffirst := bnot_eq_true (hshi hsvN)
          refine Verify_ok twc H (List.map (fun e => e.1 ++ H e.2) m) K
            _ _ (sv - 1) (sv + 1) (by omega) hsib' ?_ ?_ ?_ (by omega)
            (by omega) ?_ ?_ ?_ ?_ ?_ ?_ ?_ ?_ ?_
          · rfl
          · rfl
          · show (↑sv - 1 : Int) = ↑(sv - 1)
            omega
          · show mkLeafData _ _ = _
            rw [show sv + 1 - (sv - 1) = 2 by omega,
              drop_two _ sv hsv1 hsvN]
            rfl
          · intro h
            simp at h
          · intro h
            simp at h
          · simp
            omega
          · left
            show (NewWildcardTree twc H m).mt.Ap (↑sv - 1) = _
            rw [show (↑sv - 1 : Int) = ((sv - 1 : Nat) : Int) by omega]
            exact wt_Ap_transfer twc H m _
          · left
            show (NewWildcardTree twc H m).mt.Ap (↑sv) = _
            rw [show sv + 1 - 1 = sv by omega]
            exact wt_Ap_transfer twc H m _
          · left
            omega
          · intro llv hv
            have h2 := Option.some.inj hv
            subst h2
            rw [wt_mkKey H hH m (sv - 1) (by omega)] at hflast ⊢
            exact strLt_asymm _ _ hflast
          · intro rlv hv
            have h2 := Option.some.inj hv
            subst h2
            exact hffirst
    · rename_i e0 rest hfilter
      rw [hmatch] at hfilter
      simp at hfilter

theorem r_getD_key :
    ∀ (m : List (Bytes × List Bytes)) (i0 t : Nat), t < m.length →
    (((m.enumFrom i0).map
        (fun e => (e.2.1, radixValue.mk e.2.2 e.1))).getD t
      ([], radixValue.mk [] 0)).1 = (m.getD t ([], [])).1 := by
  intro m
  induction m with
  | nil =>
    intro i0 t ht
    simp at ht
  | cons hd tl ih =>
    intro i0 t ht
    cases t with
    | zero => rfl
    | succ t' =>
      simp only [List.enumFrom, List.map_cons, List.getD_cons_succ]
      exact ih (i0 + 1) t' (by simp at ht; omega)

theorem mem_getLastD_cons {α : Type} :
    ∀ (x : α) (l : List α) (d : α), (x :: l).getLastD d ∈ x :: l := by
  intro x l
  induction l generalizing x with
  | nil => intro d; simp
  | cons y l' ih =>
    intro d
    rw [List.getLastD_cons]
    exact List.mem_cons_of_mem x (ih y d)

theorem slice_extend_left (l : List Bytes) (i c : Nat) (hi : 0 < i)
    (hil : i - 1 < l.length) :
    l.getD (i - 1) [] :: ((l.drop i).take c) =
      (l.drop (i - 1)).take (c + 1) := by
  rw [List.drop_eq_getElem_cons hil, show i - 1 + 1 = i by omega]
  rw [List.getD_eq_getElem _ _ hil]
  rfl

theorem slice_extend_right (l : List Bytes) (i c : Nat)
    (hic : i + c < l.length) :
    ((l.drop i).take c) ++ [l.getD (i + c) []] = (l.drop i).take (c + 1) := by
  rw [List.take_succ]
  congr 1
  rw [List.getElem?_drop]
  rw [List.getElem?_eq_getElem hic]
  rw [List.getD_eq_getElem _ _ hic]
  rfl

theorem mkLeafData_eval (p : Proof) (a : Answer)
    (hlen : a.subject.length = a.payload.length)
    (hasc : ascending a.subject = true)
    (hll : ∀ llv, p.ll = some llv → 0 < a.subject.length →
      strLt (a.subject.headD []) (mkKey llv) = false)
    (hrl : ∀ rlv, p.rl = some rlv → 0 < a.subject.length →
      strLt (mkKey rlv) (a.subject.getLastD []) = false) :
    mkLeafData p a =
      some ((match p.ll with | some llv => [llv] | none => []) ++
        (a.subject.zip a.payload).map (fun e => e.1 ++ p.hash e.2) ++
        (match p.rl with | some rlv => [rlv] | none => [])) := by
  rcases hpll : p.ll with _ | llv <;> rcases hprl : p.rl with _ | rlv
  · rw [mkLeafData, if_pos hlen]
    simp only [hpll, hprl, hasc]
    norm_num
  · have h2 : (decide (0 < a.subject.length) &&
        strLt (mkKey rlv) (a.subject.getLastD [])) = false := by
      by_cases h0 : 0 < a.subject.length
      · rw [hrl rlv hprl h0, Bool.and_false]
      · rw [decide_eq_false h0, Bool.false_and]
    rw [mkLeafData, if_pos hlen]
    simp only [hpll, hprl, hasc, h2]
    norm_num
  · have h1 : (decide (0 < a.subject.length) &&
        strLt (a.subject.headD []) (mkKey llv)) = false := by
      by_cases h0 : 0 < a.subject.length
      · rw [hll llv hpll h0, Bool.and_false]
      · rw [decide_eq_false h0, Bool.false_and]
    rw [mkLeafData, if_pos hlen]
    simp only [hpll, hprl, hasc, h1]
    norm_num
  · have h1 : (decide (0 < a.subject.length) &&
        strLt (a.subject.headD []) (mkKey llv)) = false := by
      by_cases h0 : 0 < a.subject.length
      · rw [hll llv hpll h0, Bool.and_false]
      · rw [decide_eq_false h0, Bool.false_and]
    have h2 : (decide (0 < a.subject.length) &&
        strLt (mkKey rlv) (a.subject.getLastD [])) = false := by
      by_cases h0 : 0 < a.subject.length
      · rw [hrl rlv hprl h0, Bool.and_false]
      · rw [decide_eq_false h0, Bool.false_and]
    rw [mkLeafData, if_pos hlen]
    simp only [hpll, hprl, hasc, h1, h2]
    norm_num

theorem r_getD_payload :
    ∀ (m : List (Bytes × List Bytes)) (i0 t : Nat), t < m.length →
    (((m.enumFrom i0).map
        (fun e => (e.2.1, radixValue.mk e.2.2 e.1))).getD t
      ([], radixValue.mk [] 0)).2.payload = (m.getD t ([], [])).2 := by
  intro m
  induction m with
  | nil =>
    intro i0 t ht
    simp at ht
  | cons hd tl ih =>
    intro i0 t ht
    cases t with
    | zero => rfl
    | succ t' =>
      simp only [List.enumFrom, List.map_cons, List.getD_cons_succ]
      exact ih (i0 + 1) t' (by simp at ht; omega)

set_option maxHeartbeats 1000000 in
theorem C1_match_case (twc : Bytes) (H : Hash)
    (m : List (Bytes × List Bytes)) (K : Bytes)
    (hsorted : m.Pairwise (fun x y => strLt x.1 y.1 = true))
    (hH : ∀ parts, (H parts).length = hashLen)
    (hsib : (NewWildcardTree twc H m).mt.sibOk
      (NewWildcardTree twc H m).mt.data = true)
    (e0 : Bytes × radixValue) (rest : List (Bytes × radixValue))
    (hmatch : (NewWildcardTree twc H m).r.filter
      (fun e => K.isPrefixOf e.1) = e0 :: rest) :
    ((NewWildcardTree twc H m).Get K).2.Verify K
      ((NewWildcardTree twc H m).Get K).1 ((m.length : Nat) : Int)
      ((NewWildcardTree twc H m).Snapshot) = true := by
  have hDlen : (List.map (fun e => e.1 ++ H e.2) m).length = m.length := by
    simp
  have hsib' := wt_sib_transfer twc H m hsib
  have hRlen : (NewWildcardTree twc H m).r.length = m.length := by
    simp [NewWildcardTree]
  have hr_pw : ((NewWildcardTree twc H m).r).Pairwise
      (fun x y => strLt x.1 y.1 = true) := r_pairwise m hsorted 0
  have hint : ∀ (x y z : Bytes × radixValue),
      strLt x.1 y.1 = true → strLt y.1 z.1 = true →
      K.isPrefixOf x.1 = true → K.isPrefixOf z.1 = true →
      K.isPrefixOf y.1 = true := by
    intro x y z hxy hyz hpx hpz
    apply isPrefixOf_interval K y.1 z.1 hpz hyz
    cases hb : strLt y.1 K
    · rfl
    · have h1 := strLt_trans x.1 y.1 K hxy hb
      rw [isPrefixOf_not_strLt K x.1 hpx] at h1
      exact absurd h1 (by simp)
  obtain ⟨A, C, hdec0, hA, hC⟩ :=
    filter_infix_of_interval (fun e => K.isPrefixOf e.1)
      (fun x y => strLt x.1 y.1 = true) hint
      ((NewWildcardTree twc H m).r) hr_pw
  rw [hmatch] at hdec0
  have hlen_decomp : m.length = A.length + (rest.length + 1) + C.length := by
    have hh := congrArg List.length hdec0
    rw [hRlen] at hh
    simp at hh
    omega
  have hAlt : A.length < m.length := by omega
  have hgetR : (NewWildcardTree twc H m).r.getD A.length
      ([], radixValue.mk [] 0) = e0 := by
    rw [show (NewWildcardTree twc H m).r = A ++ e0 :: (rest ++ C) by
      rw [hdec0]; simp]
    exact getD_append_cons A e0 (rest ++ C) _
  have hkeyR : ∀ t, t < m.length →
      ((NewWildcardTree twc H m).r.getD t ([], radixValue.mk [] 0)).1 =
        (m.getD t ([], [])).1 :=
    fun t ht => r_getD_key m 0 t ht
  have hidxR : ∀ t, t < m.length →
      ((NewWildcardTree twc H m).r.getD t ([], radixValue.mk [] 0)).2.index
        = t :=
    fun t ht => (r_getD_index m 0 t ht).trans (by omega)
  have hidx0 : e0.2.index = A.length := by
    rw [← hgetR]
    exact hidxR A.length hAlt
  have hkey0 : e0.1 = (m.getD A.length ([], [])).1 := by
    rw [← hgetR]
    exact hkeyR A.length hAlt
  have hpe0 : K.isPrefixOf e0.1 = true := by
    have hmem : e0 ∈ (NewWildcardTree twc H m).r.filter
        (fun e => K.isPrefixOf e.1) := by
      rw [hmatch]
      exact List.mem_cons_self _ _
    exact (List.mem_filter.mp hmem).2
  have hDR' : ((NewWildcardTree twc H m).r).map
      (fun e => e.1 ++ H e.2.payload) =
      List.map (fun e => e.1 ++ H e.2) m := r_map_leaf H m 0
  have hDdec : List.map (fun e => e.1 ++ H e.2) m =
      A.map (fun e => e.1 ++ H e.2.payload) ++
      (e0 :: rest).map (fun e => e.1 ++ H e.2.payload) ++
      C.map (fun e => e.1 ++ H e.2.payload) := by
    rw [← hDR', hdec0]
    simp
  have hmids : ((List.map (fun e => e.1 ++ H e.2) m).drop A.length).take
      (rest.length + 1) =
      (e0 :: rest).map (fun e => e.1 ++ H e.2.payload) := by
    have hsl := slice_of_append (A.map (fun e => e.1 ++ H e.2.payload))
      ((e0 :: rest).map (fun e => e.1 ++ H e.2.payload))
      (C.map (fun e => e.1 ++ H e.2.payload))
    rw [show (A.map (fun e => e.1 ++ H e.2.payload)).length = A.length by
        simp,
      show ((e0 :: rest).map (fun e => e.1 ++ H e.2.payload)).length =
        rest.length + 1 by simp] at hsl
    rw [← hDdec] at hsl
    exact hsl
  obtain ⟨hAB, hAC, hBC, hBpw⟩ := pairwise_three (hdec0 ▸ hr_pw)
  have hsubj_pw : ((e0 :: rest).map (fun e => e.1)).Pairwise
      (fun x y => strLt x y = true) := List.pairwise_map.mpr hBpw
  have hasc : ascending ((e0 :: rest).map (fun e => e.1)) = true :=
    ascending_of_pairwise _ hsubj_pw
  rw [wt_snapshot_transfer twc H m]
  simp only [WildcardTree.Get]
  split
  · rename_i h
    exfalso
    rw [show (NewWildcardTree twc H m).mt.data =
      List.map (fun e => e.1 ++ H e.2) m from rfl, hDlen] at h
    omega
  · split
    · rename_i hfilter
      rw [hmatch] at hfilter
      simp at hfilter
    · rename_i f0 frest hfilter
      rw [hmatch] at hfilter
      injection hfilter with h1 h2
      subst h1
      subst h2
      rw [show (NewWildcardTree twc H m).mt.data =
        List.map (fun e => e.1 ++ H e.2) m from rfl]
      rw [hmatch, hidx0]
      simp only [List.length_map, List.length_cons]
      rw [show ((m.length : Nat) : Int) =
        (((List.map (fun e => e.1 ++ H e.2) m).length : Nat) : Int) by simp]
      have hmideq : ((((e0 :: rest).map (fun e => e.1)).zip
          ((e0 :: rest).map (fun e => e.2.payload))).map
          (fun e => e.1 ++ H e.2)) =
          (e0 :: rest).map (fun e => e.1 ++ H e.2.payload) := by
        rw [List.zip_map', List.map_map]
        rfl
      have hc2lgen : 0 < A.length →
          strLt K ((m.getD (A.length - 1) ([], [])).1) = false := by
        intro hA1
        cases hb : strLt K (m.getD (A.length - 1) ([], [])).1
        · rfl
        · exfalso
          have hxmem : (NewWildcardTree twc H m).r.getD (A.length - 1)
              ([], radixValue.mk [] 0) ∈ A := by
            rw [hdec0, List.append_assoc,
              List.getD_append _ _ _ _ (by omega),
              List.getD_eq_getElem _ _ (by omega)]
            exact List.getElem_mem _
          have hxkey := hkeyR (A.length - 1) (by omega)
          have hxpre := hA _ hxmem
          rw [hxkey] at hxpre
          have hsx : strLt ((m.getD (A.length - 1) ([], [])).1) e0.1 =
              true := by
            rw [hkey0]
            exact keys_sorted m hsorted (A.length - 1) A.length (by omega)
              hAlt
          have hxK : strLt ((m.getD (A.length - 1) ([], [])).1) K = false :=
            strLt_asymm _ _ hb
          have hfin := isPrefixOf_interval K _ e0.1 hpe0 hsx hxK
          rw [hxpre] at hfin
          exact absurd hfin (by simp)
      have hllord : 0 < A.length →
          strLt e0.1 ((m.getD (A.length - 1) ([], [])).1) = false := by
        intro hA1
        rw [hkey0]
        exact strLt_asymm _ _
          (keys_sorted m hsorted (A.length - 1) A.length (by omega) hAlt)
      have hlastD : (((e0 :: rest).map (fun e => e.1)).getLastD []) =
          ((e0 :: rest).getLastD ([], radixValue.mk [] 0)).1 :=
        map_getLastD (fun e => e.1) (e0 :: rest) ([], radixValue.mk [] 0)
      split
      · rename_i hout
        split
        · rename_i hin
          -- both brackets present
          have hCne : C ≠ [] := by
            intro hc
            rw [hc] at hlen_decomp
            simp at hlen_decomp
            omega
          rcases C with _ | ⟨c0, C'⟩
          · exact absurd rfl hCne
          have hgetC : (NewWildcardTree twc H m).r.getD
              (A.length + (rest.length + 1)) ([], radixValue.mk [] 0) =
              c0 := by
            rw [show (NewWildcardTree twc H m).r =
              (A ++ e0 :: rest) ++ c0 :: C' by rw [hdec0]]
            rw [show A.length + (rest.length + 1) =
              (A ++ e0 :: rest).length by simp]
            exact getD_append_cons (A ++ e0 :: rest) c0 C' _
          have hrlkey : mkKey ((List.map (fun e => e.1 ++ H e.2) m).getD
              (A.length + (rest.length + 1)) []) = c0.1 := by
            rw [wt_mkKey H hH m _ (by omega)]
            rw [← hkeyR (A.length + (rest.length + 1)) (by omega), hgetC]
          have hrlord : strLt c0.1
              (((e0 :: rest).getLastD ([], radixValue.mk [] 0)).1) =
              false := by
            apply strLt_asymm
            exact hBC _ (mem_getLastD_cons e0 rest _) c0 (by simp)
          have hc2rv : strLt c0.1 K = false := by
            cases hb : strLt c0.1 K
            · rfl
            · have h1 := strLt_trans e0.1 c0.1 K
                (hBC e0 (by simp) c0 (by simp)) hb
              rw [isPrefixOf_not_strLt K e0.1 hpe0] at h1
              exact absurd h1 (by simp)
          refine Verify_ok twc H (List.map (fun e => e.1 ++ H e.2) m) K
            _ _ (A.length - 1) (A.length + (rest.length + 1) + 1)
            (by omega) hsib' ?_ ?_ ?_ (by omega) (by omega) ?_ ?_ ?_ ?_
            ?_ ?_ ?_ ?_ ?_
          · rfl
          · rfl
          · show (↑A.length - 1 : Int) = ↑(A.length - 1)
            omega
          · refine (mkLeafData_eval _ _ (by simp) hasc ?_ ?_).trans ?_
            · intro llv hv h0
              have h2 := Option.some.inj hv
              subst h2
              show strLt e0.1 _ = false
              rw [wt_mkKey H hH m _ (by omega)]
              exact hllord hout
            · intro rlv hv h0
              have h2 := Option.some.inj hv
              subst h2
              rw [hrlkey, hlastD]
              exact hrlord
            · refine congrArg some ?_
              show [(List.map (fun e => e.1 ++ H e.2) m).getD
                  (A.length - 1) []] ++
                ((((e0 :: rest).map (fun e => e.1)).zip
                  ((e0 :: rest).map (fun e => e.2.payload))).map
                  (fun e => e.1 ++ H e.2)) ++
                [(List.map (fun e => e.1 ++ H e.2) m).getD
                  (A.length + (rest.length + 1)) []] = _
              rw [hmideq, ← hmids, List.append_assoc,
                slice_extend_right _ _ _ (by omega),
                List.singleton_append,
                slice_extend_left _ _ _ hout (by omega)]
              congr 1
              omega
          · intro h
            simp at h
          · intro h
            simp at h
          · simp
            omega
          · left
            show (NewWildcardTree twc H m).mt.Ap (↑A.length - 1) = _
            rw [show (↑A.length - 1 : Int) = ((A.length - 1 : Nat) : Int)
              by omega]
            exact wt_Ap_transfer twc H m _
          · left
            show (NewWildcardTree twc H m).mt.Ap
              (↑(A.length + (rest.length + 1))) = _
            rw [show A.length + (rest.length + 1) + 1 - 1 =
              A.length + (rest.length + 1) by omega]
            exact wt_Ap_transfer twc H m _
          · left
            omega
          · intro llv hv
            have h2 := Option.some.inj hv
            subst h2
            rw [wt_mkKey H hH m _ (by omega)]
            exact hc2lgen hout
          · intro rlv hv
            have h2 := Option.some.inj hv
            subst h2
            rw [hrlkey]
            exact hc2rv
        · rename_i hin
          -- left bracket only, range ends at the last leaf
          refine Verify_ok twc H (List.map (fun e => e.1 ++ H e.2) m) K
            _ _ (A.length - 1) (A.length + (rest.length + 1))
            (by omega) hsib' ?_ ?_ ?_ (by omega) (by omega) ?_ ?_ ?_ ?_
            ?_ ?_ ?_ ?_ ?_
          · rfl
          · rfl
          · show (↑A.length - 1 : Int) = ↑(A.length - 1)
            omega
          · refine (mkLeafData_eval _ _ (by simp) hasc ?_ ?_).trans ?_
            · intro llv hv h0
              have h2 := Option.some.inj hv
              subst h2
              show strLt e0.1 _ = false
              rw [wt_mkKey H hH m _ (by omega)]
              exact hllord hout
            · intro rlv hv h0
              simp at hv
            · refine congrArg some ?_
              show [(List.map (fun e => e.1 ++ H e.2) m).getD
                  (A.length - 1) []] ++
                ((((e0 :: rest).map (fun e => e.1)).zip
                  ((e0 :: rest).map (fun e => e.2.payload))).map
                  (fun e => e.1 ++ H e.2)) ++ [] = _
              rw [List.append_nil, hmideq, ← hmids,
                List.singleton_append,
                slice_extend_left _ _ _ hout (by omega)]
              congr 1
              omega
          · intro h
            simp at h
          · intro h
            omega
          · simp
            omega
          · left
            show (NewWildcardTree twc H m).mt.Ap (↑A.length - 1) = _
            rw [show (↑A.length - 1 : Int) = ((A.length - 1 : Nat) : Int)
              by omega]
            exact wt_Ap_transfer twc H m _
          · right
            exact ⟨rfl, by omega⟩
          · left
            omega
          · intro llv hv
            have h2 := Option.some.inj hv
            subst h2
            rw [wt_mkKey H hH m _ (by omega)]
            exact hc2lgen hout
          · intro rlv hv
            simp at hv
      · rename_i hout
        split
        · rename_i hin
          -- right bracket only, range starts at leaf 0
          have hCne : C ≠ [] := by
            intro hc
            rw [hc] at hlen_decomp
            simp at hlen_decomp
            omega
          rcases C with _ | ⟨c0, C'⟩
          · exact absurd rfl hCne
          have hgetC : (NewWildcardTree twc H m).r.getD
              (A.length + (rest.length + 1)) ([], radixValue.mk [] 0) =
              c0 := by
            rw [show (NewWildcardTree twc H m).r =
              (A ++ e0 :: rest) ++ c0 :: C' by rw [hdec0]]
            rw [show A.length + (rest.length + 1) =
              (A ++ e0 :: rest).length by simp]
            exact getD_append_cons (A ++ e0 :: rest) c0 C' _
          have hrlkey : mkKey ((List.map (fun e => e.1 ++ H e.2) m).getD
              (A.length + (rest.length + 1)) []) = c0.1 := by
            rw [wt_mkKey H hH m _ (by omega)]
            rw [← hkeyR (A.length + (rest.length + 1)) (by omega), hgetC]
          have hrlord : strLt c0.1
              (((e0 :: rest).getLastD ([], radixValue.mk [] 0)).1) =
              false := by
            apply strLt_asymm
            exact hBC _ (mem_getLastD_cons e0 rest _) c0 (by simp)
          have hc2rv : strLt c0.1 K = false := by
            cases hb : strLt c0.1 K
            · rfl
            · have h1 := strLt_trans e0.1 c0.1 K
                (hBC e0 (by simp) c0 (by simp)) hb
              rw [isPrefixOf_not_strLt K e0.1 hpe0] at h1
              exact absurd h1 (by simp)
          refine Verify_ok twc H (List.map (fun e => e.1 ++ H e.2) m) K
            _ _ A.length (A.length + (rest.length + 1) + 1)
            (by omega) hsib' ?_ ?_ ?_ (by omega) (by omega) ?_ ?_ ?_ ?_
            ?_ ?_ ?_ ?_ ?_
          · rfl
          · rfl
          · rfl
          · refine (mkLeafData_eval _ _ (by simp) hasc ?_ ?_).trans ?_
            · intro llv hv h0
              simp at hv
            · intro rlv hv h0
              have h2 := Option.some.inj hv
              subst h2
              rw [hrlkey, hlastD]
              exact hrlord
            · refine congrArg some ?_
              show [] ++
                ((((e0 :: rest).map (fun e => e.1)).zip
                  ((e0 :: rest).map (fun e => e.2.payload))).map
                  (fun e => e.1 ++ H e.2)) ++
                [(List.map (fun e => e.1 ++ H e.2) m).getD
                  (A.length + (rest.length + 1)) []] = _
              rw [List.nil_append, hmideq, ← hmids,
                slice_extend_right _ _ _ (by omega)]
              congr 1
              omega
          · intro h
            omega
          · intro h
            simp at h
          · simp
            omega
          · right
            exact ⟨rfl, by omega⟩
          · left
            show (NewWildcardTree twc H m).mt.Ap
              (↑(A.length + (rest.length + 1))) = _
            rw [show A.length + (rest.length + 1) + 1 - 1 =
              A.length + (rest.length + 1) by omega]
            exact wt_Ap_transfer twc H m _
          · right
            left
            rfl
          · intro llv hv
            simp at hv
          · intro rlv hv
            have h2 := Option.some.inj hv
            subst h2
            rw [hrlkey]
            exact hc2rv
        · rename_i hin
          -- no brackets: the whole tree matches
          have hA0 : A = [] := by
            have : A.length = 0 := by omega
            exact List.length_eq_zero.mp this
          have hC0 : C = [] := by
            have : C.length = 0 := by omega
            exact List.length_eq_zero.mp this
          have hDmid : List.map (fun e => e.1 ++ H e.2) m =
              (e0 :: rest).map (fun e => e.1 ++ H e.2.payload) := by
            rw [hDdec, hA0, hC0]
            simp
          rcases Nat.lt_or_ge m.length 2 with hN1 | hN2
          · refine Verify_ok_one twc H (List.map (fun e => e.1 ++ H e.2) m)
              K _ _ (by omega) ?_ ?_ ?_ ?_ ?_ ?_ ?_ ?_ ?_
            · rfl
            · rfl
            · show ((A.length : Nat) : Int) = 0
              omega
            · refine (mkLeafData_eval _ _ (by simp) hasc ?_ ?_).trans ?_
              · intro llv hv h0
                simp at hv
              · intro rlv hv h0
                simp at hv
              · refine congrArg some ?_
                show [] ++
                  ((((e0 :: rest).map (fun e => e.1)).zip
                    ((e0 :: rest).map (fun e => e.2.payload))).map
                    (fun e => e.1 ++ H e.2)) ++ [] = _
                rw [List.nil_append, List.append_nil, hmideq, hDmid]
            · have hrest : rest = [] := List.length_eq_zero.mp (by omega)
              subst hrest
              simp
            · rfl
            · rfl
            · intro llv hv
              simp at hv
            · intro rlv hv
              simp at hv
          · refine Verify_ok twc H (List.map (fun e => e.1 ++ H e.2) m) K
              _ _ A.length (A.length + (rest.length + 1))
              (by omega) hsib' ?_ ?_ ?_ (by omega) (by omega) ?_ ?_ ?_ ?_
              ?_ ?_ ?_ ?_ ?_
            · rfl
            · rfl
            · rfl
            · refine (mkLeafData_eval _ _ (by simp) hasc ?_ ?_).trans ?_
              · intro llv hv h0
                simp at hv
              · intro rlv hv h0
                simp at hv
              · refine congrArg some ?_
                show [] ++
                  ((((e0 :: rest).map (fun e => e.1)).zip
                    ((e0 :: rest).map (fun e => e.2.payload))).map
                    (fun e => e.1 ++ H e.2)) ++ [] = _
                rw [List.nil_append, List.append_nil, hmideq, ← hmids]
                rw [show A.length + (rest.length + 1) - A.length =
                  rest.length + 1 by omega]
            · intro h
              omega
            · intro h
              omega
            · simp
            · right
              exact ⟨rfl, by omega⟩
            · right
              exact ⟨rfl, by omega⟩
            · right
              left
              rfl
            · intro llv hv
              simp at hv
            · intro rlv hv
              simp at hv

/-- Claim C1 (amended): wildcard soundness holds for every store in radix
order whose hash function always returns digests of the tree's digest
width and whose tree has no sibling-digest collisions: for every query
key, the proof returned by `Get` verifies against the answer, the store
size and the snapshot. -/
theorem C1_wildcard_soundness (twc : Bytes) (H : Hash)
    (m : List (Bytes × List Bytes)) (K : Bytes)
    (hsorted : m.Pairwise (fun x y => strLt x.1 y.1 = true))
    (hH : ∀ parts, (H parts).length = hashLen)
    (hsib : (NewWildcardTree twc H m).mt.sibOk
      (NewWildcardTree twc H m).mt.data = true) :
    ((NewWildcardTree twc H m).Get K).2.Verify K
      ((NewWildcardTree twc H m).Get K).1 ((m.length : Nat) : Int)
      ((NewWildcardTree twc H m).Snapshot) = true := by
  by_cases hm : m = []
  · subst hm
    exact C1_empty_case twc H K
  · rcases hfil : (NewWildcardTree twc H m).r.filter
      (fun e => K.isPrefixOf e.1) with _ | ⟨e0, rest⟩
    · exact C1_nomatch_case twc H m K hsorted hH hsib hm hfil
    · exact C1_match_case twc H m K hsorted hH hsib e0 rest hfil

def c1H : Hash := fun _ => 255 :: List.replicate 32 0

def c1m : List (Bytes × List Bytes) := [([97], [[1]]), ([97, 98], [[2]])]

def c1wt : WildcardTree := NewWildcardTree [255] c1H c1m

/-- Claim C1 (counterexample): with a hash function returning 33-byte
digests whose first byte is 255, the store {"a", "ab"} and the query key
"ab", `Verify` rejects the proof `Get` returns: the left bracket leaf is
the leaf of "a", `mkKey` strips only 32 bytes leaving "a\xff", and the
check `key < mkKey(ll)` fires. The claim quantifies over every hash
function and so fails. -/
theorem C1_cex :
    ((c1wt.Get [97, 98]).2.Verify [97, 98] (c1wt.Get [97, 98]).1
      ((c1m.length : Nat) : Int) c1wt.Snapshot) = false := by
  decide

def hash32 : Hash :=
  fun parts => (encHash parts ++ List.replicate hashLen 0).take hashLen

/-- Witness for C1 on a one-key store with a 32-byte-digest hash. -/
theorem C1_witness :
    (([([97], [[1]])] : List (Bytes × List Bytes)).Pairwise
        (fun x y => strLt x.1 y.1 = true) ∧
      (∀ parts, (hash32 parts).length = hashLen) ∧
      (NewWildcardTree [7] hash32 [([97], [[1]])]).mt.sibOk
        (NewWildcardTree [7] hash32 [([97], [[1]])]).mt.data = true) ∧
    ((NewWildcardTree [7] hash32 [([97], [[1]])]).Get [97]).2.Verify [97]
      ((NewWildcardTree [7] hash32 [([97], [[1]])]).Get [97]).1
      ((([([97], [[1]])] : List (Bytes × List Bytes)).length : Nat) : Int)
      ((NewWildcardTree [7] hash32 [([97], [[1]])]).Snapshot) = true := by
  have h1 : ([([97], [[1]])] : List (Bytes × List Bytes)).Pairwise
      (fun x y => strLt x.1 y.1 = true) := by simp
  have h2 : ∀ parts, (hash32 parts).length = hashLen := by
    intro parts
    simp [hash32, hashLen]
  have h3 : (NewWildcardTree [7] hash32 [([97], [[1]])]).mt.sibOk
      (NewWildcardTree [7] hash32 [([97], [[1]])]).mt.data = true := by
    rw [MerkleTree.sibOk]
    norm_num [NewWildcardTree, NewMerkleTree]
  exact ⟨⟨h1, h2, h3⟩,
    C1_wildcard_soundness [7] hash32 [([97], [[1]])] [97] h1 h2 h3⟩

/-- Witness for C2 on the two-leaf tree, range `[1, 2)` (touching the
right edge). -/
theorem C2_witness :
    (1 ≤ mtTwo.data.length ∧ mtTwo.data.length ≤ 32 ∧
      mtTwo.sibOk mtTwo.data = true ∧ (1 : Nat) < 2 ∧
      2 ≤ mtTwo.data.length ∧
      (2 ≤ 2 - 1 ∨ (1 : Nat) = 0 ∨ 2 = mtTwo.data.length)) ∧
    mtTwo.MthFromRangeAp ((mtTwo.data.drop 1).take (2 - 1)) ((1 : Nat))
      (↑mtTwo.data.length)
      (if 0 < (1 : Nat) then mtTwo.Ap ((1 : Nat)) else [])
      (if 2 < mtTwo.data.length then mtTwo.Ap ((2 - 1 : Nat)) else []) =
      Except.ok mtTwo.Mth := by
  have hlen : mtTwo.data.length = 2 := rfl
  have hsib : mtTwo.sibOk mtTwo.data = true := by
    simp [MerkleTree.sibOk, MerkleTree.mth, mtTwo, NewMerkleTree, lpow2s,
      bitLen, bitLenF, encHash]
  exact ⟨⟨by omega, by omega, hsib, by omega, by omega, by omega⟩,
    C2_range_round_trip mtTwo 1 2 (by omega) (by omega) hsib (by omega)
      (by omega) (by omega)⟩

end Lwm
